import Mathlib

/-!
# httpsuite: the probe engines

A shallow embedding of the smuggle engine (`internal/smuggle/smuggle.go`: frame codec,
HPACK block, gadget parser, probe classification), of the bypass engine
(`internal/bypass`: calibration filter, header values, double-encoding and path-case
URLs), of the CORS oracle and origin list (`internal/cors/cors.go`), of the CRLF URL
generator and oracle (`internal/crlf/crlf.go`) and of the classification of the methods
engine (`internal/methods/methods.go`).

Conventions of the embedding:

* a Go `byte` is a natural number below 256, a `uint32` one below `2 ^ 32`; a
  conversion `byte(x)` is written `x % 256`;
* a Go `string` and a `[]byte` are both lists of bytes (`Bytes`); `len` is `List.length`;
* a function that performs I/O takes the operation it performs (a write, a full read)
  as a parameter and returns `Except`, an error being whatever that operation returned.
-/

namespace Httpsuite

/-- A Go `[]byte` or `string`: a sequence of bytes, each a natural number below 256. -/
abbrev Bytes := List Nat

/-- The UTF-8 encoding of one code point, as Go stores the characters of a string literal. -/
def utf8Encode (c : Nat) : Bytes :=
  if c < 0x80 then [c]
  else if c < 0x800 then [0xC0 + c / 64, 0x80 + c % 64]
  else if c < 0x10000 then [0xE0 + c / 4096, 0x80 + c / 64 % 64, 0x80 + c % 64]
  else [0xF0 + c / 262144, 0x80 + c / 4096 % 64, 0x80 + c / 64 % 64, 0x80 + c % 64]

/-- The bytes of a Go string literal. -/
def str (s : String) : Bytes := s.toList.flatMap (fun c => utf8Encode c.toNat)

/-! ## The frame codec (`writeFrame`, `readFrame`) -/

namespace smuggle

/-- `frameData = 0x0`. -/
def frameData : Nat := 0x0
/-- `frameHeaders = 0x1`. -/
def frameHeaders : Nat := 0x1
/-- `frameSettings = 0x4`. -/
def frameSettings : Nat := 0x4
/-- `frameGoAway = 0x7`. -/
def frameGoAway : Nat := 0x7
/-- `frameWindowUpdate = 0x8`. -/
def frameWindowUpdate : Nat := 0x8
/-- `flagEndStream = 0x1`. -/
def flagEndStream : Nat := 0x1
/-- `flagEndHeaders = 0x4`. -/
def flagEndHeaders : Nat := 0x4

/-- `Frame represents a basic HTTP/2 frame`: the struct of smuggle.go, the field `Type`
spelled `FType`. -/
structure Frame where
  Length : Nat
  FType : Nat
  Flags : Nat
  StreamID : Nat
  Payload : Bytes
  deriving DecidableEq, Repr

/-- `binary.BigEndian.PutUint32`: the four bytes of a `uint32`, most significant first. -/
def putUint32 (v : Nat) : Bytes :=
  [(v >>> 24) % 256, (v >>> 16) % 256, (v >>> 8) % 256, v % 256]

/-- `binary.BigEndian.Uint32` on a four-byte slice; on bytes no shift leaves 32 bits. -/
def uint32 (b : Bytes) : Nat :=
  b.getD 3 0 ||| b.getD 2 0 <<< 8 ||| b.getD 1 0 <<< 16 ||| b.getD 0 0 <<< 24

/-- The nine header bytes `writeFrame` fills in before its first write. -/
def frameHeader (frameType flags streamID : Nat) (payload : Bytes) : Bytes :=
  let length := payload.length
  [(length >>> 16) % 256, (length >>> 8) % 256, length % 256, frameType, flags]
    ++ putUint32 (streamID &&& 0x7fffffff)

/-- `writeFrame(w, frameType, flags, streamID, payload)` over a writer with state `σ`:
the header is written first; a failed write returns its error; the payload is written
only when it is not empty. -/
def writeFrame {σ ε : Type} (write : σ → Bytes → Except ε σ) (w : σ)
    (frameType flags streamID : Nat) (payload : Bytes) : Except ε σ :=
  let header := frameHeader frameType flags streamID payload
  match write w header with
  | .error err => .error err
  | .ok w1 => if payload.length > 0 then write w1 payload else .ok w1

/-- A writer that appends to a byte buffer and never fails (`bytes.Buffer`). -/
def bufferWrite (buf : Bytes) (p : Bytes) : Except Unit Bytes := .ok (buf ++ p)

/-- The errors of `io.ReadFull` on a finite byte source. -/
inductive ReadError where
  | EOF
  | ErrUnexpectedEOF
  deriving DecidableEq, Repr

/-- `io.ReadFull` on a reader holding the bytes `r`: exactly `n` bytes are taken, or the
read fails with `EOF` (nothing left) or `ErrUnexpectedEOF` (too few left). -/
def bytesReadFull (r : Bytes) (n : Nat) : Except ReadError (Bytes × Bytes) :=
  if n ≤ r.length then .ok (r.take n, r.drop n)
  else if r.length = 0 then .error .EOF
  else .error .ErrUnexpectedEOF

/-- `readFrame(r)` over a reader with state `ρ`, `readFull r n` being `io.ReadFull` into a
buffer of `n` bytes. The result carries the reader state left behind. -/
def readFrame {ρ ε : Type} (readFull : ρ → Nat → Except ε (Bytes × ρ)) (r : ρ) :
    Except ε (Frame × ρ) :=
  match readFull r 9 with
  | .error err => .error err
  | .ok (header, r1) =>
    let length := header.getD 0 0 <<< 16 ||| header.getD 1 0 <<< 8 ||| header.getD 2 0
    let frame : Frame :=
      { Length := length
        FType := header.getD 3 0
        Flags := header.getD 4 0
        StreamID := uint32 ((header.drop 5).take 4) &&& 0x7fffffff
        Payload := [] }
    if length > 0 then
      match readFull r1 length with
      | .error err => .error err
      | .ok (p, r2) => .ok ({ frame with Payload := p }, r2)
    else .ok (frame, r1)

/-! ## The HPACK block (`encodeHPACKString`, `buildHPACKHeaders`) -/

/-- `Payload represents a smuggling gadget`. -/
structure Payload where
  HeaderName : Bytes
  HeaderValue : Bytes
  Name : Bytes
  deriving DecidableEq, Repr

/-- The loop of `encodeHPACKString`,
`for remaining >= 128 { buf = append(buf, byte(remaining%128+128)); remaining /= 128 }`,
returning `buf` and `remaining` as the loop leaves them. -/
def encodeLoop (buf : Bytes) (remaining : Nat) : Bytes × Nat :=
  if 128 ≤ remaining then
    encodeLoop (buf ++ [(remaining % 128 + 128) % 256]) (remaining / 128)
  else (buf, remaining)
termination_by remaining
decreasing_by omega

/-- `encodeHPACKString(s)`. -/
def encodeHPACKString (s : Bytes) : Bytes :=
  let length := s.length
  if length < 127 then
    [length % 256] ++ s
  else
    let buf := [127]
    let remaining := length - 127
    let (buf, remaining) := encodeLoop buf remaining
    let buf := buf ++ [remaining % 256]
    buf ++ s

/-- The fixed user agent of `buildHPACKHeaders`. -/
def userAgent : Bytes :=
  str "Mozilla/5.0 (X11; Linux x86_64; rv:60.0) Gecko/20100101 Firefox/60.0"

/-- `buildHPACKHeaders(host, path, payload)`, one `append` per line as in the source. -/
def buildHPACKHeaders (host path : Bytes) (payload : Payload) : Bytes :=
  let buf : Bytes := []
  let buf := buf ++ [0x83]
  let buf := buf ++ [0x87]
  let buf := buf ++ [0x44]
  let buf := buf ++ encodeHPACKString path
  let buf := buf ++ [0x41]
  let buf := buf ++ encodeHPACKString host
  let buf := buf ++ [0x00]
  let buf := buf ++ encodeHPACKString (str "user-agent")
  let buf := buf ++ encodeHPACKString userAgent
  let buf := buf ++ [0x00]
  let buf := buf ++ encodeHPACKString payload.HeaderName
  let buf := buf ++ encodeHPACKString payload.HeaderValue
  buf

/-! ### The reading side of an HPACK string literal (RFC 7541, sections 5.1 and 5.2)

The repository has no HPACK decoder; the two definitions below follow the RFC's
pseudocode and are what the encoder is compared with. -/

/-- RFC 7541 section 5.1, the continuation loop of an integer whose prefix was all ones:
`repeat B = next octet; I = I + (B & 127) * 2^M; M = M + 7 while B & 128 == 128`. -/
def decodeIntegerRest : Bytes → Nat → Nat → Option (Nat × Bytes)
  | [], _, _ => none
  | b :: rest, i, m =>
    if 128 ≤ b then decodeIntegerRest rest (i + (b % 128) * 2 ^ m) (m + 7)
    else some (i + (b % 128) * 2 ^ m, rest)

/-- RFC 7541 section 5.2: a string literal is a first octet holding the Huffman flag
`H` (bit 0x80) and a 7-bit-prefix integer, the string length, then that many octets of
string data. A literal with `H` set is not raw and is not decoded here. The result is the
string and the input left over. -/
def decodeHPACKString : Bytes → Option (Bytes × Bytes)
  | [] => none
  | b :: rest =>
    if 128 ≤ b then none
    else
      let len := if b < 127 then some (b, rest) else decodeIntegerRest rest b 0
      match len with
      | none => none
      | some (n, data) => if n ≤ data.length then some (data.take n, data.drop n) else none

/-- The little-endian base-128 digits of `m`, zero being the single digit 0. -/
def base128Digits (m : Nat) : List Nat := if m = 0 then [0] else Nat.digits 128 m

/-- The length prefix as the HPACK rule words it: the single byte `n` below 127;
otherwise the byte 127, then the base-128 digits of `n - 127`, least significant first,
every digit but the last with the continuation bit `0x80` added. -/
def lengthPrefix (n : Nat) : Bytes :=
  if n < 127 then [n]
  else
    let ds := base128Digits (n - 127)
    127 :: (ds.dropLast.map (fun d => d + 128) ++ ds.drop (ds.length - 1))

/-- The `k` big-endian bytes of `v`: base-256 digits, most significant first. -/
def bigEndian : Nat → Nat → Bytes
  | 0, _ => []
  | k + 1, v => (v / 256 ^ k) % 256 :: bigEndian k v

/-- The number a big-endian byte string stands for. -/
def fromBigEndian (bs : Bytes) : Nat := bs.foldl (fun acc b => acc * 256 + b) 0


end smuggle

/-! ## The standard-library string functions the gadget parser calls

`strings.TrimSpace`, `strings.SplitN`, `strings.ReplaceAll` and `strings.Contains` are Go
library code; they are modelled on byte strings from their documented behaviour. -/

namespace strings

/-- `strings.Index(s, substr)`: the index of the first instance of `substr` in `s`;
`none` stands for Go's `-1`. -/
def Index : Bytes → Bytes → Option Nat
  | [], substr => if substr = [] then some 0 else none
  | c :: s, substr =>
    if substr.isPrefixOf (c :: s) then some 0 else (Index s substr).map (fun i => i + 1)

/-- `strings.Contains(s, substr)`, that is `Index(s, substr) >= 0`. -/
def Contains (s substr : Bytes) : Bool := (Index s substr).isSome

/-- `strings.HasPrefix`. -/
def HasPrefix (s pre : Bytes) : Bool := pre.isPrefixOf s

/-- `strings.HasSuffix`. -/
def HasSuffix (s suf : Bytes) : Bool := suf.isSuffixOf s

/-- The code points `unicode.IsSpace` accepts: `\t \n \v \f \r`, space, U+0085, U+00A0,
and the other characters of the Unicode White_Space property. -/
def spaceRunes : List Nat :=
  [0x09, 0x0A, 0x0B, 0x0C, 0x0D, 0x20, 0x85, 0xA0, 0x1680, 0x2000, 0x2001, 0x2002, 0x2003,
   0x2004, 0x2005, 0x2006, 0x2007, 0x2008, 0x2009, 0x200A, 0x2028, 0x2029, 0x202F, 0x205F,
   0x3000]

/-- The UTF-8 encodings of the white-space code points. Go decodes a rune only from its
shortest encoding, so a string starts (ends) with a white-space rune exactly when it
starts (ends) with one of these byte strings. -/
def spaceEncodings : List Bytes := spaceRunes.map utf8Encode

/-- Strip, at most `fuel` times, one leading byte string of `encs` from `s`. -/
def stripLeading (encs : List Bytes) : Nat → Bytes → Bytes
  | 0, s => s
  | fuel + 1, s =>
    match encs.find? (fun e => e.isPrefixOf s) with
    | some e => stripLeading encs fuel (s.drop e.length)
    | none => s

/-- `strings.TrimLeftFunc(s, unicode.IsSpace)`; every strip removes a byte, so `len(s)`
rounds are enough. -/
def TrimLeftSpace (s : Bytes) : Bytes := stripLeading spaceEncodings s.length s

/-- `strings.TrimRightFunc(s, unicode.IsSpace)`, the same on the reversed string. -/
def TrimRightSpace (s : Bytes) : Bytes :=
  (stripLeading (spaceEncodings.map List.reverse) s.length s.reverse).reverse

/-- `strings.TrimSpace(s)`: `s` with all leading and trailing white space removed, as
defined by Unicode. -/
def TrimSpace (s : Bytes) : Bytes := TrimRightSpace (TrimLeftSpace s)

/-- The loop of `genSplit` for a non-empty separator: up to `n` cuts at the first
instance of `sep` in what is left, then the rest as the last part. -/
def splitLoop : Nat → Bytes → Bytes → List Bytes
  | 0, s, _ => [s]
  | n + 1, s, sep =>
    match Index s sep with
    | none => [s]
    | some m => s.take m :: splitLoop n (s.drop (m + sep.length)) sep

/-- `strings.SplitN(s, sep, n)` for a non-empty `sep` and `n ≥ 0`: at most `n` parts, the
last one the unsplit remainder; `n = 0` gives no part. -/
def SplitN (s sep : Bytes) (n : Nat) : List Bytes :=
  if n = 0 then []
  else
    let n := if n > s.length + 1 then s.length + 1 else n
    splitLoop (n - 1) s sep

/-- The loop of `strings.Replace`: up to `fuel` times, copy up to the first instance of
`old` in what is left, write `new`, and go on behind the instance. -/
def replaceLoop : Nat → Bytes → Bytes → Bytes → Bytes
  | 0, s, _, _ => s
  | fuel + 1, s, old, new =>
    match Index s old with
    | none => s
    | some j => s.take j ++ new ++ replaceLoop fuel (s.drop (j + old.length)) old new

/-- `strings.ReplaceAll(s, old, new)` for a non-empty `old`: every non-overlapping
instance of `old`, from the left, replaced by `new`. Go runs the loop once per instance;
there are at most `len(s)` of them. -/
def ReplaceAll (s old new : Bytes) : Bytes :=
  if old = new then s else replaceLoop s.length s old new

end strings

/-- `fmt.Sprintf("%d", n)` for a non-negative integer: its decimal digits. -/
def decimal (n : Nat) : Bytes :=
  if n = 0 then [0x30] else (Nat.digits 10 n).reverse.map (fun d => d + 0x30)

namespace common

/-- `ScanResult represents the result of any scan module`. -/
structure ScanResult where
  URL : Bytes
  Method : Bytes
  StatusCode : Nat
  ContentLength : Nat
  Detail : Bytes
  Module : Bytes
  Vulnerable : Bool
  deriving DecidableEq, Repr

end common

namespace smuggle

/-! ## The gadget parser (`parsePayloadLine`) -/

/-- `parsePayloadLine(line)`; `none` is the nil pointer. -/
def parsePayloadLine (line : Bytes) : Option Payload :=
  let line := strings.TrimSpace line
  if line = [] then none
  else
    let parts := strings.SplitN line (str "; ") 2
    if parts.length ≠ 2 then none
    else
      let headerName := parts.getD 0 []
      let headerValue := parts.getD 1 []
      let headerName := strings.ReplaceAll headerName (str "\\r") (str "\r")
      let headerName := strings.ReplaceAll headerName (str "\\n") (str "\n")
      let headerName := strings.ReplaceAll headerName (str "\\t") (str "\t")
      let headerValue := strings.ReplaceAll headerValue (str "\\r") (str "\r")
      let headerValue := strings.ReplaceAll headerValue (str "\\n") (str "\n")
      let headerValue := strings.ReplaceAll headerValue (str "\\t") (str "\t")
      some { HeaderName := headerName, HeaderValue := headerValue, Name := line }

/-- The escape rule in the spec's words, in one pass from the left: each two-character
sequence backslash-r, backslash-n, backslash-t becomes the byte CR, LF, TAB; every other
byte is kept. -/
def unescape : Bytes → Bytes
  | [] => []
  | [c] => [c]
  | c :: d :: rest =>
    if c = 0x5C ∧ d = 0x72 then 0x0D :: unescape rest
    else if c = 0x5C ∧ d = 0x6E then 0x0A :: unescape rest
    else if c = 0x5C ∧ d = 0x74 then 0x09 :: unescape rest
    else c :: unescape (d :: rest)

/-! ## One probe (`testPayload`) and its classification (`scanTarget`) -/

/-- `http2Preface`. -/
def http2Preface : Bytes := str "PRI * HTTP/2.0\r\n\r\nSM\r\n\r\n"

/-- A Go `error` as the probe uses it: its `Error()` text, and whether it is a
`net.Error` whose `Timeout()` is true. -/
structure NetError where
  text : Bytes
  timeout : Bool
  deriving DecidableEq, Repr

/-- The TLS connection of one probe, over a connection state `σ`: `Write`, `io.ReadFull`
on it, the negotiated ALPN protocol and `SetReadDeadline` (whose error the source drops). -/
structure Conn (σ : Type) where
  write : σ → Bytes → Except NetError σ
  readFull : σ → Nat → Except NetError (Bytes × σ)
  negotiatedProtocol : σ → Bytes
  setReadDeadline : σ → Nat → σ

/-- Lines 133 to 212 of `testPayload`: everything up to and including the read of the
response frame. An early `return` of the source is `.error` with the string returned;
`.ok` is the frame the last `readFrame` delivered. `dial` is what `tls.DialWithDialer`
returned. -/
def exchange {σ : Type} (net : Conn σ) (dial : Except NetError σ) (detectTimeout : Nat)
    (host path query : Bytes) (payload : Payload) : Except Bytes Frame :=
  match dial with
  | .error err => .error (str "connection error: " ++ err.text)
  | .ok conn =>
    if net.negotiatedProtocol conn ≠ str "h2" then .error (str "h2 not supported")
    else
    match net.write conn http2Preface with
    | .error err => .error (str "preface error: " ++ err.text)
    | .ok conn =>
    match writeFrame net.write conn frameSettings 0 0 [] with
    | .error err => .error (str "settings error: " ++ err.text)
    | .ok conn =>
    match readFrame net.readFull conn with
    | .error err => .error (str "read settings error: " ++ err.text)
    | .ok (_, conn) =>
    match writeFrame net.write conn frameSettings 0x1 0 [] with
    | .error err => .error (str "settings ack error: " ++ err.text)
    | .ok conn =>
    let targetPath := path
    let targetPath := if targetPath = [] then str "/" else targetPath
    let targetPath := if query ≠ [] then targetPath ++ (str "?" ++ query) else targetPath
    let headers := buildHPACKHeaders host targetPath payload
    match writeFrame net.write conn frameHeaders flagEndHeaders 1 headers with
    | .error err => .error (str "headers error: " ++ err.text)
    | .ok conn =>
    let dataBody := str "99\r\n"
    match writeFrame net.write conn frameData flagEndStream 1 dataBody with
    | .error err => .error (str "data error: " ++ err.text)
    | .ok conn =>
    let conn := net.setReadDeadline conn detectTimeout
    match readFrame net.readFull conn with
    | .error err =>
      if err.timeout then .error (str "*TIMEOUT")
      else .error (str "read error: " ++ err.text)
    | .ok (frame, _) => .ok frame

/-- Lines 214 to 221 of `testPayload`: the `switch frame.Type`. -/
def describeFrame (frame : Frame) : Bytes :=
  if frame.FType = frameHeaders then
    str "response received (stream " ++ decimal frame.StreamID ++ str ")"
  else if frame.FType = frameGoAway then str "GOAWAY"
  else str "frame type " ++ decimal frame.FType

/-- `Scanner.testPayload`: the string an early return gave, or the description of the
response frame. -/
def testPayload {σ : Type} (net : Conn σ) (dial : Except NetError σ) (detectTimeout : Nat)
    (host path query : Bytes) (payload : Payload) : Bytes :=
  match exchange net dial detectTimeout host path query payload with
  | .error result => result
  | .ok frame => describeFrame frame

/-- Lines 108 to 126 of `scanTarget`: the result emitted for gadget `p` once
`testPayload` has returned `result`. -/
def classify (targetURL : Bytes) (p : Payload) (result : Bytes) : common.ScanResult :=
  let vulnerable := false
  let detail := p.Name ++ str " → " ++ result
  let (vulnerable, detail) :=
    if strings.Contains result (str "TIMEOUT") then
      (true, p.Name ++ str " → TIMEOUT (potential smuggling)")
    else if strings.Contains result (str "GOAWAY") then
      (vulnerable, p.Name ++ str " → GOAWAY")
    else if strings.Contains result (str "RST") then
      (vulnerable, p.Name ++ str " → RST_STREAM")
    else (vulnerable, detail)
  { URL := targetURL
    Method := str "POST"
    StatusCode := 0
    ContentLength := 0
    Module := str "smuggle"
    Detail := detail
    Vulnerable := vulnerable }

/-- The body of the goroutine `scanTarget` starts for one gadget: probe, then classify. -/
def scanPayload {σ : Type} (net : Conn σ) (dial : Except NetError σ) (detectTimeout : Nat)
    (targetURL host path query : Bytes) (p : Payload) : common.ScanResult :=
  classify targetURL p (testPayload net dial detectTimeout host path query p)

/-- A peer for worked examples: the connection state is the bytes the server has still to
send; every write succeeds, a read past the last byte fails with `EOF`, and ALPN gave
`h2`. -/
def scriptedConn : Conn Bytes where
  write := fun conn _ => .ok conn
  readFull := fun conn n =>
    match bytesReadFull conn n with
    | .ok r => .ok r
    | .error _ => .error { text := str "EOF", timeout := false }
  negotiatedProtocol := fun _ => str "h2"
  setReadDeadline := fun conn _ => conn

end smuggle

/-! ## The bypass engine's calibration filter -/

namespace utils

/-- `utils.JoinURL(base, path)`. -/
def JoinURL (base path : Bytes) : Bytes :=
  if !strings.HasSuffix base (str "/") && !strings.HasPrefix path (str "/") then
    base ++ str "/" ++ path
  else if strings.HasSuffix base (str "/") && strings.HasPrefix path (str "/") then
    base ++ path.drop 1
  else base ++ path

end utils

namespace bypass

/-- The fields of the bypass `Scanner` the probes read: the target, `config.Method`,
the `--bypass-ip` value and the calibration baseline `defaultCL`. -/
structure Scanner where
  targetURL : Bytes
  method : Bytes
  bypassIP : Bytes
  defaultCL : Nat
  deriving DecidableEq, Repr

/-- `NewScanner`: `defaultCL` is left at Go's zero value. -/
def NewScanner (method targetURL bypassIP : Bytes) : Scanner :=
  { targetURL := targetURL, method := method, bypassIP := bypassIP, defaultCL := 0 }

/-- What `client.SimpleRequest` returned: an error text, or the status code and body. -/
abbrev Response := Except Bytes (Nat × Bytes)

/-- `Scanner.calibrate` once the calibration request has returned `resp`: on an error the
scanner is left as it was, otherwise `defaultCL = len(body)`. -/
def calibrate (s : Scanner) (resp : Response) : Scanner :=
  match resp with
  | .error _ => s
  | .ok (_, body) => { s with defaultCL := body.length }

/-- The goroutine of `verbTampering` for one method, the request having returned `resp`:
the result passed to `printer.Result`, or `none` when it returns without one. -/
def verbTamperingProbe (s : Scanner) (method : Bytes) (resp : Response) :
    Option common.ScanResult :=
  match resp with
  | .error _ => none
  | .ok (statusCode, body) =>
    if body.length = s.defaultCL then none
    else some
      { URL := s.targetURL
        Method := method
        StatusCode := statusCode
        ContentLength := body.length
        Module := str "bypass"
        Detail := str "verb tampering"
        Vulnerable := false }

/-- `HeaderPayload`: a key and a literal value or a function of `(targetURL, path)`. -/
structure HeaderPayload where
  Key : Bytes
  Value : Bytes
  ValueFunc : Option (Bytes → Bytes → Bytes)

/-- `isIPHeader(key)`. -/
def isIPHeader (key : Bytes) : Bool :=
  key ∈ [str "X-Forwarded-For", str "X-Forwarded-Host", str "X-Host",
    str "X-Custom-IP-Authorization", str "X-Originating-IP", str "X-Remote-IP",
    str "X-Client-IP", str "X-Real-IP", str "X-ProxyUser-Ip", str "X-Remote-Addr",
    str "True-Client-IP", str "Cluster-Client-IP", str "Proxy-Host"]

/-- The header value the goroutine of `headerBypass` sends for `hp`. -/
def headerValue (s : Scanner) (path : Bytes) (hp : HeaderPayload) : Bytes :=
  let value := hp.Value
  let value := match hp.ValueFunc with
    | some f => f s.targetURL path
    | none => value
  if s.bypassIP ≠ [] && isIPHeader hp.Key then s.bypassIP else value

/-- The goroutine of `headerBypass` for one header, the request having returned `resp`. -/
def headerBypassProbe (s : Scanner) (path : Bytes) (hp : HeaderPayload) (resp : Response) :
    Option common.ScanResult :=
  let value := headerValue s path hp
  match resp with
  | .error _ => none
  | .ok (statusCode, body) =>
    if body.length = s.defaultCL then none
    else some
      { URL := s.targetURL
        Method := s.method
        StatusCode := statusCode
        ContentLength := body.length
        Module := str "bypass"
        Detail := str "header: " ++ hp.Key ++ str ": " ++ value
        Vulnerable := false }

/-- The goroutine of `endPathBypass` for one suffix, the request having returned `resp`. -/
def endPathProbe (s : Scanner) (payload : Bytes) (resp : Response) :
    Option common.ScanResult :=
  let testURL := utils.JoinURL s.targetURL payload
  match resp with
  | .error _ => none
  | .ok (statusCode, body) =>
    if body.length = s.defaultCL then none
    else some
      { URL := testURL
        Method := s.method
        StatusCode := statusCode
        ContentLength := body.length
        Module := str "bypass"
        Detail := str "endpath"
        Vulnerable := false }

/-- The goroutine of `midPathBypass` for one payload, the request having returned `resp`;
`baseURL`, `basePath`, `lastSegment` and `trailingSlash` are what the function computed
from the target before the loop. -/
def midPathProbe (s : Scanner) (baseURL basePath lastSegment : Bytes) (trailingSlash : Bool)
    (payload : Bytes) (resp : Response) : Option common.ScanResult :=
  let fullpath := baseURL ++ basePath ++ payload ++ lastSegment
  let fullpath := if trailingSlash then fullpath ++ str "/" else fullpath
  match resp with
  | .error _ => none
  | .ok (statusCode, body) =>
    if body.length = s.defaultCL then none
    else some
      { URL := fullpath
        Method := s.method
        StatusCode := statusCode
        ContentLength := body.length
        Module := str "bypass"
        Detail := str "midpath"
        Vulnerable := false }

end bypass

/-! ## More of the Go library: case mapping, UTF-8 decoding, `Trim`, `Split`,
`url.QueryEscape` -/

namespace unicode

end unicode

namespace utf8

/-- `utf8.RuneError`. -/
def RuneError : Nat := 0xFFFD

/-- A UTF-8 continuation byte. -/
def isCont (b : Nat) : Bool := 0x80 ≤ b && b ≤ 0xBF

/-- `utf8.DecodeRuneInString`: the first rune of `s` and its width in bytes; an invalid
or truncated encoding gives `(RuneError, 1)`, the empty string `(RuneError, 0)`. -/
def DecodeRune : Bytes → Nat × Nat
  | [] => (RuneError, 0)
  | b0 :: rest =>
    if b0 < 0x80 then (b0, 1)
    else if 0xC2 ≤ b0 ∧ b0 ≤ 0xDF then
      match rest with
      | b1 :: _ => if isCont b1 then ((b0 % 32) * 64 + b1 % 64, 2) else (RuneError, 1)
      | [] => (RuneError, 1)
    else if 0xE0 ≤ b0 ∧ b0 ≤ 0xEF then
      let lo := if b0 = 0xE0 then 0xA0 else 0x80
      let hi := if b0 = 0xED then 0x9F else 0xBF
      match rest with
      | b1 :: b2 :: _ =>
        if lo ≤ b1 ∧ b1 ≤ hi ∧ isCont b2 then
          ((b0 % 16) * 4096 + (b1 % 64) * 64 + b2 % 64, 3)
        else (RuneError, 1)
      | _ => (RuneError, 1)
    else if 0xF0 ≤ b0 ∧ b0 ≤ 0xF4 then
      let lo := if b0 = 0xF0 then 0x90 else 0x80
      let hi := if b0 = 0xF4 then 0x8F else 0xBF
      match rest with
      | b1 :: b2 :: b3 :: _ =>
        if lo ≤ b1 ∧ b1 ≤ hi ∧ isCont b2 ∧ isCont b3 then
          ((b0 % 8) * 262144 + (b1 % 64) * 4096 + (b2 % 64) * 64 + b3 % 64, 4)
        else (RuneError, 1)
      | _ => (RuneError, 1)
    else (RuneError, 1)

/-- The loop `for i, c := range s`, started at byte index `i`: the pairs `(i, c)` it
yields, one rune per round; `fuel` bounds the rounds. -/
def rangeLoop : Nat → Nat → Bytes → List (Nat × Nat)
  | 0, _, _ => []
  | _ + 1, _, [] => []
  | fuel + 1, i, b :: rest =>
    let (r, w) := DecodeRune (b :: rest)
    (i, r) :: rangeLoop fuel (i + w) ((b :: rest).drop w)

/-- The pairs `(i, c)` of `for i, c := range s`; every round consumes a byte, so
`len(s)` rounds are enough. -/
def rangeString (s : Bytes) : List (Nat × Nat) := rangeLoop s.length 0 s

end utf8

namespace strings

/-- `strings.Trim(s, cutset)` for a cutset of ASCII characters: `s` without the leading
and trailing bytes that are in `cutset`. -/
def Trim (s cutset : Bytes) : Bytes :=
  ((s.dropWhile (fun b => cutset.contains b)).reverse.dropWhile
    (fun b => cutset.contains b)).reverse

/-- `strings.Split(s, sep)` for a non-empty `sep`: `s` cut at every instance of `sep`.
Go cuts `Count(s, sep)` times, which is at most `len(s)`. -/
def Split (s sep : Bytes) : List Bytes := splitLoop s.length s sep

end strings

/-- `fmt.Sprintf("%X", n)` for a non-negative integer: its upper-case hexadecimal
digits. -/
def hexUpper (n : Nat) : Bytes :=
  if n = 0 then [0x30]
  else (Nat.digits 16 n).reverse.map (fun d => if d < 10 then 0x30 + d else 0x41 + (d - 10))

namespace url

/-- The fields of `url.URL` the engines read from a parsed target. -/
structure URL where
  Scheme : Bytes
  Host : Bytes
  Path : Bytes
  RawQuery : Bytes
  deriving DecidableEq, Repr

/-- The upper-case hexadecimal digit of a nibble (`"0123456789ABCDEF"[d]`). -/
def upperhex (d : Nat) : Nat := if d < 10 then 0x30 + d else 0x41 + (d - 10)

/-- The bytes `url.QueryEscape` leaves as they are: ASCII letters, digits and `-_.~`. -/
def unreserved (c : Nat) : Bool :=
  (0x61 ≤ c && c ≤ 0x7A) || (0x41 ≤ c && c ≤ 0x5A) || (0x30 ≤ c && c ≤ 0x39)
    || c = 0x2D || c = 0x5F || c = 0x2E || c = 0x7E

/-- `url.QueryEscape(s)`: a space becomes `+`, every other byte that is not unreserved
becomes `%XX` with upper-case hexadecimal digits. -/
def QueryEscape (s : Bytes) : Bytes :=
  s.flatMap (fun c =>
    if unreserved c then [c]
    else if c = 0x20 then [0x2B]
    else [0x25, upperhex (c / 16), upperhex (c % 16)])

end url

namespace utils

end utils

namespace bypass

/-- `pathValue`. -/
def pathValue (_targetURL path : Bytes) : Bytes := path

/-- `fullURLValue`. -/
def fullURLValue (targetURL _path : Bytes) : Bytes := targetURL

/-- `BypassHeaders contains headers commonly used to bypass 403 restrictions`. -/
def BypassHeaders : List HeaderPayload :=
  [ { Key := str "X-Original-URL", Value := [], ValueFunc := some pathValue },
    { Key := str "X-Rewrite-URL", Value := [], ValueFunc := some pathValue },
    { Key := str "X-Forwarded-For", Value := str "127.0.0.1", ValueFunc := none },
    { Key := str "X-Forwarded-For", Value := str "10.0.0.1", ValueFunc := none },
    { Key := str "X-Forwarded-For", Value := str "172.16.0.1", ValueFunc := none },
    { Key := str "X-Forwarded-For", Value := str "192.168.0.1", ValueFunc := none },
    { Key := str "X-Forwarded-Host", Value := str "127.0.0.1", ValueFunc := none },
    { Key := str "X-Forwarded-Host", Value := str "localhost", ValueFunc := none },
    { Key := str "X-Host", Value := str "127.0.0.1", ValueFunc := none },
    { Key := str "X-Custom-IP-Authorization", Value := str "127.0.0.1", ValueFunc := none },
    { Key := str "X-Originating-IP", Value := str "127.0.0.1", ValueFunc := none },
    { Key := str "X-Remote-IP", Value := str "127.0.0.1", ValueFunc := none },
    { Key := str "X-Client-IP", Value := str "127.0.0.1", ValueFunc := none },
    { Key := str "X-Real-IP", Value := str "127.0.0.1", ValueFunc := none },
    { Key := str "X-ProxyUser-Ip", Value := str "127.0.0.1", ValueFunc := none },
    { Key := str "X-Remote-Addr", Value := str "127.0.0.1", ValueFunc := none },
    { Key := str "True-Client-IP", Value := str "127.0.0.1", ValueFunc := none },
    { Key := str "Cluster-Client-IP", Value := str "127.0.0.1", ValueFunc := none },
    { Key := str "X-Forwarded-Port", Value := str "443", ValueFunc := none },
    { Key := str "X-Forwarded-Port", Value := str "80", ValueFunc := none },
    { Key := str "X-Forwarded-Port", Value := str "8080", ValueFunc := none },
    { Key := str "X-Forwarded-Port", Value := str "8443", ValueFunc := none },
    { Key := str "X-Forwarded-Scheme", Value := str "https", ValueFunc := none },
    { Key := str "X-Forwarded-Scheme", Value := str "http", ValueFunc := none },
    { Key := str "X-Forwarded-Proto", Value := str "https", ValueFunc := none },
    { Key := str "X-Forwarded-Proto", Value := str "http", ValueFunc := none },
    { Key := str "X-Original-Host", Value := str "localhost", ValueFunc := none },
    { Key := str "X-Override-URL", Value := [], ValueFunc := some pathValue },
    { Key := str "Forwarded", Value := str "for=127.0.0.1;by=127.0.0.1;host=localhost",
      ValueFunc := none },
    { Key := str "X-Forwarded-Server", Value := str "localhost", ValueFunc := none },
    { Key := str "X-HTTP-DestinationURL", Value := [], ValueFunc := some fullURLValue },
    { Key := str "X-HTTP-Host-Override", Value := str "localhost", ValueFunc := none },
    { Key := str "Proxy-Host", Value := str "127.0.0.1", ValueFunc := none },
    { Key := str "Request-Uri", Value := [], ValueFunc := some pathValue },
    { Key := str "Referer", Value := [], ValueFunc := some fullURLValue },
    { Key := str "X-Proxy-URL", Value := [], ValueFunc := some fullURLValue },
    { Key := str "X-Original-Method", Value := str "GET", ValueFunc := none },
    { Key := str "Content-Length", Value := str "0", ValueFunc := none },
    { Key := str "X-Requested-With", Value := str "XMLHttpRequest", ValueFunc := none } ]

/-- Lines 159 to 162 of `headerBypass`: the `path` handed to the deferred values, the
parsed path or `/` when it is empty. -/
def headerBypassPath (u : url.URL) : Bytes :=
  let path := u.Path
  if path = [] then str "/" else path

/-- The URLs `doubleEncoding` builds for a target parsed as `u`, in the order of the
loop: one for every rune of the path that is not `/`. -/
def doubleEncodingURLs (u : url.URL) : List Bytes :=
  let originalPath := u.Path
  if originalPath.length = 0 ∨ originalPath = str "/" then []
  else
    (utf8.rangeString originalPath).filterMap (fun (i, c) =>
      if c = 0x2F then none
      else
        let singleEncoded := str "%" ++ hexUpper c
        let doubleEncoded := url.QueryEscape singleEncoded
        let modifiedPath := originalPath.take i ++ doubleEncoded ++ originalPath.drop (i + 1)
        let encodedURI := u.Scheme ++ str "://" ++ u.Host ++ modifiedPath
        some encodedURI)

end bypass

/-! ## The CORS engine -/

namespace cors

/-- The fields of the CORS `Scanner` that `generatePayloads` reads. -/
structure Scanner where
  origin : Bytes
  deepScan : Bool
  deriving DecidableEq, Repr

/-- The `specialChars` of `generatePayloads`. -/
def specialChars : List Bytes :=
  [str "!", str "'", str "(", str ")", str "*", str ",", str ";", str "_", str "\x7b",
   str "\x7d", str "|", str "~", str "\"", str "\x60", str "+", str "-"]

/-- `Scanner.generatePayloads(targetURL)`; `parsed` is what `url.Parse(targetURL)`
returned, a parsed URL being given by its `Hostname()`. -/
def generatePayloads (s : Scanner) (targetURL : Bytes) (parsed : Except Bytes Bytes) :
    List Bytes :=
  match parsed with
  | .error _ => [s.origin]
  | .ok host =>
    let parts := strings.Split host (str ".")
    let (domain, tld) :=
      if parts.length ≥ 2 then (parts.getD (parts.length - 2) [], parts.getD (parts.length - 1) [])
      else (host, [])
    let payloads :=
      [ str "null",
        str "https://evil.com",
        str "http://evil.com",
        targetURL,
        str "https://" ++ domain ++ str "." ++ tld ++ str ".evil.com",
        str "https://evil" ++ domain ++ str "." ++ tld,
        str "https://sub." ++ domain ++ str "." ++ tld,
        str "https://" ++ domain ++ str "." ++ tld ++ str ":8080",
        str "https://" ++ domain ++ str "." ++ tld ++ str "." ++ domain ++ str "." ++ tld ]
    if s.deepScan then
      let payloads := specialChars.foldl (fun payloads c =>
        payloads ++ [str "https://" ++ domain ++ str "." ++ tld ++ c ++ str ".evil.com"]) payloads
      let payloads := payloads ++ [str "https://evil.com%40" ++ domain ++ str "." ++ tld]
      let payloads := payloads ++ [str "https://evil.com%23@" ++ domain ++ str "." ++ tld]
      payloads
    else payloads

/-- `evaluateResponse(payload, acao, acac)`; the `nil` slice is the empty list. -/
def evaluateResponse (payload acao acac : Bytes) : Bool × List Bytes :=
  let details : List Bytes := []
  let details :=
    if acao = payload then
      let detail := str "ACAO reflects origin: " ++ acao
      let detail := if acac = str "true" then detail ++ str " (with credentials)" else detail
      details ++ [detail]
    else details
  let details := if acao = str "*" then details ++ [str "Wildcard ACAO: *"] else details
  let details :=
    if acao = str "null" ∧ payload = str "null" then
      details ++ [str "Null origin allowed in ACAO"]
    else details
  let details :=
    if acac = str "true" ∧ acao ≠ [] ∧ acao ≠ str "*" ∧ acao = payload then
      details ++ [str "Credentials allowed with reflected origin: ACAO=" ++ acao
        ++ str ", ACAC=true"]
    else details
  if details.length > 0 then (true, details) else (false, [])

end cors

/-! ## The CRLF engine -/

namespace crlf

/-- `injectedHeaderKey`. -/
def injectedHeaderKey : Bytes := str "X-Injected-Header-By"

/-- `injectedHeaderVal`. -/
def injectedHeaderVal : Bytes := str "httpsuite"

/-- `escapeList`: `CRLF escape sequences to inject`. -/
def escapeList : List Bytes :=
  [ str "%0a",
    str "%0a%20",
    str "%0d",
    str "%0d%09",
    str "%0d%0a",
    str "%0d%0a%09",
    str "%0d%0a%20",
    str "%0d%20",
    str "%20%0a",
    str "%20%0d",
    str "%20%0d%0a",
    str "%23%0a",
    str "%23%0d",
    str "%23%0d%0a",
    str "%25%30%61",
    str "%2e%2e%2f%0d%0a",
    str "%2f%2e%2e%0d%0a",
    str "%2f..%0d%0a",
    str "%3f%0d%0a",
    str "%e5%98%8a%e5%98%8d",
    str "%e5%98%8a%e5%98%8d%0a",
    str "%e5%98%8a%e5%98%8d%0d",
    str "%e5%98%8a%e5%98%8d%0d%0a",
    str "%e5%98%8a%e5%98%8d%e5%98%8a%e5%98%8d",
    str "%00",
    str "%u000a",
    str "%u000d" ]

/-- `appendList`: `URL path appendages before the CRLF injection`. -/
def appendList : List Bytes := [str "", str "crlftest", str "?crlftest=", str "#"]

/-- `GenerateURLs(baseURL)`: the two nested loops, each round appending one URL. -/
def GenerateURLs (baseURL : Bytes) : List Bytes :=
  let urls : List Bytes := []
  let baseURL := if !strings.HasSuffix baseURL (str "/") then baseURL ++ str "/" else baseURL
  appendList.foldl (fun urls appendStr =>
    escapeList.foldl (fun urls escape =>
      let injectedURL :=
        baseURL ++ appendStr ++ escape ++ injectedHeaderKey ++ str "%3a%20" ++ injectedHeaderVal
      urls ++ [injectedURL]) urls) urls

/-- What `isVulnerable` reads of an `http.Response`: the status code and the header map,
a name with its values per entry, in the order the `range` visits them. -/
structure Response where
  StatusCode : Nat
  Header : List (Bytes × List Bytes)
  deriving DecidableEq, Repr

/-- `isVulnerable(resp)`. -/
def isVulnerable (resp : Response) : Bool :=
  resp.Header.any (fun (key, values) =>
    key = injectedHeaderKey && values.any (fun value => strings.Contains value injectedHeaderVal))

end crlf

/-! ## The methods engine -/

namespace strconv

/-- `strconv.Atoi(s)` for an `int` of 64 bits, from its documented behaviour: an optional
sign, then one or more decimal digits, the value within the range of `int`; `none` stands
for a non-nil error. -/
def Atoi (s : Bytes) : Option Int :=
  let neg := s.head? = some 0x2D
  let digits := if s.head? = some 0x2D ∨ s.head? = some 0x2B then s.drop 1 else s
  if digits = [] ∨ ¬ digits.all (fun ch => 0x30 ≤ ch && ch ≤ 0x39) then none
  else
    let un : Nat := digits.foldl (fun n ch => n * 10 + (ch - 0x30)) 0
    if ¬ neg ∧ un ≥ 2 ^ 63 then none
    else if neg ∧ un > 2 ^ 63 then none
    else some (if neg then -(un : Int) else (un : Int))

end strconv

namespace methods

/-- Lines 101 to 116 of `Scanner.Run`: the `vulnerable` flag and the `detail` for a
method and a status code. -/
def classify (method : Bytes) (statusCode : Nat) : Bool × Bytes :=
  let vulnerable := false
  if statusCode ≥ 200 ∧ statusCode < 300 then
    let detail := str "success"
    if method ≠ str "GET" ∧ method ≠ str "HEAD" ∧ method ≠ str "OPTIONS" then
      (true, str "unexpected success - method may be enabled")
    else (vulnerable, detail)
  else if statusCode = 405 then (vulnerable, str "method not allowed")
  else if statusCode = 501 then (vulnerable, str "not implemented")
  else (vulnerable, str "active")

/-- `defaultMethods`, the `Default HTTP methods to test`. -/
def defaultMethods : List Bytes :=
  [str "GET", str "POST", str "PUT", str "DELETE", str "PATCH",
   str "HEAD", str "OPTIONS", str "TRACE", str "CONNECT",
   str "PROPFIND", str "PROPPATCH", str "MKCOL", str "COPY",
   str "MOVE", str "LOCK", str "UNLOCK", str "PURGE"]

/-- The fields of the methods `Scanner` the scan reads: the method list and the keys of
the map `statusFilter` (every key is stored with the value `true`), in the order they
were inserted. -/
structure Scanner where
  methods : List Bytes := defaultMethods
  statusFilter : List Int
  deriving DecidableEq, Repr

/-- The goroutine of `Scanner.Run` for one target and method, the request having
returned `resp`: the result passed to `printer.Result`, or `none`. -/
def probe (s : Scanner) (targetURL method : Bytes) (resp : Except Bytes (Nat × Bytes)) :
    Option common.ScanResult :=
  match resp with
  | .error _ => none
  | .ok (statusCode, body) =>
    if s.statusFilter.length > 0 ∧ ¬ (statusCode : Int) ∈ s.statusFilter then none
    else
      let (vulnerable, detail) := classify method statusCode
      some
        { URL := targetURL
          Method := method
          StatusCode := statusCode
          ContentLength := body.length
          Module := str "methods"
          Detail := detail
          Vulnerable := vulnerable }

/-- `NewScanner(cfg, printer, methodList, filterStatus)`: the method list and the status
filter it builds from the two strings. -/
def NewScanner (methodList filterStatus : Bytes) : Scanner :=
  let methods :=
    if methodList ≠ str "" then
      (strings.Split methodList (str ",")).map strings.TrimSpace
    else defaultMethods
  let statusFilter :=
    if filterStatus ≠ str "" then
      (strings.Split filterStatus (str ",")).foldl
        (fun statusFilter code =>
          match strconv.Atoi (strings.TrimSpace code) with
          | some c => statusFilter ++ [c]
          | none => statusFilter)
        []
    else []
  { methods := methods, statusFilter := statusFilter }

/-- The results `Scanner.Run` hands to `printer.Result` for the targets `urls`, the
request for a target and a method returning `resp targetURL method`; they are listed in
the order the goroutines are started. -/
def Run (s : Scanner) (urls : List Bytes) (resp : Bytes → Bytes → Except Bytes (Nat × Bytes)) :
    List common.ScanResult :=
  urls.foldl
    (fun out targetURL =>
      s.methods.foldl
        (fun out method =>
          match probe s targetURL method (resp targetURL method) with
          | some r => out ++ [r]
          | none => out)
        out)
    []

end methods


/-! ## Target normalisation (`utils.NormalizeURL`) -/

namespace strings

/-- A string that is all white space: the encodings of white-space characters, one after
the other (the empty string included). -/
def allSpace (s : Bytes) : Prop :=
  ∃ l : List Bytes, (∀ e ∈ l, e ∈ spaceEncodings) ∧ s = l.flatten

end strings

namespace utils

/-- `NormalizeURL ensures URL has a scheme prefix`. -/
def NormalizeURL (rawURL : Bytes) : Bytes :=
  let rawURL := strings.TrimSpace rawURL
  if rawURL = str "" then str ""
  else if !strings.HasPrefix rawURL (str "http://") && !strings.HasPrefix rawURL (str "https://") then
    str "https://" ++ rawURL
  else rawURL

end utils

/-! ## The result sink (`output.Printer`) -/

namespace output

/-- The ANSI colour codes of `output.go`. -/
def Reset : Bytes := str "\x1b[0m"
/-- Red. -/
def Red : Bytes := str "\x1b[31m"
/-- Green. -/
def Green : Bytes := str "\x1b[32m"
/-- Yellow. -/
def Yellow : Bytes := str "\x1b[33m"
/-- Blue. -/
def Blue : Bytes := str "\x1b[34m"
/-- Magenta. -/
def Magenta : Bytes := str "\x1b[35m"
/-- White. -/
def White : Bytes := str "\x1b[37m"
/-- Dim. -/
def Dim : Bytes := str "\x1b[2m"

/-- `Printer handles all output formatting`. The mutex is left out: every method body
runs under it, so the methods are modelled as atomic state changes. `outFile` holds what
has been written to the output file, `none` standing for a nil file. -/
structure Printer where
  silent : Bool
  noColor : Bool
  jsonMode : Bool
  outFile : Option Bytes
  results : List common.ScanResult
  deriving DecidableEq, Repr

/-- `NewPrinter(silent, noColor, jsonMode, outputFile)`; `created` tells whether
`os.Create(outputFile)` succeeded. -/
def NewPrinter (silent noColor jsonMode : Bool) (outputFile : Bytes) (created : Bool) :
    Printer :=
  { silent := silent
    noColor := noColor
    jsonMode := jsonMode
    outFile := if outputFile ≠ str "" ∧ created then some [] else none
    results := [] }

/-- `colorForStatus returns the color code for a given HTTP status code`. -/
def Printer.colorForStatus (p : Printer) (code : Nat) : Bytes :=
  if p.noColor then str ""
  else if code ≥ 200 ∧ code < 300 then Green
  else if code ≥ 300 ∧ code < 400 then Blue
  else if code ≥ 400 ∧ code < 500 then Magenta
  else if code ≥ 500 then Yellow
  else White

/-- `Printer.reset`. -/
def Printer.reset (p : Printer) : Bytes := if p.noColor then str "" else Reset

/-- `Printer.green`. -/
def Printer.green (p : Printer) : Bytes := if p.noColor then str "" else Green

/-- `Printer.Result(r)`: the printer afterwards and the text written to standard output;
`marshal` is `json.Marshal` on a `ScanResult`. -/
def Printer.Result (marshal : common.ScanResult → Bytes) (p : Printer)
    (r : common.ScanResult) : Printer × Bytes :=
  let p := { p with results := p.results ++ [r] }
  let stdout :=
    if p.jsonMode then
      let data := marshal r
      data ++ str "\n"
    else
      let color := p.colorForStatus r.StatusCode
      let vuln := if r.Vulnerable then str " " ++ p.green ++ str "[VULNERABLE]" ++ p.reset
        else str ""
      let module := Dim ++ str "[" ++ r.Module ++ str "]" ++ p.reset
      let detail := if r.Detail ≠ str "" then str " (" ++ r.Detail ++ str ")" else str ""
      let method := if r.Method ≠ str "" then str " " ++ r.Method else str ""
      color ++ decimal r.StatusCode ++ p.reset ++ method ++ str " " ++ r.URL ++ str " "
        ++ decimal r.ContentLength ++ str " bytes" ++ detail ++ vuln ++ str " " ++ module
        ++ str "\n"
  match p.outFile with
  | some written =>
    if !p.jsonMode then
      let line := decimal r.StatusCode ++ str " " ++ r.Method ++ str " " ++ r.URL ++ str " "
        ++ decimal r.ContentLength ++ str " bytes"
      let line := if r.Detail ≠ str "" then line ++ str " (" ++ r.Detail ++ str ")" else line
      let line := if r.Vulnerable then line ++ str " [VULNERABLE]" else line
      let line := line ++ str " [" ++ r.Module ++ str "]"
      ({ p with outFile := some (written ++ line ++ str "\n") }, stdout)
    else (p, stdout)
  | none => (p, stdout)

/-- `GetResults returns all collected results`, a copy of the slice. -/
def Printer.GetResults (p : Printer) : List common.ScanResult :=
  [] ++ p.results

end output

/-! ## Configuration (`common.Config`, `parseGlobalFlags`) -/

/-- Conversion of an integer to `int64`: its value modulo `2^64`, taken in the signed
range. Go's integer arithmetic wraps around in this way. -/
def int64 (x : Int) : Int := (x + 2 ^ 63) % 2 ^ 64 - 2 ^ 63

namespace time

/-- `time.Millisecond`, in nanoseconds (the unit of `time.Duration`). -/
def Millisecond : Int := 1000000

/-- `time.Second`, in nanoseconds. -/
def Second : Int := 1000000000

end time

namespace common

/-- `Config holds global configuration shared across modules`; `Timeout` is a
`time.Duration`, in nanoseconds. -/
structure Config where
  URL : Bytes
  URLs : List Bytes
  Method : Bytes
  Concurrency : Int
  Timeout : Int
  Retries : Int
  Proxy : Option url.URL
  ProxyStr : Bytes
  Headers : List (Bytes × Bytes)
  UserAgent : Bytes
  RandomAgent : Bool
  Silent : Bool
  Verbose : Bool
  NoColor : Bool
  OutputFile : Bytes
  JSONOutput : Bool
  Redirect : Bool
  deriving DecidableEq, Repr

/-- `DefaultConfig returns a config with sane defaults`; the fields it does not name
have Go's zero values. -/
def DefaultConfig : Config :=
  { URL := str ""
    URLs := []
    Method := str "GET"
    Concurrency := 10
    Timeout := int64 (10 * time.Second)
    Retries := 1
    Proxy := none
    ProxyStr := str ""
    Headers := []
    UserAgent := str "httpsuite/1.0"
    RandomAgent := false
    Silent := false
    Verbose := false
    NoColor := false
    OutputFile := str ""
    JSONOutput := false
    Redirect := false }

end common

namespace utils

/-- `ReadLines reads lines from a file, trimming whitespace and skipping empty lines`;
`file` is the error of `os.Open`, or the lines the `bufio.Scanner` yields. -/
def ReadLines (file : Except Bytes (List Bytes)) : Except Bytes (List Bytes) :=
  match file with
  | .error err => .error err
  | .ok texts =>
    .ok (texts.foldl
      (fun lines text =>
        let line := strings.TrimSpace text
        if line ≠ str "" ∧ !strings.HasPrefix line (str "#") then lines ++ [line] else lines)
      [])

/-- `ReadURLsFromStdin reads URLs from stdin`; `texts` are the lines the scanner yields. -/
def ReadURLsFromStdin (texts : List Bytes) : List Bytes :=
  texts.foldl
    (fun urls text =>
      let line := strings.TrimSpace text
      if line ≠ str "" then urls ++ [NormalizeURL line] else urls)
    []

end utils

namespace cmd

/-- The values of the global flags once `fs.Parse(args)` has returned without error:
`flag` is library code, so what it parsed is the input. -/
structure Flags where
  u : Bytes
  l : Bytes
  c : Int
  t : Int
  x : Bytes
  H : List Bytes
  o : Bytes
  j : Bool
  s : Bool
  v : Bool
  noColor : Bool
  redirect : Bool
  ua : Bytes
  randomAgent : Bool
  deriving DecidableEq, Repr

/-- The flag values when no argument is given: the defaults `parseGlobalFlags` declares. -/
def defaultFlags : Flags :=
  { u := str "", l := str "", c := 10, t := 10, x := str "", H := [], o := str "",
    j := false, s := false, v := false, noColor := false, redirect := false,
    ua := str "httpsuite/1.0", randomAgent := false }

/-- What `parseGlobalFlags` obtains from outside the program: the result of
`url.Parse(proxyStr)`, the list file as `os.Open` and the line scanner give it, whether
standard input is a pipe and its lines, and the pick of `utils.RandomUserAgent`. -/
structure Env where
  proxy : Except Bytes url.URL
  listFile : Except Bytes (List Bytes)
  hasStdin : Bool
  stdin : List Bytes
  randomUserAgent : Bytes

/-- The assignment `cfg.Headers[k] = v` on a map kept as a list of entries. -/
def setHeader (headers : List (Bytes × Bytes)) (k v : Bytes) : List (Bytes × Bytes) :=
  headers.filter (fun e => e.1 ≠ k) ++ [(k, v)]

/-- Lines 123 to 164 of `parseGlobalFlags`: the default configuration with the flag
variables bound to its fields written, and the timeout converted from seconds. -/
def flagConfig (f : Flags) : common.Config :=
  let cfg := common.DefaultConfig
  let cfg := { cfg with
    URL := f.u, Concurrency := f.c, OutputFile := f.o, JSONOutput := f.j, Silent := f.s,
    Verbose := f.v, NoColor := f.noColor, Redirect := f.redirect, UserAgent := f.ua,
    RandomAgent := f.randomAgent }
  { cfg with Timeout := int64 (f.t * time.Second) }

/-- Lines 166 to 173: the proxy. -/
def setProxy (f : Flags) (env : Env) (cfg : common.Config) : Except Bytes common.Config :=
  if f.x ≠ str "" then
    match env.proxy with
    | .error err => .error (str "invalid proxy URL: " ++ err)
    | .ok p => .ok { cfg with ProxyStr := f.x, Proxy := some p }
  else .ok cfg

/-- Lines 176 to 181: `Parse custom headers`. -/
def setHeaders (f : Flags) (cfg : common.Config) : common.Config :=
  f.H.foldl
    (fun cfg h =>
      let parts := strings.SplitN h (str ":") 2
      if parts.length = 2 then
        let k := strings.TrimSpace (parts.getD 0 [])
        let v := strings.TrimSpace (parts.getD 1 [])
        { cfg with Headers := setHeader cfg.Headers k v }
      else cfg)
    cfg

/-- Lines 184 to 186: the target of `-u`. -/
def addURL (cfg : common.Config) : common.Config :=
  if cfg.URL ≠ str "" then { cfg with URLs := cfg.URLs ++ [utils.NormalizeURL cfg.URL] }
  else cfg

/-- Lines 188 to 196: the targets of the list file. -/
def addListFile (f : Flags) (env : Env) (cfg : common.Config) : Except Bytes common.Config :=
  if f.l ≠ str "" then
    match utils.ReadLines env.listFile with
    | .error err => .error (str "error reading URL list: " ++ err)
    | .ok lines =>
      .ok (lines.foldl
        (fun cfg line => { cfg with URLs := cfg.URLs ++ [utils.NormalizeURL line] }) cfg)
  else .ok cfg

/-- Lines 198 to 200: the targets of standard input. -/
def addStdin (env : Env) (cfg : common.Config) : common.Config :=
  if env.hasStdin ∧ cfg.URLs.length = 0 then
    { cfg with URLs := utils.ReadURLsFromStdin env.stdin }
  else cfg

/-- Lines 202 to 204: the random user agent. -/
def setRandomAgent (env : Env) (cfg : common.Config) : common.Config :=
  if cfg.RandomAgent then { cfg with UserAgent := env.randomUserAgent } else cfg

/-- `parseGlobalFlags parses global flags shared by all subcommands`, from the point
where `fs.Parse(args)` has succeeded with the values `f`. -/
def parseGlobalFlags (f : Flags) (env : Env) : Except Bytes common.Config :=
  match setProxy f env (flagConfig f) with
  | .error err => .error err
  | .ok cfg =>
    match addListFile f env (addURL (setHeaders f cfg)) with
    | .error err => .error err
    | .ok cfg => .ok (setRandomAgent env (addStdin env cfg))

/-- The three fields the configuration invariant is about: the concurrency ceiling, the
retry count and the timeout. -/
def core (cfg : common.Config) : Int × Int × Int :=
  (cfg.Concurrency, cfg.Retries, cfg.Timeout)

end cmd

/-! ## The HTTP client's retry loop (`httpclient.Client.Do`) -/

namespace httpclient

/-- `Options for creating a new Client`. -/
structure Options where
  Timeout : Int
  Proxy : Option url.URL
  UserAgent : Bytes
  Headers : List (Bytes × Bytes)
  Retries : Int
  Redirect : Bool
  Insecure : Bool
  deriving DecidableEq, Repr

/-- `Client wraps the standard http.Client`: `timeout` is the `Timeout` of the wrapped
client. -/
structure Client where
  timeout : Int
  userAgent : Bytes
  headers : List (Bytes × Bytes)
  retries : Int
  redirect : Bool
  deriving DecidableEq, Repr

/-- `New creates a new HTTP client with the given options`. -/
def New (opts : Options) : Client :=
  let timeout := opts.Timeout
  let timeout := if timeout = 0 then int64 (10 * time.Second) else timeout
  let retries := opts.Retries
  let retries := if retries ≤ 0 then 1 else retries
  let ua := opts.UserAgent
  let ua := if ua = str "" then str "httpsuite/1.0" else ua
  { timeout := timeout
    userAgent := ua
    headers := opts.Headers
    retries := retries
    redirect := opts.Redirect }

/-- What the retry loop does to the outside, in order: the call `c.client.Do(req)` of
round `i`, and `time.Sleep(d)` with `d` in nanoseconds. -/
inductive Event where
  | attempt (i : Nat)
  | sleep (d : Int)
  deriving DecidableEq, Repr

/-- The `for` loop of `Client.Do` from round `i` on, `fuel` rounds being left;
`send i` is what `c.client.Do(req)` returns in round `i`. The error after the loop
carries the two arguments of its format, `c.retries` and `lastErr`. -/
def doLoop {α ε : Type} (c : Client) (send : Nat → Except ε α) :
    Nat → Nat → Option ε → List Event → Except (Int × Option ε) α × List Event
  | 0, _, lastErr, events => (.error (c.retries, lastErr), events)
  | fuel + 1, i, _, events =>
    let events := events ++ [Event.attempt i]
    match send i with
    | .ok resp => (.ok resp, events)
    | .error err =>
      let lastErr := some err
      let events :=
        if (i : Int) < c.retries - 1 then
          events ++ [Event.sleep (int64 (int64 (int64 ((i : Int) + 1) * 500) * time.Millisecond))]
        else events
      doLoop c send fuel (i + 1) lastErr events

/-- `Do executes an HTTP request with retries`: the value returned and what was done.
The loop runs while `i < c.retries`, so `c.retries` rounds at most. The default headers
set before the loop do not bear on it and are left out. -/
def Client.Do {α ε : Type} (c : Client) (send : Nat → Except ε α) :
    Except (Int × Option ε) α × List Event :=
  doLoop c send c.retries.toNat 0 none []

/-- The events of `n` failed rounds that each end in a wait, from round `i` on: the
attempt of round `j` (the `j+1`-th attempt) and then a sleep of `500·(j+1)` ms. This is
the linear backoff as the specification words it, the durations taken as exact numbers
of nanoseconds. -/
def backoffFrom : Nat → Nat → List Event
  | _, 0 => []
  | i, n + 1 =>
    [Event.attempt i, Event.sleep (500 * ((i : Int) + 1) * time.Millisecond)]
      ++ backoffFrom (i + 1) n

/-- The events of `k` failed attempts, each followed by its wait. -/
def backoff (k : Nat) : List Event := backoffFrom 0 k

/-- Whether an event is a call of the wrapped client. -/
def Event.isAttempt : Event → Bool
  | .attempt _ => true
  | .sleep _ => false

end httpclient

/-! ## The path-case family in bounded memory

`GenerateCaseCombinations` builds the whole list of combinations, two strings for every
string of the shorter list, before `SelectRandom` picks 20 of them. A Go program that
cannot allocate ends with a fatal error, so whether `pathCaseSwitching` gets to its
requests depends on how many strings the process can hold. -/

namespace utils

end utils

namespace bypass

end bypass

/-! ## The bypass engine's path mutations (`endPathBypass`, `midPathBypass`) -/

namespace strings

/-- `strings.Join(elems, sep)`. -/
def Join : List Bytes → Bytes → Bytes
  | [], _ => []
  | [a], _ => a
  | a :: b :: rest, sep => a ++ sep ++ Join (b :: rest) sep

end strings

namespace bypass

/-- `EndPathPayloads contains suffixes to append to paths`. -/
def EndPathPayloads : List Bytes :=
  [ str "/",
    str "//",
    str "/./",
    str "/..",
    str "/..;/",
    str "/%2e/",
    str "/%2f/",
    str "/.%00/",
    str "/.%0d/",
    str "/.%0a/",
    str "/.%00",
    str "?",
    str "??",
    str "#",
    str "/*",
    str "/.json",
    str "/.html",
    str "/.php",
    str "/.asp",
    str "/.aspx",
    str "/..%00/",
    str "/..%0d/",
    str "/..%0a/",
    str "/..%09/",
    str "/..%ff/",
    str "/%20/",
    str "/%09/",
    str ";/",
    str ".;/",
    str "..;/",
    str ";%09",
    str ";%09..",
    str ";%09..;",
    str ";%2f..",
    str "/.randomstring" ]

/-- `MidPathPayloads contains payloads to insert in the middle of paths`. -/
def MidPathPayloads : List Bytes :=
  [ str "/./",
    str "/../",
    str "/;/",
    str "/.;/",
    str "/..;/",
    str "/%2e/",
    str "/%2f/",
    str "/%20/",
    str "/%09/",
    str "/%00/",
    str "/%0d%0a/",
    str "/..%00/",
    str "/..%0d/",
    str "/.%00/",
    str "/.%0d/",
    str "//",
    str "///" ]

/-- The URLs `endPathBypass` requests, in the order of `EndPathPayloads`. -/
def endPathURLs (s : Scanner) : List Bytes :=
  EndPathPayloads.map (fun payload =>
    let testURL := utils.JoinURL s.targetURL payload
    testURL)

/-- The URLs `midPathBypass` requests for a target parsed as `u`, in the order of
`MidPathPayloads`; none when it returns before the loop. -/
def midPathURLs (u : url.URL) : List Bytes :=
  let pathValue := u.Path
  if pathValue = str "" ∨ pathValue = str "/" then []
  else
    let trailingSlash := strings.HasSuffix pathValue (str "/")
    let trimmedPath := strings.Trim pathValue (str "/")
    let segments := strings.Split trimmedPath (str "/")
    if segments.length = 0 then []
    else
      let lastSegment := segments.getD (segments.length - 1) []
      let baseSegments := segments.take (segments.length - 1)
      let basePath :=
        if baseSegments.length > 0 then str "/" ++ strings.Join baseSegments (str "/") ++ str "/"
        else str "/"
      let baseURL := u.Scheme ++ str "://" ++ u.Host
      MidPathPayloads.map (fun payload =>
        let fullpath := baseURL ++ basePath ++ payload ++ lastSegment
        if trailingSlash then fullpath ++ str "/" else fullpath)

end bypass

/-! ## The fan-out of the engines

Every engine writes the same loop (`verbTampering`, `headerBypass`, `endPathBypass`,
`midPathBypass`, `doubleEncoding`, `pathCaseSwitching`, and `Run` of the CRLF, CORS,
methods and smuggle scanners):

    sem := make(chan struct{}, s.config.Concurrency)
    for _, x := range items {
        wg.Add(1)
        sem <- struct{}{}
        go func(x) { defer wg.Done(); defer func() { <-sem }(); body(x) }(x)
    }
    wg.Wait()

It is modelled as a transition system: a state holds where the looping goroutine and
every worker goroutine stand, and one step is one statement of one goroutine, taken
when it does not block. Any interleaving is a list of such steps. -/

namespace dispatch

/-- Where a worker goroutine stands: its body is running (from the `go` statement on),
the body has returned and the deferred `<-sem` comes next, the slot is released and the
deferred `wg.Done()` comes next, or the goroutine has ended. -/
inductive Phase where
  | running
  | releasing
  | finishing
  | done
  deriving DecidableEq, Repr

/-- Where the looping goroutine stands: at the head of the loop, behind `wg.Add(1)` for
the item `x`, behind `sem <- struct{}{}` for `x`, at `wg.Wait()`, or behind it. -/
inductive Main (α : Type) where
  | loop
  | added (x : α)
  | acquired (x : α)
  | wait
  | returned
  deriving DecidableEq, Repr

/-- A state of the fan-out: the items the loop has not reached, the looping goroutine,
the number of values in the channel `sem`, the counter of the `WaitGroup`, and the worker
goroutines in the order they were started, each with its item. -/
structure State (α : Type) where
  todo : List α
  main : Main α
  sem : Nat
  wg : Nat
  workers : List (α × Phase)
  deriving DecidableEq, Repr

/-- The state in which the loop is entered. -/
def init {α : Type} (items : List α) : State α :=
  { todo := items, main := .loop, sem := 0, wg := 0, workers := [] }

/-- Who takes the next step: the looping goroutine, or the `i`-th worker started. -/
inductive Action where
  | main
  | worker (i : Nat)
  deriving DecidableEq, Repr

/-- One step of the fan-out with a semaphore of capacity `C`; `none` when the goroutine
chosen cannot move: a send on a full channel, `wg.Wait()` with a counter above zero, or a
goroutine that has ended. -/
def step {α : Type} (C : Nat) (s : State α) : Action → Option (State α)
  | .main =>
    match s.main with
    | .loop =>
      match s.todo with
      | x :: rest => some { s with todo := rest, main := .added x, wg := s.wg + 1 }
      | [] => some { s with main := .wait }
    | .added x =>
      if s.sem < C then some { s with main := .acquired x, sem := s.sem + 1 } else none
    | .acquired x =>
      some { s with main := .loop, workers := s.workers ++ [(x, Phase.running)] }
    | .wait => if s.wg = 0 then some { s with main := .returned } else none
    | .returned => none
  | .worker i =>
    match s.workers.get? i with
    | none => none
    | some (x, .running) => some { s with workers := s.workers.set i (x, Phase.releasing) }
    | some (x, .releasing) =>
      if s.sem > 0 then
        some { s with sem := s.sem - 1, workers := s.workers.set i (x, Phase.finishing) }
      else none
    | some (x, .finishing) =>
      if s.wg > 0 then
        some { s with wg := s.wg - 1, workers := s.workers.set i (x, Phase.done) }
      else none
    | some (_, .done) => none

/-- One step of the fan-out of the CORS `scanTarget`, which has no semaphore:

    for _, payload := range payloads {
        wg.Add(1)
        go func(origin string) { defer wg.Done(); s.testOrigin(targetURL, origin, &mu) }(payload)
    }
    wg.Wait()
-/
def stepPlain {α : Type} (s : State α) : Action → Option (State α)
  | .main =>
    match s.main with
    | .loop =>
      match s.todo with
      | x :: rest => some { s with todo := rest, main := .added x, wg := s.wg + 1 }
      | [] => some { s with main := .wait }
    | .added x =>
      some { s with main := .loop, workers := s.workers ++ [(x, Phase.running)] }
    | .acquired _ => none
    | .wait => if s.wg = 0 then some { s with main := .returned } else none
    | .returned => none
  | .worker i =>
    match s.workers.get? i with
    | none => none
    | some (x, .running) => some { s with workers := s.workers.set i (x, Phase.finishing) }
    | some (_, .releasing) => none
    | some (x, .finishing) =>
      if s.wg > 0 then
        some { s with wg := s.wg - 1, workers := s.workers.set i (x, Phase.done) }
      else none
    | some (_, .done) => none

/-- The state a schedule leads to, `none` when one of its steps cannot be taken. -/
def run {α : Type} (next : State α → Action → Option (State α)) :
    State α → List Action → Option (State α)
  | s, [] => some s
  | s, a :: rest =>
    match next s a with
    | some s' => run next s' rest
    | none => none

/-- The workers in flight: the goroutines whose body is running. -/
def inFlight {α : Type} (s : State α) : Nat :=
  s.workers.countP (fun w => w.2 = Phase.running)

/-- The item the looping goroutine holds between `wg.Add(1)` and `go`. -/
def pending {α : Type} : Main α → List α
  | .added x => [x]
  | .acquired x => [x]
  | _ => []

/-- The steps a goroutine has left: of a worker by its phase. -/
def Phase.left : Phase → Nat
  | .running => 3
  | .releasing => 2
  | .finishing => 1
  | .done => 0

/-- The steps the looping goroutine has left for the item it holds and for leaving the
loop. -/
def Main.left {α : Type} : Main α → Nat
  | .loop => 2
  | .added _ => 7
  | .acquired _ => 6
  | .wait => 1
  | .returned => 0

/-- The number of steps a state has left: six for every item not reached (three of the
loop, three of its worker), and those of the goroutines under way. -/
def stepsLeft {α : Type} (s : State α) : Nat :=
  6 * s.todo.length + s.main.left + (s.workers.map (fun w => w.2.left)).sum

/-- Whether a worker in this phase holds a slot of the semaphore. -/
def Phase.holds : Phase → Nat
  | .running => 1
  | .releasing => 1
  | .finishing => 0
  | .done => 0

/-- Whether a worker in this phase still counts in the `WaitGroup`. -/
def Phase.alive : Phase → Nat
  | .done => 0
  | _ => 1

/-- The slot the looping goroutine has taken for a worker it has not started yet. -/
def Main.slot {α : Type} : Main α → Nat
  | .acquired _ => 1
  | _ => 0

/-- What every reachable state of the fan-out over `items` with capacity `C` satisfies:
the items are those of the workers started, of the looping goroutine and of the rest of
the loop, in this order; the channel holds one value per slot taken, at most `C`; the
`WaitGroup` counts the workers not ended and the one being started; the loop is left only
when no item remains, and `wg.Wait()` only at zero. -/
def Inv {α : Type} (C : Nat) (items : List α) (s : State α) : Prop :=
  s.workers.map Prod.fst ++ pending s.main ++ s.todo = items
    ∧ s.sem = (s.workers.map (fun w => w.2.holds)).sum + s.main.slot
    ∧ s.sem ≤ C
    ∧ s.wg = (s.workers.map (fun w => w.2.alive)).sum + (pending s.main).length
    ∧ ((s.main = .wait ∨ s.main = .returned) → s.todo = [])
    ∧ (s.main = .returned → s.wg = 0)

end dispatch
/-! # Theorems -/

namespace strings

/-! ## `Index`, `Contains` -/

theorem Index_eq_none_iff (s sub : Bytes) : Index s sub = none ↔ ¬ sub <:+: s := by
  induction s with
  | nil =>
    by_cases h : sub = [] <;> simp [Index, h]
  | cons c s ih =>
    rw [Index, List.infix_cons_iff]
    by_cases h : sub.isPrefixOf (c :: s) = true
    · have hp : sub <+: c :: s := List.isPrefixOf_iff_prefix.mp h
      simp [h, hp]
    · have hp : ¬ sub <+: c :: s := fun hp => h ( List.isPrefixOf_iff_prefix.mpr hp)
      simp [h, hp, ih]

theorem Contains_iff (s sub : Bytes) : Contains s sub = true ↔ sub <:+: s := by
  unfold Contains
  rw [Option.isSome_iff_ne_none, Ne, Index_eq_none_iff, not_not]

theorem Contains_eq_false_iff (s sub : Bytes) : Contains s sub = false ↔ ¬ sub <:+: s := by
  rw [← Contains_iff]
  simp

/-- An index `Index` returns is where `sub` stands in `s`, and no instance stands further
left. -/
theorem Index_some (s sub : Bytes) : ∀ j, Index s sub = some j →
    s = s.take j ++ sub ++ s.drop (j + sub.length)
      ∧ ∀ l r : Bytes, s = l ++ sub ++ r → j ≤ l.length := by
  induction s with
  | nil =>
    intro j h
    by_cases hs : sub = []
    · simp [Index, hs] at h
      subst h
      simp [hs]
    · simp [Index, hs] at h
  | cons c s ih =>
    intro j h
    rw [Index] at h
    by_cases hp : sub.isPrefixOf (c :: s) = true
    · simp only [hp, ↓reduceIte, Option.some.injEq] at h
      subst h
      obtain ⟨r, hr⟩ := List.isPrefixOf_iff_prefix.mp hp
      refine ⟨?_, fun _ _ _ => Nat.zero_le _⟩
      rw [← hr]
      simp
    · simp only [hp, Bool.false_eq_true, ↓reduceIte, Option.map_eq_some'] at h
      obtain ⟨j', hj', rfl⟩ := h
      obtain ⟨h1, h2⟩ := ih j' hj'
      constructor
      · have : j' + 1 + sub.length = (j' + sub.length) + 1 := by omega
        rw [this, List.take_succ_cons, List.drop_succ_cons]
        simp only [List.cons_append]
        rw [← h1]
      · intro l r hl
        cases l with
        | nil =>
          exfalso
          apply hp
          apply List.isPrefixOf_iff_prefix.mpr
          exact ⟨r, by simpa using hl.symm⟩
        | cons a l =>
          simp only [List.cons_append, List.cons.injEq] at hl
          have := h2 l r hl.2
          simp only [List.length_cons]
          omega

/-! ## `TrimSpace` keeps a contiguous piece of its argument -/

theorem stripLeading_suffix (encs : List Bytes) : ∀ (fuel : Nat) (s : Bytes),
    stripLeading encs fuel s <:+ s := by
  intro fuel
  induction fuel with
  | zero => intro s; exact List.suffix_refl s
  | succ n ih =>
    intro s
    rw [stripLeading]
    split
    · exact (ih _).trans (List.drop_suffix _ _)
    · exact List.suffix_refl s

/-- With fuel for every byte of the string, stripping stops only when no byte string of
`encs` leads what is left. -/
theorem stripLeading_done (encs : List Bytes) (hencs : ∀ e ∈ encs, e ≠ []) :
    ∀ (fuel : Nat) (s : Bytes), s.length ≤ fuel →
      ∀ e ∈ encs, ¬ e <+: stripLeading encs fuel s := by
  intro fuel
  induction fuel with
  | zero =>
    intro s hs e he hp
    have : s = [] := List.length_eq_zero.mp (by omega)
    subst this
    simp only [stripLeading] at hp
    exact hencs e he (List.prefix_nil.mp hp)
  | succ n ih =>
    intro s hs e he
    rw [stripLeading]
    split
    · rename_i e' hfind
      have he' : e' ∈ encs := List.mem_of_find?_eq_some hfind
      have hpos : 0 < e'.length := List.length_pos.mpr (hencs e' he')
      apply ih _ _ e he
      rw [List.length_drop]
      omega
    · rename_i hfind
      rw [List.find?_eq_none] at hfind
      intro hp
      exact hfind e he (by simpa using hp)

/-- `TrimSpace` leaves no white-space character at either end. -/
theorem TrimSpace_trimmed (s : Bytes) :
    ∀ e ∈ spaceEncodings, ¬ e <+: TrimSpace s ∧ ¬ e <:+ TrimSpace s := by
  intro e he
  have hne : ∀ e ∈ spaceEncodings, e ≠ [] := by decide
  have hneR : ∀ e ∈ spaceEncodings.map List.reverse, e ≠ [] := by decide
  have hL := stripLeading_done spaceEncodings hne s.length s (Nat.le_refl _)
  have hR := stripLeading_done (spaceEncodings.map List.reverse) hneR
    (TrimLeftSpace s).length (TrimLeftSpace s).reverse (by simp)
  have hpre : TrimSpace s <+: TrimLeftSpace s := by
    have h2 := stripLeading_suffix (spaceEncodings.map List.reverse)
      (TrimLeftSpace s).length (TrimLeftSpace s).reverse
    have h3 := List.reverse_prefix.mpr h2
    rw [List.reverse_reverse] at h3
    exact h3
  constructor
  · exact fun h => hL e he (h.trans hpre)
  · intro h
    apply hR e.reverse (List.mem_map_of_mem _ he)
    have := List.reverse_prefix.mpr h
    simpa [TrimSpace, TrimRightSpace] using this

theorem TrimSpace_infix (s : Bytes) : TrimSpace s <:+: s := by
  unfold TrimSpace TrimRightSpace TrimLeftSpace
  have h1 := stripLeading_suffix spaceEncodings s.length s
  have h2 := stripLeading_suffix (spaceEncodings.map List.reverse)
    (stripLeading spaceEncodings s.length s).length (stripLeading spaceEncodings s.length s).reverse
  have h3 := List.reverse_prefix.mpr h2
  rw [List.reverse_reverse] at h3
  exact h3.isInfix.trans h1.isInfix

/-! ## `SplitN` with `n = 2` -/

theorem SplitN_two (s sep : Bytes) (hs : s ≠ []) :
    SplitN s sep 2 =
      match Index s sep with
      | none => [s]
      | some m => [s.take m, s.drop (m + sep.length)] := by
  have hl : 0 < s.length := List.length_pos.mpr hs
  have h2 : ¬ 2 > s.length + 1 := by omega
  simp only [SplitN, h2, ↓reduceIte]
  simp only [OfNat.ofNat_ne_zero, ↓reduceIte, Nat.add_one_sub_one, splitLoop]

/-! ## `ReplaceAll` -/

theorem Index_nil_of_ne (old : Bytes) (h : old ≠ []) : Index [] old = none := by
  simp [Index, h]

/-- More fuel than the length of the string changes nothing. -/
theorem replaceLoop_fuel (old new : Bytes) (hold : old ≠ []) : ∀ (n : Nat) (s : Bytes),
    s.length ≤ n → ∀ m, s.length ≤ m → replaceLoop n s old new = replaceLoop m s old new := by
  intro n
  induction n with
  | zero =>
    intro s hs m _
    have : s = [] := List.length_eq_zero.mp (by omega)
    subst this
    cases m with
    | zero => rfl
    | succ m => simp [replaceLoop, Index_nil_of_ne old hold]
  | succ n ih =>
    intro s hs m hm
    cases m with
    | zero =>
      have : s = [] := List.length_eq_zero.mp (by omega)
      subst this
      simp [replaceLoop, Index_nil_of_ne old hold]
    | succ m =>
      simp only [replaceLoop]
      cases hI : Index s old with
      | none => rfl
      | some j =>
        have hpos : 0 < old.length := List.length_pos.mpr hold
        have hd : (s.drop (j + old.length)).length ≤ s.length - 1 := by
          rw [List.length_drop]; omega
        simp only
        rw [ih _ (by omega) m (by omega)]

/-- `ReplaceAll` replaces the first instance and goes on behind it. -/
theorem ReplaceAll_unfold (s old new : Bytes) (hold : old ≠ []) (hne : old ≠ new) :
    ReplaceAll s old new =
      match Index s old with
      | none => s
      | some j => s.take j ++ new ++ ReplaceAll (s.drop (j + old.length)) old new := by
  simp only [ReplaceAll, hne, ↓reduceIte]
  cases hl : s.length with
  | zero =>
    have : s = [] := List.length_eq_zero.mp hl
    subst this
    simp [replaceLoop, Index_nil_of_ne old hold]
  | succ n =>
    simp only [replaceLoop]
    cases hI : Index s old with
    | none => rfl
    | some j =>
      have hpos : 0 < old.length := List.length_pos.mpr hold
      have hd : (s.drop (j + old.length)).length ≤ n := by
        rw [List.length_drop]; omega
      simp only
      rw [replaceLoop_fuel old new hold n _ hd _ (Nat.le_refl _)]

/-- Joining two strings free of the pair `a b` with a byte that is neither. -/
theorem not_infix_join (a b c : Nat) (hca : c ≠ a) (hcb : c ≠ b) (y : Bytes)
    (hy : ¬ [a, b] <:+: y) : ∀ x : Bytes, ¬ [a, b] <:+: x → ¬ [a, b] <:+: x ++ c :: y := by
  intro x
  induction x with
  | nil =>
    intro _ h
    rw [List.nil_append, List.infix_cons_iff] at h
    rcases h with h | h
    · rw [List.cons_prefix_cons] at h
      exact hca h.1.symm
    · exact hy h
  | cons d x ih =>
    intro hx h
    rw [List.cons_append, List.infix_cons_iff] at h
    rw [List.infix_cons_iff] at hx
    push_neg at hx
    rcases h with h | h
    · rw [List.cons_prefix_cons] at h
      obtain ⟨had, hb⟩ := h
      cases x with
      | nil =>
        rw [List.nil_append, List.cons_prefix_cons] at hb
        exact hcb hb.1.symm
      | cons e x =>
        rw [List.cons_append, List.cons_prefix_cons] at hb
        apply hx.1
        rw [List.cons_prefix_cons, List.cons_prefix_cons]
        exact ⟨had, hb.1, List.nil_prefix⟩
    · exact ih hx.2 h

/-- After `ReplaceAll` of the pair `a b` by a byte that is neither, no `a b` is left. -/
theorem ReplaceAll_pair_gone (a b c : Nat) (hca : c ≠ a) (hcb : c ≠ b) (s : Bytes) :
    ¬ [a, b] <:+: ReplaceAll s [a, b] [c] := by
  generalize hn : s.length = n
  induction n using Nat.strong_induction_on generalizing s with
  | _ n ih =>
    rw [ReplaceAll_unfold s [a, b] [c] (by simp) (by simp)]
    cases hI : Index s [a, b] with
    | none => exact (Index_eq_none_iff s [a, b]).mp hI
    | some j =>
      obtain ⟨h1, h2⟩ := Index_some s [a, b] j hI
      simp only [List.append_assoc, List.singleton_append]
      apply not_infix_join a b c hca hcb
      · apply ih (s.drop (j + [a, b].length)).length _ _ rfl
        rw [List.length_drop, ← hn]
        have : j + 2 ≤ s.length := by
          have := congrArg List.length h1
          simp only [List.length_append, List.length_take, List.length_cons,
            List.length_nil, List.length_drop] at this
          omega
        simp only [List.length_cons, List.length_nil]
        omega
      · rintro ⟨l, r, hlr⟩
        have hs : s = l ++ [a, b] ++ (r ++ [a, b] ++ s.drop (j + [a, b].length)) := by
          nth_rewrite 1 [h1]
          rw [← hlr]
          simp only [List.append_assoc]
        have hle := h2 l _ hs
        have hlen := congrArg List.length hlr
        simp only [List.length_append, List.length_take, List.length_cons,
          List.length_nil] at hlen
        omega

/-- A pair that was absent stays absent when another pair is replaced by a byte foreign
to it. -/
theorem ReplaceAll_pair_absent (a b c a' b' : Nat) (hca : c ≠ a') (hcb : c ≠ b') (s : Bytes)
    (hs : ¬ [a', b'] <:+: s) : ¬ [a', b'] <:+: ReplaceAll s [a, b] [c] := by
  generalize hn : s.length = n
  induction n using Nat.strong_induction_on generalizing s with
  | _ n ih =>
    rw [ReplaceAll_unfold s [a, b] [c] (by simp) (by simp)]
    cases hI : Index s [a, b] with
    | none => exact hs
    | some j =>
      obtain ⟨h1, _⟩ := Index_some s [a, b] j hI
      simp only [List.append_assoc, List.singleton_append]
      apply not_infix_join a' b' c hca hcb
      · apply ih (s.drop (j + [a, b].length)).length _ _
          (fun h => hs (h.trans (List.drop_suffix _ _).isInfix)) rfl
        rw [List.length_drop, ← hn]
        have : j + 2 ≤ s.length := by
          have := congrArg List.length h1
          simp only [List.length_append, List.length_take, List.length_cons,
            List.length_nil, List.length_drop] at this
          omega
        simp only [List.length_cons, List.length_nil]
        omega
      · exact fun h => hs (h.trans (List.take_prefix _ _).isInfix)

/-! ### `ReplaceAll` of a two-byte sequence by one byte, read from the left -/

theorem ReplaceAll_pair_nil (a b c : Nat) : ReplaceAll [] [a, b] [c] = [] := by
  rw [ReplaceAll_unfold [] [a, b] [c] (by simp) (by simp)]
  rfl

theorem ReplaceAll_pair_match (a b c : Nat) (t : Bytes) :
    ReplaceAll (a :: b :: t) [a, b] [c] = c :: ReplaceAll t [a, b] [c] := by
  rw [ReplaceAll_unfold (a :: b :: t) [a, b] [c] (by simp) (by simp)]
  have : Index (a :: b :: t) [a, b] = some 0 := by
    simp [Index, List.isPrefixOf]
  rw [this]
  simp

theorem ReplaceAll_pair_skip (a b c x : Nat) (w : Bytes) (h : ¬ (x = a ∧ w.head? = some b)) :
    ReplaceAll (x :: w) [a, b] [c] = x :: ReplaceAll w [a, b] [c] := by
  have hp : List.isPrefixOf [a, b] (x :: w) = false := by
    cases w with
    | nil => simp [List.isPrefixOf]
    | cons y t =>
      simp only [List.head?_cons, Option.some.injEq] at h
      simp only [List.isPrefixOf, Bool.and_true, Bool.and_eq_false_imp, beq_iff_eq, beq_eq_false_iff_ne, ne_eq]
      intro hax hby
      exact h ⟨hax.symm, hby.symm⟩
  rw [ReplaceAll_unfold (x :: w) [a, b] [c] (by simp) (by simp),
    ReplaceAll_unfold w [a, b] [c] (by simp) (by simp)]
  have hI : Index (x :: w) [a, b] = (Index w [a, b]).map (fun i => i + 1) := by
    rw [Index]
    simp [hp]
  rw [hI]
  cases Index w [a, b] with
  | none => rfl
  | some j =>
    have : j + 1 + [a, b].length = (j + [a, b].length) + 1 := by omega
    simp only [Option.map_some', this, List.take_succ_cons, List.drop_succ_cons,
      List.cons_append]

/-- The first byte of the result is the first byte of the string or the replacement. -/
theorem ReplaceAll_pair_head (a b c : Nat) (w : Bytes) :
    (ReplaceAll w [a, b] [c]).head? = w.head? ∨ (ReplaceAll w [a, b] [c]).head? = some c := by
  cases w with
  | nil => left; rw [ReplaceAll_pair_nil]
  | cons x t =>
    by_cases h : x = a ∧ t.head? = some b
    · obtain ⟨rfl, ht⟩ := h
      cases t with
      | nil => simp at ht
      | cons y t =>
        simp only [List.head?_cons, Option.some.injEq] at ht
        subst ht
        right
        rw [ReplaceAll_pair_match]
        rfl
    · left
      rw [ReplaceAll_pair_skip a b c x t h]
      rfl

end strings

namespace smuggle

/-! ## Arithmetic of the big-endian fields -/

theorem shiftLeft_lor_eq (a b i : Nat) (h : b < 2 ^ i) : a <<< i ||| b = a * 2 ^ i + b := by
  rw [Nat.shiftLeft_eq, Nat.mul_comm, ← Nat.mul_add_lt_is_or h]

theorem lor_shiftLeft_eq (a b i : Nat) (h : b < 2 ^ i) : b ||| a <<< i = a * 2 ^ i + b := by
  rw [Nat.lor_comm, shiftLeft_lor_eq a b i h]

theorem land_mask31 (v : Nat) : v &&& 0x7fffffff = v % 2 ^ 31 :=
  Nat.and_pow_two_sub_one_eq_mod v 31

/-- The three length bytes of a header, read back as `readFrame` reads them. -/
theorem length24_roundtrip (n : Nat) (h : n < 2 ^ 24) :
    ((n >>> 16) % 256) <<< 16 ||| ((n >>> 8) % 256) <<< 8 ||| n % 256 = n := by
  simp only [Nat.shiftRight_eq_div_pow]
  have h1 : ((n / 2 ^ 8) % 256) <<< 8 < 2 ^ 16 := by
    rw [Nat.shiftLeft_eq]; omega
  rw [shiftLeft_lor_eq _ _ 16 h1, Nat.shiftLeft_eq]
  have h2 : (n / 2 ^ 16) % 256 * 2 ^ 16 + (n / 2 ^ 8) % 256 * 2 ^ 8
      = ((n / 2 ^ 16) % 256 * 2 ^ 8 + (n / 2 ^ 8) % 256) <<< 8 := by
    rw [Nat.shiftLeft_eq]; omega
  rw [h2, shiftLeft_lor_eq _ _ 8 (by omega)]
  omega

/-- `Uint32` after `PutUint32` is the identity on 32-bit values. -/
theorem uint32_putUint32 (v : Nat) (h : v < 2 ^ 32) : uint32 (putUint32 v) = v := by
  simp only [uint32, putUint32, List.getD_cons_succ, List.getD_cons_zero,
    Nat.shiftRight_eq_div_pow]
  rw [lor_shiftLeft_eq _ _ 8 (by omega), lor_shiftLeft_eq _ _ 16 (by omega),
    lor_shiftLeft_eq _ _ 24 (by omega)]
  omega

theorem frameHeader_length (t f sid : Nat) (p : Bytes) : (frameHeader t f sid p).length = 9 := by
  simp [frameHeader, putUint32]

/-- Into a buffer, `writeFrame` appends the header and then the payload. -/
theorem writeFrame_buffer (buf : Bytes) (t f sid : Nat) (p : Bytes) :
    writeFrame bufferWrite buf t f sid p = .ok (buf ++ frameHeader t f sid p ++ p) := by
  unfold writeFrame
  simp only [bufferWrite]
  by_cases hp : p.length > 0
  · simp [hp]
  · have : p = [] := by
      cases p with
      | nil => rfl
      | cons a l => simp at hp
    simp [this]

theorem bytesReadFull_append (a b : Bytes) :
    bytesReadFull (a ++ b) a.length = .ok (a, b) := by
  simp [bytesReadFull]

/-- C1: for every frame type, flags, stream id at most `2^31 - 1` and payload of at most
`2^24 - 1` bytes, `readFrame` applied to the bytes `writeFrame` produced returns a frame
with the same type, flags, stream id and payload, whose `Length` is the payload's byte
count, and leaves nothing unread. -/
theorem frame_roundtrip (frameType flags streamID : Nat) (payload : Bytes)
    (hsid : streamID ≤ 2 ^ 31 - 1) (hlen : payload.length ≤ 2 ^ 24 - 1) :
    ∃ out, writeFrame bufferWrite [] frameType flags streamID payload = .ok out ∧
      readFrame bytesReadFull out =
        .ok ({ Length := payload.length, FType := frameType, Flags := flags,
               StreamID := streamID, Payload := payload }, []) := by
  refine ⟨frameHeader frameType flags streamID payload ++ payload, ?_, ?_⟩
  · rw [writeFrame_buffer, List.nil_append]
  · have h9 := bytesReadFull_append (frameHeader frameType flags streamID payload) payload
    rw [frameHeader_length] at h9
    unfold readFrame
    rw [h9]
    have hL : ((frameHeader frameType flags streamID payload).getD 0 0 <<< 16
        ||| (frameHeader frameType flags streamID payload).getD 1 0 <<< 8
        ||| (frameHeader frameType flags streamID payload).getD 2 0) = payload.length := by
      have h := length24_roundtrip payload.length (by omega)
      simp only [frameHeader, List.cons_append, List.getD_cons_succ, List.getD_cons_zero]
      exact h
    have hS : uint32 (((frameHeader frameType flags streamID payload).drop 5).take 4)
        &&& 0x7fffffff = streamID := by
      have hm : streamID % 2 ^ 31 = streamID := Nat.mod_eq_of_lt (by omega)
      have : ((frameHeader frameType flags streamID payload).drop 5).take 4
          = putUint32 streamID := by
        simp only [frameHeader, land_mask31, hm, putUint32, List.cons_append,
          List.drop_succ_cons, List.drop_zero, List.nil_append, List.take_succ_cons,
          List.take_zero]
      rw [this, uint32_putUint32 _ (by omega), land_mask31, hm]
    simp only [hL, hS]
    by_cases hp : payload.length > 0
    · have hr := bytesReadFull_append payload []
      simp only [List.append_nil] at hr
      simp only [hp, ↓reduceIte, hr, frameHeader, List.cons_append, List.getD_cons_succ,
        List.getD_cons_zero]
    · have : payload = [] := by
        cases payload with
        | nil => rfl
        | cons a l => simp at hp
      subst this
      simp only [List.length_nil, gt_iff_lt, Nat.lt_irrefl, ↓reduceIte, frameHeader,
        List.cons_append, List.getD_cons_succ, List.getD_cons_zero]

theorem frame_roundtrip_witness :
    ∃ out, writeFrame bufferWrite [] frameHeaders flagEndHeaders 1 [0x83, 0x87] = .ok out ∧
      readFrame bytesReadFull out =
        .ok ({ Length := 2, FType := frameHeaders, Flags := flagEndHeaders,
               StreamID := 1, Payload := [0x83, 0x87] }, []) :=
  frame_roundtrip frameHeaders flagEndHeaders 1 [0x83, 0x87] (by norm_num) (by norm_num)

/-! ## The length prefix of `encodeHPACKString` -/

theorem encodeLoop_lt (buf : Bytes) (r : Nat) (h : r < 128) : encodeLoop buf r = (buf, r) := by
  rw [encodeLoop]; simp [Nat.not_le.mpr h]

theorem encodeLoop_ge (buf : Bytes) (r : Nat) (h : 128 ≤ r) :
    encodeLoop buf r = encodeLoop (buf ++ [r % 128 + 128]) (r / 128) := by
  rw [encodeLoop]
  have : (r % 128 + 128) % 256 = r % 128 + 128 := by omega
  simp [h, this]

/-- The loop only appends to `buf`, and what it appends does not depend on `buf`. -/
theorem encodeLoop_buf (r : Nat) : ∀ buf : Bytes,
    encodeLoop buf r = (buf ++ (encodeLoop [] r).1, (encodeLoop [] r).2) := by
  induction r using Nat.strong_induction_on with
  | _ r ih =>
    intro buf
    by_cases h : 128 ≤ r
    · rw [encodeLoop_ge buf r h, encodeLoop_ge [] r h, ih (r / 128) (by omega) (buf ++ _),
        ih (r / 128) (by omega) ([] ++ _)]
      simp
    · rw [encodeLoop_lt buf r (by omega), encodeLoop_lt [] r (by omega)]
      simp

/-- The loop leaves a value below 128 in `remaining`. -/
theorem encodeLoop_snd_lt (r : Nat) : (encodeLoop [] r).2 < 128 := by
  induction r using Nat.strong_induction_on with
  | _ r ih =>
    by_cases h : 128 ≤ r
    · rw [encodeLoop_ge [] r h, encodeLoop_buf]
      exact ih (r / 128) (by omega)
    · rw [encodeLoop_lt [] r (by omega)]
      omega

/-- The bytes `encodeHPACKString` puts before the string when the length is 127 or more. -/
theorem encodeHPACKString_long (s : Bytes) (h : 127 ≤ s.length) :
    encodeHPACKString s
      = 127 :: ((encodeLoop [] (s.length - 127)).1 ++ [(encodeLoop [] (s.length - 127)).2]) ++ s := by
  unfold encodeHPACKString
  have h1 : ¬ s.length < 127 := by omega
  have h2 := encodeLoop_snd_lt (s.length - 127)
  have h3 : (encodeLoop [] (s.length - 127)).2 % 256 = (encodeLoop [] (s.length - 127)).2 := by
    omega
  simp only [h1, ↓reduceIte]
  rw [encodeLoop_buf (s.length - 127) [127]]
  simp [h3]

theorem encodeHPACKString_short (s : Bytes) (h : s.length < 127) :
    encodeHPACKString s = s.length :: s := by
  unfold encodeHPACKString
  have : s.length % 256 = s.length := by omega
  simp [h, this]

/-- What the loop emits is the base-128 digit string of `r` with the continuation bit on
every digit but the last. -/
theorem encodeLoop_digits (r : Nat) :
    (encodeLoop [] r).1 ++ [(encodeLoop [] r).2]
      = (base128Digits r).dropLast.map (fun d => d + 128)
          ++ (base128Digits r).drop ((base128Digits r).length - 1) := by
  induction r using Nat.strong_induction_on with
  | _ r ih =>
    by_cases h : 128 ≤ r
    · have hq : r / 128 ≠ 0 := by omega
      have hr : r ≠ 0 := by omega
      have hd : base128Digits r = r % 128 :: base128Digits (r / 128) := by
        simp only [base128Digits, hq, hr, ↓reduceIte]
        exact Nat.digits_def' (by norm_num) (by omega)
      have hne : base128Digits (r / 128) ≠ [] := by
        simp only [base128Digits, hq, ↓reduceIte]
        exact Nat.digits_ne_nil_iff_ne_zero.mpr hq
      obtain ⟨d, ds, hds⟩ := List.exists_cons_of_ne_nil hne
      have ih1 := ih (r / 128) (by omega)
      rw [encodeLoop_ge [] r h, encodeLoop_buf, hd]
      simp only [List.nil_append, List.cons_append, List.singleton_append]
      rw [ih1, hds]
      simp
    · have hlt : r < 128 := by omega
      rw [encodeLoop_lt [] r hlt]
      by_cases h0 : r = 0
      · simp [base128Digits, h0]
      · have : Nat.digits 128 r = [r] := Nat.digits_of_lt 128 r h0 hlt
        simp [base128Digits, h0, this]

/-- Reading the continuation bytes the loop wrote gives back the number it was run on. -/
theorem decodeIntegerRest_encodeLoop (r : Nat) : ∀ (i m : Nat) (tail : Bytes),
    decodeIntegerRest ((encodeLoop [] r).1 ++ [(encodeLoop [] r).2] ++ tail) i m
      = some (i + r * 2 ^ m, tail) := by
  induction r using Nat.strong_induction_on with
  | _ r ih =>
    intro i m tail
    by_cases h : 128 ≤ r
    · rw [encodeLoop_ge [] r h, encodeLoop_buf]
      simp only [List.nil_append, List.cons_append, List.singleton_append, List.append_assoc]
      have hb : 128 ≤ r % 128 + 128 := by omega
      have hm : (r % 128 + 128) % 128 = r % 128 := by omega
      rw [decodeIntegerRest]
      simp only [hb, ↓reduceIte, hm]
      have := ih (r / 128) (by omega) (i + r % 128 * 2 ^ m) (m + 7) tail
      simp only [List.append_assoc, List.singleton_append] at this
      rw [this]
      have hr : r = 128 * (r / 128) + r % 128 := (Nat.div_add_mod r 128).symm
      have hp : 2 ^ (m + 7) = 128 * 2 ^ m := by rw [pow_add]; ring
      rw [hp]
      congr 2
      nth_rewrite 3 [hr]
      ring
    · have hlt : r < 128 := by omega
      rw [encodeLoop_lt [] r hlt]
      simp only [List.nil_append, List.singleton_append]
      rw [decodeIntegerRest]
      have hm : r % 128 = r := Nat.mod_eq_of_lt hlt
      simp [h, hm]

/-- Decoding what `encodeHPACKString` wrote gives the string back, for every length. -/
theorem decode_encode (s : Bytes) : decodeHPACKString (encodeHPACKString s) = some (s, []) := by
  by_cases h : s.length < 127
  · rw [encodeHPACKString_short s h]
    have h1 : ¬ 128 ≤ s.length := by omega
    simp [decodeHPACKString, h1, h]
  · rw [encodeHPACKString_long s (by omega)]
    have hd := decodeIntegerRest_encodeLoop (s.length - 127) 127 0 s
    have hv : 127 + (s.length - 127) * 2 ^ 0 = s.length := by
      simp only [pow_zero, Nat.mul_one]; omega
    rw [hv] at hd
    simp only [List.append_assoc, List.singleton_append] at hd
    simp only [decodeHPACKString, List.cons_append]
    simp [hd]

theorem base128Digits_lt (m : Nat) : ∀ d ∈ base128Digits m, d < 128 := by
  intro d hd
  unfold base128Digits at hd
  by_cases h0 : m = 0
  · simp [h0] at hd
    omega
  · simp only [h0, ↓reduceIte] at hd
    exact Nat.digits_lt_base (by norm_num) hd

theorem base128Digits_value (m : Nat) : Nat.ofDigits 128 (base128Digits m) = m := by
  unfold base128Digits
  by_cases h0 : m = 0
  · simp [h0]
  · simp only [h0, ↓reduceIte]
    exact Nat.ofDigits_digits 128 m

theorem fromBigEndian_three (n : Nat) (h : n < 2 ^ 24) : fromBigEndian (bigEndian 3 n) = n := by
  simp only [fromBigEndian, bigEndian, List.foldl_cons, List.foldl_nil]
  omega

theorem fromBigEndian_four (n : Nat) (h : n < 2 ^ 32) : fromBigEndian (bigEndian 4 n) = n := by
  simp only [fromBigEndian, bigEndian, List.foldl_cons, List.foldl_nil]
  omega

/-- C2: for each of the lengths 0, 126, 127, 128 and 10000 and every string `s` of that
length, reading `encodeHPACKString s` as an HPACK string literal (7-bit-prefix integer,
Huffman flag clear, then that many raw bytes) returns exactly `s` and leaves no input. -/
theorem hpack_string_roundtrip (n : Nat) (_hn : n ∈ [0, 126, 127, 128, 10000]) (s : Bytes)
    (_hs : s.length = n) : decodeHPACKString (encodeHPACKString s) = some (s, []) :=
  decode_encode s

theorem hpack_string_roundtrip_witness :
    decodeHPACKString (encodeHPACKString (List.replicate 127 0x61))
      = some (List.replicate 127 0x61, []) :=
  hpack_string_roundtrip 127 (by decide) (List.replicate 127 0x61) (by simp)

/-- The encoding is the length prefix of the HPACK rule followed by the string. -/
theorem encodeHPACKString_eq_lengthPrefix (s : Bytes) :
    encodeHPACKString s = lengthPrefix s.length ++ s := by
  by_cases h : s.length < 127
  · rw [encodeHPACKString_short s h]
    simp [lengthPrefix, h]
  · rw [encodeHPACKString_long s (by omega), encodeLoop_digits]
    simp [lengthPrefix, h]

theorem base128Digits_ne_nil (m : Nat) : base128Digits m ≠ [] := by
  unfold base128Digits
  by_cases h0 : m = 0
  · simp [h0]
  · simp only [h0, ↓reduceIte]
    exact Nat.digits_ne_nil_iff_ne_zero.mpr h0

/-- The long form of the length prefix, digit by digit. -/
theorem lengthPrefix_long (n : Nat) (h : 127 ≤ n) :
    ∃ ds last, ds ++ [last] = base128Digits (n - 127)
      ∧ lengthPrefix n = [127] ++ ds.map (fun d => d + 128) ++ [last]
      ∧ (∀ d ∈ ds, d < 128) ∧ last < 128
      ∧ Nat.ofDigits 128 (ds ++ [last]) = n - 127 := by
  have hne := base128Digits_ne_nil (n - 127)
  have hsplit := List.dropLast_append_getLast hne
  refine ⟨(base128Digits (n - 127)).dropLast, (base128Digits (n - 127)).getLast hne,
    hsplit, ?_, ?_, ?_, ?_⟩
  · have hdrop : (base128Digits (n - 127)).drop ((base128Digits (n - 127)).length - 1)
        = [(base128Digits (n - 127)).getLast hne] := by
      have hgen : ∀ (a : List Nat) (x : Nat),
          (a ++ [x]).drop ((a ++ [x]).length - 1) = [x] := by
        intro a x
        simp
      have hx := hgen (base128Digits (n - 127)).dropLast
        ((base128Digits (n - 127)).getLast hne)
      rw [hsplit] at hx
      exact hx
    have h1 : ¬ n < 127 := by omega
    simp only [lengthPrefix, h1, ↓reduceIte, hdrop, List.singleton_append, List.cons_append,
      List.nil_append]
  · intro d hd
    exact base128Digits_lt _ d (List.mem_of_mem_dropLast hd)
  · exact base128Digits_lt _ _ (List.getLast_mem hne)
  · rw [hsplit]
    exact base128Digits_value _

/-- C3: for every string `s` of byte length `n`, `encodeHPACKString s` is a length prefix
followed by the bytes of `s` unchanged. Either `n < 127` and the prefix is the single byte
`n`; or `n ≥ 127` and the prefix is the byte 127 followed by the little-endian base-128
digits of `n - 127` (each below 128, together worth `n - 127`), every digit but the last
with the continuation bit `0x80` added and the last without it. In both cases the first
byte is below 128: the top (Huffman) bit is never set. -/
theorem encodeHPACKString_layout (s : Bytes) :
    ((s.length < 127 ∧ encodeHPACKString s = [s.length] ++ s)
      ∨ (127 ≤ s.length ∧ ∃ ds last,
          encodeHPACKString s = [127] ++ ds.map (fun d => d + 128) ++ [last] ++ s
          ∧ ds ++ [last] = base128Digits (s.length - 127)
          ∧ (∀ d ∈ ds, d < 128) ∧ last < 128
          ∧ Nat.ofDigits 128 (ds ++ [last]) = s.length - 127))
      ∧ ∃ first rest, encodeHPACKString s = first :: rest ∧ first < 128 := by
  constructor
  · by_cases h : s.length < 127
    · exact Or.inl ⟨h, by rw [encodeHPACKString_short s h]; rfl⟩
    · have h127 : 127 ≤ s.length := by omega
      obtain ⟨ds, last, h1, h2, h3, h4, h5⟩ := lengthPrefix_long s.length h127
      refine Or.inr ⟨h127, ds, last, ?_, h1, h3, h4, h5⟩
      rw [encodeHPACKString_eq_lengthPrefix, h2]
  · by_cases h : s.length < 127
    · exact ⟨s.length, s, encodeHPACKString_short s h, by omega⟩
    · exact ⟨127, _, encodeHPACKString_long s (by omega), by norm_num⟩

/-- C4: for every host, path and gadget, `buildHPACKHeaders` returns exactly the bytes
0x83, 0x87, 0x44, enc(path), 0x41, enc(host), 0x00, enc("user-agent"), enc(the fixed
Mozilla user agent), 0x00, enc(gadget name), enc(gadget value), in this order and nothing
else, `enc` being `encodeHPACKString`; the block ends with the gadget's name and value
bytes, each unchanged behind its length prefix. -/
theorem buildHPACKHeaders_layout (host path : Bytes) (payload : Payload) :
    buildHPACKHeaders host path payload
        = [0x83, 0x87, 0x44] ++ encodeHPACKString path ++ [0x41] ++ encodeHPACKString host
          ++ [0x00] ++ encodeHPACKString (str "user-agent")
          ++ encodeHPACKString
              (str "Mozilla/5.0 (X11; Linux x86_64; rv:60.0) Gecko/20100101 Firefox/60.0")
          ++ [0x00] ++ encodeHPACKString payload.HeaderName
          ++ encodeHPACKString payload.HeaderValue
      ∧ ∃ before, buildHPACKHeaders host path payload
          = before ++ [0x00] ++ lengthPrefix payload.HeaderName.length ++ payload.HeaderName
            ++ lengthPrefix payload.HeaderValue.length ++ payload.HeaderValue := by
  constructor
  · simp [buildHPACKHeaders, userAgent]
  · refine ⟨[0x83, 0x87, 0x44] ++ encodeHPACKString path ++ [0x41] ++ encodeHPACKString host
          ++ [0x00] ++ encodeHPACKString (str "user-agent") ++ encodeHPACKString userAgent, ?_⟩
    have h1 := encodeHPACKString_eq_lengthPrefix payload.HeaderName
    have h2 := encodeHPACKString_eq_lengthPrefix payload.HeaderValue
    simp only [buildHPACKHeaders, List.nil_append]
    rw [h1, h2]
    simp only [List.append_assoc, List.cons_append, List.nil_append, List.singleton_append]

/-- C5: for every frame type, flags, stream id and payload of at most `2^24 - 1` bytes,
`writeFrame` emits exactly `9 + len(payload)` bytes: the payload length as 3 big-endian
bytes, the type byte, the flags byte, the stream id with its top bit cleared as 4
big-endian bytes, then the payload unchanged. -/
theorem writeFrame_layout (frameType flags streamID : Nat) (payload : Bytes)
    (hsid : streamID < 2 ^ 32) (hlen : payload.length ≤ 2 ^ 24 - 1) :
    ∃ out, writeFrame bufferWrite [] frameType flags streamID payload = .ok out
      ∧ out.length = 9 + payload.length
      ∧ out = bigEndian 3 payload.length ++ [frameType, flags]
                ++ bigEndian 4 (if 2 ^ 31 ≤ streamID then streamID - 2 ^ 31 else streamID)
                ++ payload
      ∧ fromBigEndian (bigEndian 3 payload.length) = payload.length
      ∧ fromBigEndian (bigEndian 4 (if 2 ^ 31 ≤ streamID then streamID - 2 ^ 31 else streamID))
          = (if 2 ^ 31 ≤ streamID then streamID - 2 ^ 31 else streamID) := by
  have hmask : streamID &&& 0x7fffffff
      = (if 2 ^ 31 ≤ streamID then streamID - 2 ^ 31 else streamID) := by
    rw [land_mask31]
    split <;> omega
  have hlt : (if 2 ^ 31 ≤ streamID then streamID - 2 ^ 31 else streamID) < 2 ^ 32 := by
    split <;> omega
  refine ⟨frameHeader frameType flags streamID payload ++ payload, ?_, ?_, ?_, ?_, ?_⟩
  · rw [writeFrame_buffer, List.nil_append]
  · rw [List.length_append, frameHeader_length]
  · unfold frameHeader
    rw [hmask]
    simp only [putUint32, bigEndian, Nat.shiftRight_eq_div_pow, List.cons_append,
      List.nil_append, pow_zero, Nat.div_one]
    norm_num
  · exact fromBigEndian_three _ (by omega)
  · exact fromBigEndian_four _ hlt

theorem writeFrame_layout_witness :
    ∃ out, writeFrame bufferWrite [] frameData flagEndStream (2 ^ 31 + 1) (str "99\r\n") = .ok out
      ∧ out.length = 9 + (str "99\r\n").length
      ∧ out = bigEndian 3 (str "99\r\n").length ++ [frameData, flagEndStream]
                ++ bigEndian 4 (if 2 ^ 31 ≤ 2 ^ 31 + 1 then 2 ^ 31 + 1 - 2 ^ 31 else 2 ^ 31 + 1)
                ++ str "99\r\n"
      ∧ fromBigEndian (bigEndian 3 (str "99\r\n").length) = (str "99\r\n").length
      ∧ fromBigEndian (bigEndian 4 (if 2 ^ 31 ≤ 2 ^ 31 + 1 then 2 ^ 31 + 1 - 2 ^ 31 else 2 ^ 31 + 1))
          = (if 2 ^ 31 ≤ 2 ^ 31 + 1 then 2 ^ 31 + 1 - 2 ^ 31 else 2 ^ 31 + 1) :=
  writeFrame_layout frameData flagEndStream (2 ^ 31 + 1) (str "99\r\n") (by norm_num)
    (by decide)

/-! ## The gadget parser -/

/-- The three `ReplaceAll` calls of `parsePayloadLine`, done one after the other, replace
exactly what one pass from the left replaces. -/
theorem ReplaceAll_eq_unescape (s : Bytes) :
    strings.ReplaceAll (strings.ReplaceAll (strings.ReplaceAll
      s (str "\\r") (str "\r")) (str "\\n") (str "\n")) (str "\\t") (str "\t") = unescape s := by
  have hr : str "\\r" = [92, 114] := by decide
  have hn : str "\\n" = [92, 110] := by decide
  have ht : str "\\t" = [92, 116] := by decide
  have hR : str "\r" = [13] := by decide
  have hN : str "\n" = [10] := by decide
  have hT : str "\t" = [9] := by decide
  rw [hr, hn, ht, hR, hN, hT]
  generalize hlen : s.length = n
  induction n using Nat.strong_induction_on generalizing s with
  | _ n ih =>
    cases s with
    | nil =>
      rw [strings.ReplaceAll_pair_nil, strings.ReplaceAll_pair_nil,
        strings.ReplaceAll_pair_nil]
      rfl
    | cons x w =>
      have ihw := ih w.length (by rw [← hlen]; simp) w rfl
      cases w with
      | nil =>
        rw [strings.ReplaceAll_pair_skip 92 114 13 x [] (by simp),
          strings.ReplaceAll_pair_nil,
          strings.ReplaceAll_pair_skip 92 110 10 x [] (by simp),
          strings.ReplaceAll_pair_nil,
          strings.ReplaceAll_pair_skip 92 116 9 x [] (by simp),
          strings.ReplaceAll_pair_nil]
        rfl
      | cons y t =>
        have iht := ih t.length (by rw [← hlen]; simp; omega) t rfl
        by_cases h1 : x = 92 ∧ y = 114
        · obtain ⟨rfl, rfl⟩ := h1
          rw [strings.ReplaceAll_pair_match,
            strings.ReplaceAll_pair_skip 92 110 10 13 _ (by simp),
            strings.ReplaceAll_pair_skip 92 116 9 13 _ (by simp), iht]
          simp [unescape]
        · by_cases h2 : x = 92 ∧ y = 110
          · obtain ⟨rfl, rfl⟩ := h2
            rw [strings.ReplaceAll_pair_skip 92 114 13 92 _ (by simp),
              strings.ReplaceAll_pair_skip 92 114 13 110 _ (by simp),
              strings.ReplaceAll_pair_match,
              strings.ReplaceAll_pair_skip 92 116 9 10 _ (by simp), iht]
            simp [unescape]
          · by_cases h3 : x = 92 ∧ y = 116
            · obtain ⟨rfl, rfl⟩ := h3
              rw [strings.ReplaceAll_pair_skip 92 114 13 92 _ (by simp),
                strings.ReplaceAll_pair_skip 92 114 13 116 _ (by simp),
                strings.ReplaceAll_pair_skip 92 110 10 92 _ (by simp),
                strings.ReplaceAll_pair_skip 92 110 10 116 _ (by simp),
                strings.ReplaceAll_pair_match, iht]
              simp [unescape]
            · have e1 : strings.ReplaceAll (x :: y :: t) [92, 114] [13]
                  = x :: strings.ReplaceAll (y :: t) [92, 114] [13] :=
                strings.ReplaceAll_pair_skip 92 114 13 x _ (by simpa using h1)
              have hd1 := strings.ReplaceAll_pair_head 92 114 13 (y :: t)
              have e2 : strings.ReplaceAll (x :: strings.ReplaceAll (y :: t) [92, 114] [13])
                    [92, 110] [10]
                  = x :: strings.ReplaceAll (strings.ReplaceAll (y :: t) [92, 114] [13])
                      [92, 110] [10] := by
                apply strings.ReplaceAll_pair_skip
                rintro ⟨hx, hh⟩
                rcases hd1 with hd | hd
                · rw [hd] at hh
                  simp only [List.head?_cons, Option.some.injEq] at hh
                  exact h2 ⟨hx, hh⟩
                · rw [hd] at hh
                  simp at hh
              have hd2 := strings.ReplaceAll_pair_head 92 110 10
                (strings.ReplaceAll (y :: t) [92, 114] [13])
              have e3 : strings.ReplaceAll
                    (x :: strings.ReplaceAll (strings.ReplaceAll (y :: t) [92, 114] [13])
                      [92, 110] [10]) [92, 116] [9]
                  = x :: strings.ReplaceAll
                      (strings.ReplaceAll (strings.ReplaceAll (y :: t) [92, 114] [13])
                        [92, 110] [10]) [92, 116] [9] := by
                apply strings.ReplaceAll_pair_skip
                rintro ⟨hx, hh⟩
                rcases hd2 with hd | hd
                · rw [hd] at hh
                  rcases hd1 with hd' | hd'
                  · rw [hd'] at hh
                    simp only [List.head?_cons, Option.some.injEq] at hh
                    exact h3 ⟨hx, hh⟩
                  · rw [hd'] at hh
                    simp at hh
                · rw [hd] at hh
                  simp at hh
              rw [e1, e2, e3, ihw]
              simp [unescape, h1, h2, h3]

/-- `parsePayloadLine` in one step: cut the trimmed line at its first `"; "`. -/
theorem parsePayloadLine_eq (line : Bytes) :
    parsePayloadLine line =
      match strings.Index (strings.TrimSpace line) (str "; ") with
      | none => none
      | some m =>
        some
          { HeaderName :=
              strings.ReplaceAll (strings.ReplaceAll (strings.ReplaceAll
                ((strings.TrimSpace line).take m) (str "\\r") (str "\r"))
                (str "\\n") (str "\n")) (str "\\t") (str "\t")
            HeaderValue :=
              strings.ReplaceAll (strings.ReplaceAll (strings.ReplaceAll
                ((strings.TrimSpace line).drop (m + 2)) (str "\\r") (str "\r"))
                (str "\\n") (str "\n")) (str "\\t") (str "\t")
            Name := strings.TrimSpace line } := by
  unfold parsePayloadLine
  by_cases ht : strings.TrimSpace line = []
  · simp only [ht, ↓reduceIte]
    rfl
  · simp only [ht, ↓reduceIte]
    rw [strings.SplitN_two _ _ ht]
    cases strings.Index (strings.TrimSpace line) (str "; ") with
    | none => simp
    | some m =>
      have : (str "; ").length = 2 := by decide
      simp [this]

/-- C7 (as the code has it): `parsePayloadLine` yields a payload exactly when the line,
with its leading and trailing white space removed, contains the separator `"; "`; in
particular it yields nothing for a line that does not contain `"; "`. -/
theorem parsePayloadLine_isSome_iff (line : Bytes) :
    ((parsePayloadLine line).isSome = true
        ↔ strings.Contains (strings.TrimSpace line) (str "; ") = true)
      ∧ (strings.Contains line (str "; ") = false → parsePayloadLine line = none) := by
  have hiff : (parsePayloadLine line).isSome = true
      ↔ strings.Contains (strings.TrimSpace line) (str "; ") = true := by
    rw [parsePayloadLine_eq, strings.Contains]
    cases strings.Index (strings.TrimSpace line) (str "; ") <;> simp
  refine ⟨hiff, fun h => ?_⟩
  rw [strings.Contains_eq_false_iff] at h
  have h2 : ¬ strings.Contains (strings.TrimSpace line) (str "; ") = true := by
    rw [strings.Contains_iff]
    exact fun hc => h (hc.trans (strings.TrimSpace_infix line))
  rw [← hiff] at h2
  simpa using h2

theorem parsePayloadLine_isSome_iff_witness :
    parsePayloadLine (str "transfer-encoding: gzip, chunked") = none :=
  (parsePayloadLine_isSome_iff (str "transfer-encoding: gzip, chunked")).2 (by decide)

/-- C7, the claim as stated fails: the line `content-length; ` is not empty and contains
`"; "`, yet `parsePayloadLine` yields nothing for it, the trimmed line ending in `;`. -/
theorem parsePayloadLine_trailing_separator :
    str "content-length; " ≠ []
      ∧ strings.Contains (str "content-length; ") (str "; ") = true
      ∧ parsePayloadLine (str "content-length; ") = none := by
  decide

/-- C8 (as the code has it): when `parsePayloadLine` yields a payload, with `t` the line
stripped of leading and trailing white space, the header name is the text of `t` left of
its first `"; "` and the header value is all the text right of it, each with every
two-character sequence backslash-r, backslash-n, backslash-t replaced by the CR, LF, TAB
byte (`unescape`), after which none of the three sequences is left; the display name
is `t`. -/
theorem parsePayloadLine_fields (line : Bytes) (p : Payload)
    (h : parsePayloadLine line = some p) :
    ∃ left right : Bytes,
      strings.TrimSpace line = left ++ str "; " ++ right
      ∧ (∀ l r : Bytes, strings.TrimSpace line = l ++ str "; " ++ r → left.length ≤ l.length)
      ∧ p.HeaderName = unescape left
      ∧ p.HeaderValue = unescape right
      ∧ (∀ v ∈ [p.HeaderName, p.HeaderValue],
          strings.Contains v (str "\\r") = false
          ∧ strings.Contains v (str "\\n") = false
          ∧ strings.Contains v (str "\\t") = false)
      ∧ p.Name = strings.TrimSpace line := by
  rw [parsePayloadLine_eq] at h
  cases hI : strings.Index (strings.TrimSpace line) (str "; ") with
  | none => simp [hI] at h
  | some m =>
    simp only [hI, Option.some.injEq] at h
    obtain ⟨h1, h2⟩ := strings.Index_some _ _ m hI
    have hlen : (str "; ").length = 2 := by decide
    rw [hlen] at h1
    have hr : str "\\r" = [92, 114] := by decide
    have hn : str "\\n" = [92, 110] := by decide
    have ht : str "\\t" = [92, 116] := by decide
    have hR : str "\r" = [13] := by decide
    have hN : str "\n" = [10] := by decide
    have hT : str "\t" = [9] := by decide
    have hgone : ∀ x : Bytes,
        strings.Contains (strings.ReplaceAll (strings.ReplaceAll (strings.ReplaceAll
            x (str "\\r") (str "\r")) (str "\\n") (str "\n")) (str "\\t") (str "\t"))
            (str "\\r") = false
        ∧ strings.Contains (strings.ReplaceAll (strings.ReplaceAll (strings.ReplaceAll
            x (str "\\r") (str "\r")) (str "\\n") (str "\n")) (str "\\t") (str "\t"))
            (str "\\n") = false
        ∧ strings.Contains (strings.ReplaceAll (strings.ReplaceAll (strings.ReplaceAll
            x (str "\\r") (str "\r")) (str "\\n") (str "\n")) (str "\\t") (str "\t"))
            (str "\\t") = false := by
      intro x
      simp only [strings.Contains_eq_false_iff, hr, hn, ht, hR, hN, hT]
      refine ⟨?_, ?_, ?_⟩
      · apply strings.ReplaceAll_pair_absent 92 116 9 92 114 (by decide) (by decide)
        apply strings.ReplaceAll_pair_absent 92 110 10 92 114 (by decide) (by decide)
        exact strings.ReplaceAll_pair_gone 92 114 13 (by decide) (by decide) x
      · apply strings.ReplaceAll_pair_absent 92 116 9 92 110 (by decide) (by decide)
        exact strings.ReplaceAll_pair_gone 92 110 10 (by decide) (by decide) _
      · exact strings.ReplaceAll_pair_gone 92 116 9 (by decide) (by decide) _
    refine ⟨(strings.TrimSpace line).take m, (strings.TrimSpace line).drop (m + 2), h1, ?_,
      ?_, ?_, ?_, ?_⟩
    · intro l r hlr
      have := h2 l r hlr
      rw [List.length_take]
      omega
    · rw [← h]; exact ReplaceAll_eq_unescape _
    · rw [← h]; exact ReplaceAll_eq_unescape _
    · intro v hv
      simp only [List.mem_cons, List.mem_singleton, List.not_mem_nil, or_false] at hv
      rcases hv with rfl | rfl
      · rw [← h]; exact hgone _
      · rw [← h]; exact hgone _
    · rw [← h]

theorem parsePayloadLine_fields_witness :
    parsePayloadLine (str "content-length; 13\\r")
        = some { HeaderName := str "content-length", HeaderValue := [0x31, 0x33, 0x0D],
                 Name := str "content-length; 13\\r" }
      ∧ ∃ left right : Bytes,
        strings.TrimSpace (str "content-length; 13\\r") = left ++ str "; " ++ right
        ∧ (∀ l r : Bytes, strings.TrimSpace (str "content-length; 13\\r") = l ++ str "; " ++ r
            → left.length ≤ l.length)
        ∧ str "content-length" = unescape left
        ∧ [0x31, 0x33, 0x0D] = unescape right
        ∧ (∀ v ∈ [str "content-length", [0x31, 0x33, 0x0D]],
            strings.Contains v (str "\\r") = false
            ∧ strings.Contains v (str "\\n") = false
            ∧ strings.Contains v (str "\\t") = false)
        ∧ str "content-length; 13\\r" = strings.TrimSpace (str "content-length; 13\\r") :=
  ⟨by decide,
    parsePayloadLine_fields (str "content-length; 13\\r")
      { HeaderName := str "content-length", HeaderValue := [0x31, 0x33, 0x0D],
        Name := str "content-length; 13\\r" } (by decide)⟩

/-- C8, the claim as stated fails: for the line ` content-length; 13`, which starts with
a space, `parsePayloadLine` yields a payload whose display name is `content-length; 13`,
not the original line, and whose header name is not the text left of the separator. -/
theorem parsePayloadLine_name_is_trimmed :
    parsePayloadLine (str " content-length; 13")
        = some { HeaderName := str "content-length", HeaderValue := str "13",
                 Name := str "content-length; 13" }
      ∧ str "content-length; 13" ≠ str " content-length; 13"
      ∧ str "content-length" ≠ str " content-length" := by
  decide

/-! ## The probe and its classification -/

theorem not_contains_of_not_mem (s sub : Bytes) (x : Nat) (hx : x ∈ sub) (hs : x ∉ s) :
    strings.Contains s sub = false := by
  rw [strings.Contains_eq_false_iff]
  exact fun h => hs (h.subset hx)

theorem decimal_digit (n b : Nat) (hb : b ∈ decimal n) : 48 ≤ b ∧ b ≤ 57 := by
  unfold decimal at hb
  by_cases h0 : n = 0
  · simp [h0] at hb
    omega
  · simp only [h0, ↓reduceIte, List.mem_map, List.mem_reverse] at hb
    obtain ⟨d, hd, rfl⟩ := hb
    have := Nat.digits_lt_base (by norm_num : 1 < 10) hd
    omega

/-- What `classify` does with a result that contains none of the three keywords. -/
theorem classify_plain (targetURL : Bytes) (p : Payload) (result : Bytes)
    (h1 : strings.Contains result (str "TIMEOUT") = false)
    (h2 : strings.Contains result (str "GOAWAY") = false)
    (h3 : strings.Contains result (str "RST") = false) :
    classify targetURL p result =
      { URL := targetURL, Method := str "POST", StatusCode := 0, ContentLength := 0,
        Module := str "smuggle", Detail := p.Name ++ str " → " ++ result,
        Vulnerable := false } := by
  simp [classify, h1, h2, h3]

/-- A timed-out read of the response frame, which `testPayload` reports as `*TIMEOUT`,
is marked vulnerable. -/
theorem classify_timeout (targetURL : Bytes) (p : Payload) :
    classify targetURL p (str "*TIMEOUT") =
      { URL := targetURL, Method := str "POST", StatusCode := 0, ContentLength := 0,
        Module := str "smuggle", Detail := p.Name ++ str " → TIMEOUT (potential smuggling)",
        Vulnerable := true } := by
  have c : strings.Contains (str "*TIMEOUT") (str "TIMEOUT") = true := by decide
  simp [classify, c]

/-- The result is marked vulnerable exactly when the string `testPayload` returned
contains `TIMEOUT`. -/
theorem classify_vulnerable_iff (targetURL : Bytes) (p : Payload) (result : Bytes) :
    (classify targetURL p result).Vulnerable = true
      ↔ strings.Contains result (str "TIMEOUT") = true := by
  unfold classify
  by_cases h1 : strings.Contains result (str "TIMEOUT") = true
  · simp [h1]
  · by_cases h2 : strings.Contains result (str "GOAWAY") = true
    · simp [h1, h2]
    · by_cases h3 : strings.Contains result (str "RST") = true <;> simp [h1, h2, h3]

theorem describeFrame_plain (f : Frame) (x : Nat) (hx : ¬ (48 ≤ x ∧ x ≤ 57))
    (h1 : x ∉ str "response received (stream ") (h2 : x ∉ str ")")
    (h3 : x ∉ str "frame type ") (hg : f.FType ≠ frameGoAway) : x ∉ describeFrame f := by
  unfold describeFrame
  by_cases hh : f.FType = frameHeaders
  · simp only [hh, ↓reduceIte, List.mem_append, not_or]
    exact ⟨⟨h1, fun h => hx (decimal_digit _ _ h)⟩, h2⟩
  · simp only [hh, hg, ↓reduceIte, List.mem_append, not_or]
    exact ⟨h3, fun h => hx (decimal_digit _ _ h)⟩

/-- C9: when the probe ends with a frame read from the peer, the detail of the emitted
result depends on the frame type alone: type 7 (GOAWAY) gives `<gadget line> → GOAWAY`;
type 1 (HEADERS) gives `<gadget line> → response received (stream N)`, `N` the frame's
stream id in decimal; any other type `T` gives `<gadget line> → frame type T`. The result
is not marked vulnerable. -/
theorem frame_detail {σ : Type} (net : Conn σ) (dial : Except NetError σ)
    (detectTimeout : Nat) (targetURL host path query : Bytes) (p : Payload) (f : Frame)
    (h : exchange net dial detectTimeout host path query p = .ok f) :
    scanPayload net dial detectTimeout targetURL host path query p =
      { URL := targetURL, Method := str "POST", StatusCode := 0, ContentLength := 0,
        Module := str "smuggle",
        Detail := p.Name ++
          (if f.FType = 7 then str " → GOAWAY"
           else if f.FType = 1 then
             str " → response received (stream " ++ decimal f.StreamID ++ str ")"
           else str " → frame type " ++ decimal f.FType),
        Vulnerable := false } := by
  have hres : testPayload net dial detectTimeout host path query p = describeFrame f := by
    simp [testPayload, h]
  simp only [scanPayload, hres]
  by_cases hg : f.FType = 7
  · have hd : describeFrame f = str "GOAWAY" := by
      simp [describeFrame, hg, frameHeaders, frameGoAway]
    have c1 : strings.Contains (str "GOAWAY") (str "TIMEOUT") = false := by decide
    have c2 : strings.Contains (str "GOAWAY") (str "GOAWAY") = true := by decide
    rw [hd]
    simp [classify, c1, c2, hg]
  · have hg2 : f.FType ≠ frameGoAway := hg
    have c1 : strings.Contains (describeFrame f) (str "TIMEOUT") = false :=
      not_contains_of_not_mem _ _ 0x54 (by decide)
        (describeFrame_plain f 0x54 (by omega) (by decide) (by decide) (by decide) hg2)
    have c2 : strings.Contains (describeFrame f) (str "GOAWAY") = false :=
      not_contains_of_not_mem _ _ 0x47 (by decide)
        (describeFrame_plain f 0x47 (by omega) (by decide) (by decide) (by decide) hg2)
    have c3 : strings.Contains (describeFrame f) (str "RST") = false :=
      not_contains_of_not_mem _ _ 0x52 (by decide)
        (describeFrame_plain f 0x52 (by omega) (by decide) (by decide) (by decide) hg2)
    rw [classify_plain targetURL p _ c1 c2 c3]
    have e1 : str " → " ++ str "response received (stream "
        = str " → response received (stream " := by decide
    have e2 : str " → " ++ str "frame type " = str " → frame type " := by decide
    by_cases h1 : f.FType = 1
    · simp only [describeFrame, h1, frameHeaders, ↓reduceIte, List.append_assoc,
        OfNat.one_ne_ofNat]
      rw [← e1, List.append_assoc]
    · simp only [describeFrame, h1, hg, frameHeaders, frameGoAway, ↓reduceIte,
        List.append_assoc]
      rw [← e2, List.append_assoc]

set_option maxRecDepth 8192 in
theorem frame_detail_witness :
    scanPayload scriptedConn
        (.ok ([0, 0, 0, 4, 0, 0, 0, 0, 0] ++ [0, 0, 0, 1, 4, 0, 0, 0, 1])) 5
        (str "https://test/") (str "test") (str "/") []
        { HeaderName := str "content-length", HeaderValue := str "13",
          Name := str "content-length; 13" } =
      { URL := str "https://test/", Method := str "POST", StatusCode := 0, ContentLength := 0,
        Module := str "smuggle",
        Detail := str "content-length; 13" ++
          (if (1 : Nat) = 7 then str " → GOAWAY"
           else if (1 : Nat) = 1 then
             str " → response received (stream " ++ decimal 1 ++ str ")"
           else str " → frame type " ++ decimal 1),
        Vulnerable := false } :=
  frame_detail scriptedConn (.ok ([0, 0, 0, 4, 0, 0, 0, 0, 0] ++ [0, 0, 0, 1, 4, 0, 0, 0, 1])) 5
    (str "https://test/") (str "test") (str "/") []
    { HeaderName := str "content-length", HeaderValue := str "13",
      Name := str "content-length; 13" }
    { Length := 0, FType := 1, Flags := 4, StreamID := 1, Payload := [] } rfl

/-- C6, the code at the failing input: the dial fails with an error text that holds the
word `TIMEOUT` (the target's host name), no frame is ever read, and the result is marked
vulnerable with the detail of a read timeout. -/
theorem dial_error_marked_vulnerable :
    scanPayload scriptedConn
        (.error { text := str "dial tcp: lookup TIMEOUT.invalid: no such host",
                  timeout := false }) 5
        (str "https://TIMEOUT.invalid/") (str "TIMEOUT.invalid") (str "/") []
        { HeaderName := str "content-length", HeaderValue := str "13",
          Name := str "content-length; 13" }
      = { URL := str "https://TIMEOUT.invalid/", Method := str "POST", StatusCode := 0,
          ContentLength := 0, Module := str "smuggle",
          Detail := str "content-length; 13 → TIMEOUT (potential smuggling)",
          Vulnerable := true } := by
  decide

end smuggle

/-! ## The bypass engine's calibration filter -/

namespace bypass

/-- C10 (as the code has it): in the verb-tampering, header-injection, end-path and
mid-path families a probe that obtained a response is suppressed exactly when its body
length equals the calibration baseline `defaultCL`, whatever the baseline is; after a
failed calibration the baseline is still 0, and a probe that obtained a response is then
suppressed exactly when its body is empty and reported otherwise. -/
theorem calibration_filter (s : Scanner) (method path payload baseURL basePath lastSegment : Bytes)
    (hp : HeaderPayload) (trailingSlash : Bool) (statusCode : Nat) (body : Bytes) :
    ((verbTamperingProbe s method (.ok (statusCode, body)) = none
        ↔ body.length = s.defaultCL)
      ∧ (headerBypassProbe s path hp (.ok (statusCode, body)) = none
        ↔ body.length = s.defaultCL)
      ∧ (endPathProbe s payload (.ok (statusCode, body)) = none
        ↔ body.length = s.defaultCL)
      ∧ (midPathProbe s baseURL basePath lastSegment trailingSlash payload
          (.ok (statusCode, body)) = none
        ↔ body.length = s.defaultCL))
    ∧ ∀ (targetURL bypassIP err : Bytes),
        (calibrate (NewScanner method targetURL bypassIP) (.error err)).defaultCL = 0
        ∧ (verbTamperingProbe (calibrate (NewScanner method targetURL bypassIP) (.error err))
              method (.ok (statusCode, body)) = none ↔ body = [])
        ∧ (headerBypassProbe (calibrate (NewScanner method targetURL bypassIP) (.error err))
              path hp (.ok (statusCode, body)) = none ↔ body = [])
        ∧ (endPathProbe (calibrate (NewScanner method targetURL bypassIP) (.error err))
              payload (.ok (statusCode, body)) = none ↔ body = [])
        ∧ (midPathProbe (calibrate (NewScanner method targetURL bypassIP) (.error err))
              baseURL basePath lastSegment trailingSlash payload
              (.ok (statusCode, body)) = none ↔ body = []) := by
  refine ⟨⟨?_, ?_, ?_, ?_⟩, fun targetURL bypassIP err => ⟨rfl, ?_, ?_, ?_, ?_⟩⟩
  · simp [verbTamperingProbe]
  · simp [headerBypassProbe]
  · simp [endPathProbe]
  · simp [midPathProbe]
  · simp [verbTamperingProbe, calibrate, NewScanner]
  · simp [headerBypassProbe, calibrate, NewScanner]
  · simp [endPathProbe, calibrate, NewScanner]
  · simp [midPathProbe, calibrate, NewScanner]

/-- C10, the claim as stated fails: calibration failed, the baseline stayed 0, and a
`HEAD` probe that obtained status 200 with an empty body is suppressed, although the
baseline is 0. -/
theorem empty_body_suppressed_at_zero_baseline :
    (calibrate (NewScanner (str "GET") (str "https://test/admin") [])
        (.error (str "connection refused"))).defaultCL = 0
      ∧ verbTamperingProbe
          (calibrate (NewScanner (str "GET") (str "https://test/admin") [])
            (.error (str "connection refused")))
          (str "HEAD") (.ok (200, [])) = none := by
  decide

end bypass

/-! ## Loops that append one element per round -/

theorem foldl_append_singleton {α β : Type} (f : α → β) (l : List α) (init : List β) :
    l.foldl (fun acc x => acc ++ [f x]) init = init ++ l.map f := by
  induction l generalizing init with
  | nil => simp
  | cons a l ih => simp [ih]

theorem foldl_nested_append {α β γ : Type} (g : α → β → γ) (outer : List α) (inner : List β)
    (init : List γ) :
    outer.foldl (fun acc a => inner.foldl (fun acc e => acc ++ [g a e]) acc) init
      = init ++ outer.flatMap (fun a => inner.map (g a)) := by
  induction outer generalizing init with
  | nil => simp
  | cons a outer ih =>
    simp only [List.foldl_cons, List.flatMap_cons]
    rw [foldl_append_singleton (g a) inner init, ih]
    simp

theorem length_filterMap_eq_countP {α β : Type} (f : α → Option β) (l : List α) :
    (l.filterMap f).length = l.countP (fun x => (f x).isSome) := by
  induction l with
  | nil => rfl
  | cons a l ih =>
    cases h : f a with
    | none => simp [List.filterMap_cons, h, ih]
    | some b => simp [List.filterMap_cons, h, ih]

/-! ## The path-case family -/

namespace utils

end utils

namespace bypass

theorem DecodeRune_ascii (b : Nat) (rest : Bytes) (hb : b < 0x80) :
    utf8.DecodeRune (b :: rest) = (b, 1) := by
  simp [utf8.DecodeRune, hb]

/-- On an ASCII string the `range` loop yields the bytes themselves. -/
theorem rangeLoop_ascii_countP (p : Nat → Bool) : ∀ (s : Bytes) (fuel i : Nat),
    s.length ≤ fuel → (∀ b ∈ s, b < 0x80) →
      (utf8.rangeLoop fuel i s).countP (fun x => p x.2) = s.countP p := by
  intro s
  induction s with
  | nil =>
    intro fuel i _ _
    cases fuel <;> simp [utf8.rangeLoop]
  | cons b rest ih =>
    intro fuel i hfuel hascii
    cases fuel with
    | zero => simp at hfuel
    | succ fuel =>
      have hb : b < 0x80 := hascii b (List.mem_cons_self b rest)
      have hrest : ∀ x ∈ rest, x < 0x80 := fun x hx => hascii x (List.mem_cons_of_mem b hx)
      simp only [utf8.rangeLoop, DecodeRune_ascii b rest hb, List.drop_succ_cons,
        List.drop_zero, List.countP_cons]
      rw [ih fuel (i + 1) (by simpa using hfuel) hrest]

theorem doubleEncodingURLs_length (u : url.URL) :
    (doubleEncodingURLs u).length
      = (utf8.rangeString u.Path).countP (fun x => decide (x.2 ≠ 0x2F)) := by
  unfold doubleEncodingURLs
  by_cases h : u.Path.length = 0 ∨ u.Path = str "/"
  · simp only [h, ↓reduceIte, List.length_nil]
    rcases h with h | h
    · have : u.Path = [] := List.length_eq_zero.mp h
      rw [this]
      rfl
    · rw [h]
      rfl
  · simp only [h, ↓reduceIte]
    rw [length_filterMap_eq_countP]
    congr 1
    funext x
    obtain ⟨i, c⟩ := x
    by_cases hc : c = 0x2F <;> simp [hc]

/-- C12: for every target, the number of double-encoding probe URLs built equals the
number of non-slash characters of the path, a character being what the `range` loop over
the path yields (a Unicode code point; on an ASCII path, a byte); for an empty path and
for the path `/` no URL is built. -/
theorem doubleEncoding_count (u : url.URL) :
    (doubleEncodingURLs u).length
        = (utf8.rangeString u.Path).countP (fun x => decide (x.2 ≠ 0x2F))
      ∧ (u.Path = [] ∨ u.Path = str "/" → doubleEncodingURLs u = [])
      ∧ ((∀ b ∈ u.Path, b < 0x80) →
          (doubleEncodingURLs u).length = u.Path.countP (fun b => decide (b ≠ 0x2F))) := by
  refine ⟨doubleEncodingURLs_length u, ?_, ?_⟩
  · intro h
    have h2 : u.Path.length = 0 ∨ u.Path = str "/" := by
      rcases h with h | h
      · exact Or.inl (by rw [h]; rfl)
      · exact Or.inr h
    unfold doubleEncodingURLs
    exact if_pos h2
  · intro h
    rw [doubleEncodingURLs_length]
    exact rangeLoop_ascii_countP (fun c => decide (c ≠ 0x2F)) u.Path u.Path.length 0
      (Nat.le_refl _) h

theorem doubleEncoding_count_witness :
    (doubleEncodingURLs
        { Scheme := str "https", Host := str "test", Path := str "/a/b",
          RawQuery := [] }).length
      = (str "/a/b").countP (fun b => decide (b ≠ 0x2F))
      ∧ doubleEncodingURLs
          { Scheme := str "https", Host := str "test", Path := str "/", RawQuery := [] } = [] :=
  ⟨(doubleEncoding_count
      { Scheme := str "https", Host := str "test", Path := str "/a/b", RawQuery := [] }).2.2
      (by decide),
   (doubleEncoding_count
      { Scheme := str "https", Host := str "test", Path := str "/", RawQuery := [] }).2.1
      (Or.inr rfl)⟩

/-! ## The header-injection family -/

/-- Every entry of the table is a literal or one of the two deferred values. -/
theorem BypassHeaders_kinds (hp : HeaderPayload) (h : hp ∈ BypassHeaders) :
    hp.ValueFunc = none ∨ hp.ValueFunc = some pathValue
      ∨ hp.ValueFunc = some fullURLValue := by
  simp only [BypassHeaders, List.mem_cons, List.mem_singleton, List.not_mem_nil,
    or_false] at h
  rcases h with rfl | rfl | rfl | rfl | rfl | rfl | rfl | rfl | rfl | rfl | rfl | rfl | rfl | rfl | rfl | rfl | rfl | rfl | rfl | rfl | rfl | rfl | rfl | rfl | rfl | rfl | rfl | rfl | rfl | rfl | rfl | rfl | rfl | rfl | rfl | rfl | rfl | rfl | rfl <;> simp

theorem isIPHeader_iff (key : Bytes) :
    isIPHeader key = true ↔
      key ∈ [str "X-Forwarded-For", str "X-Forwarded-Host", str "X-Host",
        str "X-Custom-IP-Authorization", str "X-Originating-IP", str "X-Remote-IP",
        str "X-Client-IP", str "X-Real-IP", str "X-ProxyUser-Ip", str "X-Remote-Addr",
        str "True-Client-IP", str "Cluster-Client-IP", str "Proxy-Host"] := by
  simp [isIPHeader]

/-- `headerValue` as one case distinction: the bypass IP for an IP header when one is
configured, the entry's own value otherwise. -/
theorem headerValue_eq (s : Scanner) (path : Bytes) (hp : HeaderPayload) :
    headerValue s path hp =
      if s.bypassIP ≠ [] ∧ isIPHeader hp.Key = true then s.bypassIP
      else
        match hp.ValueFunc with
        | some f => f s.targetURL path
        | none => hp.Value := by
  unfold headerValue
  by_cases h1 : s.bypassIP ≠ []
  · cases h2 : isIPHeader hp.Key <;> simp [h1]
  · simp [h1]

/-- C13: for every entry of the bypass-header table and every target, the header value
sent is the user-supplied bypass IP when a bypass IP is configured and the entry's key is
one of the 13 names of the IP-header set; otherwise it is the entry's literal value, or
for a deferred entry the target URL's path (`/` for an empty path) or the full target
URL. -/
theorem header_value_sent (s : Scanner) (u : url.URL) (hp : HeaderPayload)
    (hmem : hp ∈ BypassHeaders) :
    (s.bypassIP ≠ [] ∧
        hp.Key ∈ [str "X-Forwarded-For", str "X-Forwarded-Host", str "X-Host",
          str "X-Custom-IP-Authorization", str "X-Originating-IP", str "X-Remote-IP",
          str "X-Client-IP", str "X-Real-IP", str "X-ProxyUser-Ip", str "X-Remote-Addr",
          str "True-Client-IP", str "Cluster-Client-IP", str "Proxy-Host"] →
        headerValue s (headerBypassPath u) hp = s.bypassIP)
      ∧ (¬ (s.bypassIP ≠ [] ∧
          hp.Key ∈ [str "X-Forwarded-For", str "X-Forwarded-Host", str "X-Host",
            str "X-Custom-IP-Authorization", str "X-Originating-IP", str "X-Remote-IP",
            str "X-Client-IP", str "X-Real-IP", str "X-ProxyUser-Ip", str "X-Remote-Addr",
            str "True-Client-IP", str "Cluster-Client-IP", str "Proxy-Host"]) →
          (hp.ValueFunc = none ∧ headerValue s (headerBypassPath u) hp = hp.Value)
          ∨ (hp.ValueFunc = some pathValue
              ∧ headerValue s (headerBypassPath u) hp = (if u.Path = [] then str "/" else u.Path))
          ∨ (hp.ValueFunc = some fullURLValue
              ∧ headerValue s (headerBypassPath u) hp = s.targetURL)) := by
  constructor
  · rintro ⟨hip, hkey⟩
    have hk : isIPHeader hp.Key = true := (isIPHeader_iff hp.Key).mpr hkey
    rw [headerValue_eq, if_pos ⟨hip, hk⟩]
  · intro hnot
    have hcond : ¬ (s.bypassIP ≠ [] ∧ isIPHeader hp.Key = true) := by
      rw [isIPHeader_iff]
      exact hnot
    rw [headerValue_eq, if_neg hcond]
    rcases BypassHeaders_kinds hp hmem with h | h | h
    · exact Or.inl ⟨h, by rw [h]⟩
    · exact Or.inr (Or.inl ⟨h, by rw [h]; rfl⟩)
    · exact Or.inr (Or.inr ⟨h, by rw [h]; rfl⟩)

theorem header_value_sent_witness :
    headerValue
        { targetURL := str "https://test/admin", method := str "GET",
          bypassIP := str "10.10.10.10", defaultCL := 0 }
        (headerBypassPath
          { Scheme := str "https", Host := str "test", Path := str "/admin", RawQuery := [] })
        { Key := str "X-Forwarded-For", Value := str "127.0.0.1", ValueFunc := none }
      = str "10.10.10.10" :=
  (header_value_sent
      { targetURL := str "https://test/admin", method := str "GET",
        bypassIP := str "10.10.10.10", defaultCL := 0 }
      { Scheme := str "https", Host := str "test", Path := str "/admin", RawQuery := [] }
      { Key := str "X-Forwarded-For", Value := str "127.0.0.1", ValueFunc := none }
      (by simp [BypassHeaders])).1 ⟨by decide, by decide⟩

end bypass

/-! ## `Split` at a one-byte separator -/

namespace strings

theorem Index_byte_cons (c d : Nat) (s : Bytes) :
    Index (c :: s) [d] = if c = d then some 0 else (Index s [d]).map (fun i => i + 1) := by
  rw [Index]
  by_cases h : c = d
  · subst h
    simp [List.isPrefixOf]
  · have : ¬ d = c := fun e => h e.symm
    simp [List.isPrefixOf, h, this]

/-- A string without the separator is not cut. -/
theorem splitLoop_free (d : Nat) (t : Bytes) (ht : d ∉ t) (fuel : Nat) :
    splitLoop fuel t [d] = [t] := by
  cases fuel with
  | zero => rfl
  | succ fuel =>
    have : Index t [d] = none := by
      rw [Index_eq_none_iff]
      exact fun h => ht (h.subset (List.mem_singleton_self d))
    simp [splitLoop, this]

theorem splitLoop_cons_eq (d : Nat) (w : Bytes) (fuel : Nat) :
    splitLoop (fuel + 1) (d :: w) [d] = [] :: splitLoop fuel w [d] := by
  simp [splitLoop, Index_byte_cons]

/-- A leading byte that is not the separator joins the first part. -/
theorem splitLoop_cons_ne (c d : Nat) (h : c ≠ d) (w : Bytes) (fuel : Nat) :
    ∃ first parts, splitLoop fuel w [d] = first :: parts
      ∧ splitLoop fuel (c :: w) [d] = (c :: first) :: parts := by
  cases fuel with
  | zero => exact ⟨w, [], rfl, rfl⟩
  | succ fuel =>
    simp only [splitLoop, Index_byte_cons, h, ↓reduceIte]
    cases Index w [d] with
    | none => exact ⟨w, [], rfl, rfl⟩
    | some j =>
      refine ⟨w.take j, splitLoop fuel (w.drop (j + 1)) [d], rfl, ?_⟩
      simp

/-- Cutting `s`, the separator and a separator-free `t` gives the parts of `s` and then
`t`. -/
theorem splitLoop_snoc (d : Nat) (t : Bytes) (ht : d ∉ t) : ∀ (s : Bytes) (fuel fuel' : Nat),
    s.length + 1 + t.length ≤ fuel → s.length ≤ fuel' →
      splitLoop fuel (s ++ d :: t) [d] = splitLoop fuel' s [d] ++ [t] := by
  intro s
  induction s with
  | nil =>
    intro fuel fuel' hf _
    have h1 : splitLoop fuel' [] [d] = [[]] := by
      cases fuel' with
      | zero => rfl
      | succ n => simp [splitLoop, Index]
    cases fuel with
    | zero => simp at hf
    | succ fuel =>
      rw [List.nil_append, splitLoop_cons_eq, splitLoop_free d t ht, h1]
      rfl
  | cons c s ih =>
    intro fuel fuel' hf hf'
    by_cases hc : c = d
    · subst hc
      cases fuel with
      | zero => simp at hf
      | succ fuel =>
        cases fuel' with
        | zero => simp at hf'
        | succ fuel' =>
          rw [List.cons_append, splitLoop_cons_eq, splitLoop_cons_eq,
            ih fuel fuel' (by simp at hf; omega) (by simp at hf'; omega)]
          rfl
    · obtain ⟨f1, p1, e1, e2⟩ := splitLoop_cons_ne c d hc (s ++ d :: t) fuel
      obtain ⟨f2, p2, e3, e4⟩ := splitLoop_cons_ne c d hc s fuel'
      have hih := ih fuel fuel' (by simp at hf; omega) (by simp at hf'; omega)
      rw [e1, e3] at hih
      simp only [List.cons_append, List.cons.injEq] at hih
      rw [List.cons_append, e2, e4, hih.1, hih.2]
      rfl

/-- The last two parts of a host that ends in `label.tld`. -/
theorem Split_last_two (front label tld : Bytes) (hlabel : 0x2E ∉ label) (htld : 0x2E ∉ tld)
    (hfront : front = [] ∨ ∃ f, front = f ++ [0x2E]) :
    ∃ parts, Split (front ++ label ++ 0x2E :: tld) [0x2E] = parts ++ [label, tld] := by
  unfold Split
  rw [splitLoop_snoc 0x2E tld htld (front ++ label) _ (front ++ label).length
    (by simp; omega) (Nat.le_refl _)]
  rcases hfront with h | ⟨f, h⟩
  · subst h
    rw [List.nil_append, splitLoop_free 0x2E label hlabel]
    exact ⟨[], rfl⟩
  · subst h
    rw [List.append_assoc, List.singleton_append,
      splitLoop_snoc 0x2E label hlabel f _ f.length (by simp; omega) (Nat.le_refl _)]
    exact ⟨splitLoop f.length f [0x2E], by simp⟩

end strings

/-! ## The CORS engine -/

namespace cors

theorem getD_append_two (parts : List Bytes) (a b : Bytes) :
    (parts ++ [a, b]).length ≥ 2
      ∧ (parts ++ [a, b]).getD ((parts ++ [a, b]).length - 2) [] = a
      ∧ (parts ++ [a, b]).getD ((parts ++ [a, b]).length - 1) [] = b := by
  refine ⟨by simp, ?_, ?_⟩
  · have : (parts ++ [a, b]).length - 2 = parts.length := by simp
    rw [this, List.getD_eq_getElem?_getD, List.getElem?_append_right (Nat.le_refl _)]
    simp
  · have : (parts ++ [a, b]).length - 1 = parts.length + 1 := by simp
    rw [this, List.getD_eq_getElem?_getD, List.getElem?_append_right (by omega)]
    simp

/-- C16: for every target URL whose host ends in `<label>.<tld>` (at least two
dot-separated labels, `label` the second-to-last, `tld` the last), `generatePayloads`
without deep scan returns exactly the nine origins `null`, `https://evil.com`,
`http://evil.com`, the target URL, `https://<label>.<tld>.evil.com`,
`https://evil<label>.<tld>`, `https://sub.<label>.<tld>`, `https://<label>.<tld>:8080`,
`https://<label>.<tld>.<label>.<tld>`, in this order; with deep scan it returns those
nine, then `https://<label>.<tld><c>.evil.com` for the 16 special characters in the
listed order, then `https://evil.com%40<label>.<tld>` and
`https://evil.com%23@<label>.<tld>`, 27 in all. -/
theorem generatePayloads_list (origin targetURL front label tld : Bytes)
    (hlabel : 0x2E ∉ label) (htld : 0x2E ∉ tld)
    (hfront : front = [] ∨ ∃ f, front = f ++ str ".") :
    generatePayloads { origin := origin, deepScan := false } targetURL
        (.ok (front ++ label ++ str "." ++ tld))
        = [ str "null", str "https://evil.com", str "http://evil.com", targetURL,
            str "https://" ++ label ++ str "." ++ tld ++ str ".evil.com",
            str "https://evil" ++ label ++ str "." ++ tld,
            str "https://sub." ++ label ++ str "." ++ tld,
            str "https://" ++ label ++ str "." ++ tld ++ str ":8080",
            str "https://" ++ label ++ str "." ++ tld ++ str "." ++ label ++ str "." ++ tld ]
      ∧ generatePayloads { origin := origin, deepScan := true } targetURL
          (.ok (front ++ label ++ str "." ++ tld))
        = [ str "null", str "https://evil.com", str "http://evil.com", targetURL,
            str "https://" ++ label ++ str "." ++ tld ++ str ".evil.com",
            str "https://evil" ++ label ++ str "." ++ tld,
            str "https://sub." ++ label ++ str "." ++ tld,
            str "https://" ++ label ++ str "." ++ tld ++ str ":8080",
            str "https://" ++ label ++ str "." ++ tld ++ str "." ++ label ++ str "." ++ tld ]
          ++ [ str "!", str "'", str "(", str ")", str "*", str ",", str ";", str "_",
               str "\x7b", str "\x7d", str "|", str "~", str "\"", str "\x60", str "+",
               str "-" ].map
              (fun c => str "https://" ++ label ++ str "." ++ tld ++ c ++ str ".evil.com")
          ++ [ str "https://evil.com%40" ++ label ++ str "." ++ tld,
               str "https://evil.com%23@" ++ label ++ str "." ++ tld ]
      ∧ (generatePayloads { origin := origin, deepScan := true } targetURL
          (.ok (front ++ label ++ str "." ++ tld))).length = 27 := by
  have hdot : str "." = [0x2E] := by decide
  rw [hdot] at hfront ⊢
  obtain ⟨parts, hparts⟩ := strings.Split_last_two front label tld hlabel htld hfront
  have hsplit : strings.Split (front ++ label ++ [0x2E] ++ tld) [0x2E]
      = parts ++ [label, tld] := by
    rw [← hparts]
    simp
  obtain ⟨hlen, hdom, htl⟩ := getD_append_two parts label tld
  have hnondeep : generatePayloads { origin := origin, deepScan := false } targetURL
      (.ok (front ++ label ++ [0x2E] ++ tld))
      = [ str "null", str "https://evil.com", str "http://evil.com", targetURL,
          str "https://" ++ label ++ [0x2E] ++ tld ++ str ".evil.com",
          str "https://evil" ++ label ++ [0x2E] ++ tld,
          str "https://sub." ++ label ++ [0x2E] ++ tld,
          str "https://" ++ label ++ [0x2E] ++ tld ++ str ":8080",
          str "https://" ++ label ++ [0x2E] ++ tld ++ [0x2E] ++ label ++ [0x2E] ++ tld ] := by
    simp only [generatePayloads, hdot, hsplit, hlen, ↓reduceIte, hdom, htl]
    rfl
  have hdeep : generatePayloads { origin := origin, deepScan := true } targetURL
      (.ok (front ++ label ++ [0x2E] ++ tld))
      = [ str "null", str "https://evil.com", str "http://evil.com", targetURL,
          str "https://" ++ label ++ [0x2E] ++ tld ++ str ".evil.com",
          str "https://evil" ++ label ++ [0x2E] ++ tld,
          str "https://sub." ++ label ++ [0x2E] ++ tld,
          str "https://" ++ label ++ [0x2E] ++ tld ++ str ":8080",
          str "https://" ++ label ++ [0x2E] ++ tld ++ [0x2E] ++ label ++ [0x2E] ++ tld ]
        ++ [ str "!", str "'", str "(", str ")", str "*", str ",", str ";", str "_",
             str "\x7b", str "\x7d", str "|", str "~", str "\"", str "\x60", str "+",
             str "-" ].map
            (fun c => str "https://" ++ label ++ [0x2E] ++ tld ++ c ++ str ".evil.com")
        ++ [ str "https://evil.com%40" ++ label ++ [0x2E] ++ tld,
             str "https://evil.com%23@" ++ label ++ [0x2E] ++ tld ] := by
    simp only [generatePayloads, hdot, hsplit, hlen, ↓reduceIte, hdom, htl]
    rw [foldl_append_singleton]
    simp only [specialChars, List.append_assoc]
    rfl
  refine ⟨hnondeep, hdeep, ?_⟩
  rw [hdeep]
  simp

theorem generatePayloads_list_witness :
    generatePayloads { origin := str "https://evil.com", deepScan := false }
        (str "https://www.example.com/") (.ok (str "www." ++ str "example" ++ str "." ++ str "com"))
      = [ str "null", str "https://evil.com", str "http://evil.com",
          str "https://www.example.com/",
          str "https://" ++ str "example" ++ str "." ++ str "com" ++ str ".evil.com",
          str "https://evil" ++ str "example" ++ str "." ++ str "com",
          str "https://sub." ++ str "example" ++ str "." ++ str "com",
          str "https://" ++ str "example" ++ str "." ++ str "com" ++ str ":8080",
          str "https://" ++ str "example" ++ str "." ++ str "com" ++ str "." ++ str "example"
            ++ str "." ++ str "com" ] :=
  (generatePayloads_list (str "https://evil.com") (str "https://www.example.com/")
    (str "www.") (str "example") (str "com") (by decide) (by decide)
    (Or.inr ⟨str "www", by decide⟩)).1

theorem ite_append_right {α : Type} (c : Prop) [Decidable c] (d x : List α) :
    (if c then d ++ x else d) = d ++ (if c then x else []) := by
  split <;> simp

/-- What `evaluateResponse` returns, as one list built in the order of the four checks. -/
theorem evaluateResponse_eq (payload acao acac : Bytes) :
    evaluateResponse payload acao acac =
      (decide
        ((if acao = payload then
            [str "ACAO reflects origin: " ++ acao
              ++ (if acac = str "true" then str " (with credentials)" else [])]
          else [])
        ++ (if acao = str "*" then [str "Wildcard ACAO: *"] else [])
        ++ (if acao = str "null" ∧ payload = str "null" then
              [str "Null origin allowed in ACAO"] else [])
        ++ (if acac = str "true" ∧ acao ≠ [] ∧ acao ≠ str "*" ∧ acao = payload then
              [str "Credentials allowed with reflected origin: ACAO=" ++ acao
                ++ str ", ACAC=true"]
            else []) ≠ []),
       (if acao = payload then
            [str "ACAO reflects origin: " ++ acao
              ++ (if acac = str "true" then str " (with credentials)" else [])]
          else [])
        ++ (if acao = str "*" then [str "Wildcard ACAO: *"] else [])
        ++ (if acao = str "null" ∧ payload = str "null" then
              [str "Null origin allowed in ACAO"] else [])
        ++ (if acac = str "true" ∧ acao ≠ [] ∧ acao ≠ str "*" ∧ acao = payload then
              [str "Credentials allowed with reflected origin: ACAO=" ++ acao
                ++ str ", ACAC=true"]
            else [])) := by
  have hfin : ∀ d : List Bytes,
      (if d.length > 0 then (true, d) else (false, [])) = (decide (d ≠ []), d) := by
    intro d
    cases d <;> simp
  unfold evaluateResponse
  simp only [hfin, ite_append_right, List.nil_append]

/-- C14: for every sent origin `p`, ACAO value `a` and ACAC value `c`, `evaluateResponse`
returns the triggered details in a fixed order, each present exactly under its condition:
`ACAO reflects origin: a` (with ` (with credentials)` appended iff `c = true`) iff
`a = p`; `Wildcard ACAO: *` iff `a = *`; `Null origin allowed in ACAO` iff `p = null` and
`a = null`; `Credentials allowed with reflected origin: ACAO=a, ACAC=true` iff
`c = true`, `a = p`, `a` non-empty and `a` not `*`; and it reports vulnerable iff that
list is non-empty. The four witnesses of the claim are evaluated as well. -/
theorem evaluateResponse_details (p a c : Bytes) :
    (evaluateResponse p a c).2 =
        (if a = p then
            [str "ACAO reflects origin: " ++ a
              ++ (if c = str "true" then str " (with credentials)" else [])]
          else [])
        ++ (if a = str "*" then [str "Wildcard ACAO: *"] else [])
        ++ (if p = str "null" ∧ a = str "null" then [str "Null origin allowed in ACAO"]
            else [])
        ++ (if c = str "true" ∧ a = p ∧ a ≠ [] ∧ a ≠ str "*" then
              [str "Credentials allowed with reflected origin: ACAO=" ++ a
                ++ str ", ACAC=true"]
            else [])
      ∧ ((evaluateResponse p a c).1 = true ↔ (evaluateResponse p a c).2 ≠ [])
      ∧ evaluateResponse (str "null") (str "null") []
          = (true, [str "ACAO reflects origin: null", str "Null origin allowed in ACAO"])
      ∧ evaluateResponse (str "https://x") (str "*") [] = (true, [str "Wildcard ACAO: *"])
      ∧ evaluateResponse (str "https://x") (str "https://x") (str "true")
          = (true, [str "ACAO reflects origin: https://x (with credentials)",
                    str "Credentials allowed with reflected origin: ACAO=https://x, ACAC=true"])
      ∧ evaluateResponse (str "https://x") (str "https://y") [] = (false, []) := by
  refine ⟨?_, ?_, by decide, by decide, by decide, by decide⟩
  · rw [evaluateResponse_eq]
    have e3 : (if a = str "null" ∧ p = str "null" then [str "Null origin allowed in ACAO"]
          else ([] : List Bytes))
        = (if p = str "null" ∧ a = str "null" then [str "Null origin allowed in ACAO"]
          else []) := if_congr and_comm rfl rfl
    have e4 : (if c = str "true" ∧ a ≠ [] ∧ a ≠ str "*" ∧ a = p then
            [str "Credentials allowed with reflected origin: ACAO=" ++ a ++ str ", ACAC=true"]
          else ([] : List Bytes))
        = (if c = str "true" ∧ a = p ∧ a ≠ [] ∧ a ≠ str "*" then
            [str "Credentials allowed with reflected origin: ACAO=" ++ a ++ str ", ACAC=true"]
          else []) := if_congr (by tauto) rfl rfl
    simp only [e3, e4]
  · rw [evaluateResponse_eq]
    simp only [decide_eq_true_eq]

/-- C15 (as the code has it): for every sent origin, ACAO value and ACAC value, the CORS
oracle reports a vulnerability if and only if ACAO equals the sent origin or ACAO is `*`,
whatever ACAC is. -/
theorem evaluateResponse_vulnerable_iff (p a c : Bytes) :
    (evaluateResponse p a c).1 = true ↔ a = p ∨ a = str "*" := by
  rw [evaluateResponse_eq]
  simp only [decide_eq_true_eq]
  split_ifs <;> simp_all

/-- C15, the claim as stated fails: for the sent origin `https://x`, ACAO `*` and no ACAC
header the oracle reports a vulnerability, although the origin is not reflected and ACAC
is not `true`. -/
theorem wildcard_without_credentials :
    evaluateResponse (str "https://x") (str "*") [] = (true, [str "Wildcard ACAO: *"])
      ∧ ¬ (str "*" = str "https://x" ∨ (str "*" = str "*" ∧ ([] : Bytes) = str "true")) := by
  decide

end cors

/-! ## The CRLF engine -/

namespace crlf

theorem GenerateURLs_eq (baseURL : Bytes) :
    GenerateURLs baseURL =
      appendList.flatMap (fun a => escapeList.map (fun e =>
        (if strings.HasSuffix baseURL (str "/") = true then baseURL else baseURL ++ str "/")
          ++ a ++ e ++ str "X-Injected-Header-By%3a%20httpsuite")) := by
  have hlit : ∀ x : Bytes, x ++ injectedHeaderKey ++ str "%3a%20" ++ injectedHeaderVal
      = x ++ str "X-Injected-Header-By%3a%20httpsuite" := by
    intro x
    have : injectedHeaderKey ++ str "%3a%20" ++ injectedHeaderVal
        = str "X-Injected-Header-By%3a%20httpsuite" := by decide
    rw [← this]
    simp only [List.append_assoc]
  unfold GenerateURLs
  rw [foldl_nested_append]
  by_cases h : strings.HasSuffix baseURL (str "/") = true
  · simp only [h, Bool.not_true, Bool.false_eq_true, ↓reduceIte, List.nil_append, hlit]
  · simp only [h, Bool.not_false, Bool.not_eq_true, ↓reduceIte, List.nil_append, hlit]
    simp [h]

theorem GenerateURLs_length (baseURL : Bytes) :
    (GenerateURLs baseURL).length = appendList.length * escapeList.length := by
  rw [GenerateURLs_eq]
  simp only [appendList, List.flatMap_cons, List.flatMap_nil, List.length_append,
    List.length_map, List.length_nil, List.length_cons]
  omega

/-- C17: for every set of response headers, the CRLF oracle reports vulnerable if and
only if the response contains a header whose name equals the marker
`X-Injected-Header-By` and at least one of whose values contains the marker value
`httpsuite`; the status code plays no part. -/
theorem isVulnerable_iff (resp : Response) :
    (isVulnerable resp = true ↔
        ∃ entry ∈ resp.Header, entry.1 = str "X-Injected-Header-By"
          ∧ ∃ value ∈ entry.2, strings.Contains value (str "httpsuite") = true)
      ∧ ∀ statusCode : Nat,
          isVulnerable { resp with StatusCode := statusCode } = isVulnerable resp := by
  refine ⟨?_, fun _ => rfl⟩
  simp only [isVulnerable, List.any_eq_true, Bool.and_eq_true, decide_eq_true_eq,
    injectedHeaderKey, injectedHeaderVal]

/-- C18: for every base URL, `GenerateURLs` returns exactly one URL per (append, escape)
pair of the Cartesian product, in append-major order, each equal to the base URL (with one
`/` added only when it does not already end in `/`), then the append string, the escape
sequence and the literal `X-Injected-Header-By%3a%20httpsuite`; its length is
`|appends| × |escapes|`. -/
theorem GenerateURLs_product (baseURL : Bytes) :
    GenerateURLs baseURL =
        appendList.flatMap (fun a => escapeList.map (fun e =>
          (if strings.HasSuffix baseURL (str "/") = true then baseURL else baseURL ++ str "/")
            ++ a ++ e ++ str "X-Injected-Header-By%3a%20httpsuite"))
      ∧ (GenerateURLs baseURL).length = appendList.length * escapeList.length
      ∧ (strings.HasSuffix baseURL (str "/") = true ↔ ∃ b, baseURL = b ++ str "/") := by
  refine ⟨GenerateURLs_eq baseURL, GenerateURLs_length baseURL, ?_⟩
  unfold strings.HasSuffix
  rw [List.isSuffixOf_iff_suffix]
  exact ⟨fun ⟨b, hb⟩ => ⟨b, hb.symm⟩, fun ⟨b, hb⟩ => ⟨b, hb.symm⟩⟩

/-- C19 (as the code has it): for every target URL, the CRLF engine generates
27 × 4 = 108 probe URLs: `escapeList` holds 27 escape sequences, `appendList` the 4
appends (empty), `crlftest`, `?crlftest=`, `#`. -/
theorem GenerateURLs_count (baseURL : Bytes) :
    (GenerateURLs baseURL).length = 108
      ∧ escapeList.length = 27
      ∧ appendList = [str "", str "crlftest", str "?crlftest=", str "#"] := by
  refine ⟨?_, rfl, rfl⟩
  rw [GenerateURLs_length]
  rfl

/-- C19, the claim as stated fails: for the target `https://test/` the engine generates
108 probe URLs, not 112, the escape list having 27 entries, not 28. -/
theorem GenerateURLs_not_112 :
    (GenerateURLs (str "https://test/")).length = 108 ∧ escapeList.length = 27 := by
  refine ⟨?_, rfl⟩
  rw [GenerateURLs_length]
  rfl

end crlf

/-! ## The methods engine's status filter -/

/-- A loop that appends at most one element per round builds a `filterMap`. -/
theorem foldl_option_append {α β : Type} (f : α → Option β) (step : List β → α → List β)
    (h : ∀ acc x, step acc x = acc ++ (f x).toList) : ∀ (l : List α) (init : List β),
    l.foldl step init = init ++ l.filterMap f := by
  intro l
  induction l with
  | nil => intro init; simp
  | cons a l ih =>
    intro init
    rw [List.foldl_cons, ih, h]
    cases hf : f a with
    | none => simp [List.filterMap_cons, hf]
    | some b => simp [List.filterMap_cons, hf]

namespace methods

/-- The status filter `NewScanner` builds: the entries of the comma-separated list that
`Atoi` accepts once trimmed, in their order. -/
theorem NewScanner_statusFilter (methodList filterStatus : Bytes) :
    (NewScanner methodList filterStatus).statusFilter
      = if filterStatus = [] then []
        else (strings.Split filterStatus (str ",")).filterMap
          (fun code => strconv.Atoi (strings.TrimSpace code)) := by
  have hnil : str "" = [] := rfl
  unfold NewScanner
  simp only [hnil]
  by_cases h : filterStatus = []
  · simp [h]
  · simp only [ne_eq, h, not_false_eq_true, ↓reduceIte]
    rw [foldl_option_append (fun code => strconv.Atoi (strings.TrimSpace code))]
    · simp
    · intro acc x
      cases strconv.Atoi (strings.TrimSpace x) <;> simp

/-- The results of `Run`, target by target and method by method. -/
theorem Run_eq (s : Scanner) (urls : List Bytes)
    (resp : Bytes → Bytes → Except Bytes (Nat × Bytes)) :
    Run s urls resp = urls.flatMap (fun targetURL =>
      s.methods.filterMap (fun method => probe s targetURL method (resp targetURL method))) := by
  unfold Run
  have inner : ∀ (targetURL : Bytes) (out : List common.ScanResult),
      s.methods.foldl
        (fun out method =>
          match probe s targetURL method (resp targetURL method) with
          | some r => out ++ [r]
          | none => out) out
        = out ++ s.methods.filterMap
            (fun method => probe s targetURL method (resp targetURL method)) := by
    intro targetURL out
    apply foldl_option_append
    intro acc x
    cases probe s targetURL x (resp targetURL x) <;> simp
  have outer : ∀ (l : List Bytes) (out : List common.ScanResult),
      l.foldl (fun out targetURL =>
        s.methods.foldl
          (fun out method =>
            match probe s targetURL method (resp targetURL method) with
            | some r => out ++ [r]
            | none => out) out) out
        = out ++ l.flatMap (fun targetURL =>
            s.methods.filterMap
              (fun method => probe s targetURL method (resp targetURL method))) := by
    intro l
    induction l with
    | nil => intro out; simp
    | cons a l ih =>
      intro out
      rw [List.foldl_cons, inner, ih]
      simp
  rw [outer]
  simp

/-- What the goroutine of `Run` does with a response: nothing when a filter is set and
the status is not in it, otherwise one result with the flag and detail of `classify`. -/
theorem probe_eq (s : Scanner) (targetURL method : Bytes) (statusCode : Nat) (body : Bytes) :
    probe s targetURL method (.ok (statusCode, body))
      = (if s.statusFilter ≠ [] ∧ (statusCode : Int) ∉ s.statusFilter then none
         else some
          { URL := targetURL
            Method := method
            StatusCode := statusCode
            ContentLength := body.length
            Detail := (classify method statusCode).2
            Module := str "methods"
            Vulnerable := (classify method statusCode).1 }) := by
  unfold probe
  have hlen : s.statusFilter.length > 0 ↔ s.statusFilter ≠ [] := List.length_pos
  by_cases hf : s.statusFilter ≠ [] ∧ (statusCode : Int) ∉ s.statusFilter
  · rw [if_pos hf]
    simp only []
    rw [if_pos ⟨hlen.mpr hf.1, hf.2⟩]
  · rw [if_neg hf]
    simp only []
    rw [if_neg (fun h => hf ⟨hlen.mp h.1, h.2⟩)]

/-- A result `Run` emits under a non-empty filter has a status code of the filter. -/
theorem Run_filtered (s : Scanner) (urls : List Bytes)
    (resp : Bytes → Bytes → Except Bytes (Nat × Bytes)) (hne : s.statusFilter ≠ []) :
    ∀ r ∈ Run s urls resp, (r.StatusCode : Int) ∈ s.statusFilter := by
  intro r hr
  rw [Run_eq] at hr
  simp only [List.mem_flatMap, List.mem_filterMap] at hr
  obtain ⟨targetURL, _, method, _, hp⟩ := hr
  unfold probe at hp
  cases hresp : resp targetURL method with
  | error err => rw [hresp] at hp; cases hp
  | ok v =>
    obtain ⟨statusCode, body⟩ := v
    rw [hresp] at hp
    simp only [] at hp
    have hlen : s.statusFilter.length > 0 := List.length_pos.mpr hne
    by_cases hmem : (statusCode : Int) ∈ s.statusFilter
    · rw [if_neg (by simp [hmem])] at hp
      cases hp
      exact hmem
    · rw [if_pos ⟨hlen, hmem⟩] at hp
      cases hp

end methods

/-! ## The methods engine: classification -/

namespace methods

/-- C20: for every method and status code, the methods engine classifies a response as
follows: status 200..299 gives detail `success`, except that a method other than `GET`,
`HEAD` and `OPTIONS` gives vulnerable = true with detail
`unexpected success - method may be enabled`; 405 gives `method not allowed`; 501 gives
`not implemented`; every other status gives `active`; so a result is vulnerable if and
only if the status is 2xx and the method is not `GET`, `HEAD` or `OPTIONS`. The engine
emits exactly one result with this flag and detail for every target and method whose
request returned a response with a status the filter lets through. -/
theorem classify_spec (s : Scanner) (targetURL method : Bytes) (statusCode : Nat)
    (body : Bytes) (urls : List Bytes)
    (resp : Bytes → Bytes → Except Bytes (Nat × Bytes)) :
    classify method statusCode =
        (if 200 ≤ statusCode ∧ statusCode ≤ 299 then
          (if method = str "GET" ∨ method = str "HEAD" ∨ method = str "OPTIONS" then
            (false, str "success")
           else (true, str "unexpected success - method may be enabled"))
         else if statusCode = 405 then (false, str "method not allowed")
         else if statusCode = 501 then (false, str "not implemented")
         else (false, str "active"))
      ∧ ((classify method statusCode).1 = true ↔
          (200 ≤ statusCode ∧ statusCode ≤ 299)
            ∧ method ≠ str "GET" ∧ method ≠ str "HEAD" ∧ method ≠ str "OPTIONS")
      ∧ probe s targetURL method (.ok (statusCode, body))
          = (if s.statusFilter ≠ [] ∧ (statusCode : Int) ∉ s.statusFilter then none
             else some
              { URL := targetURL
                Method := method
                StatusCode := statusCode
                ContentLength := body.length
                Detail := (classify method statusCode).2
                Module := str "methods"
                Vulnerable := (classify method statusCode).1 })
      ∧ Run s urls resp = urls.flatMap (fun u => s.methods.filterMap (fun m =>
          match resp u m with
          | .error _ => none
          | .ok (code, b) =>
            if s.statusFilter ≠ [] ∧ (code : Int) ∉ s.statusFilter then none
            else some
              { URL := u
                Method := m
                StatusCode := code
                ContentLength := b.length
                Detail := (classify m code).2
                Module := str "methods"
                Vulnerable := (classify m code).1 })) := by
  have h2xx : (statusCode ≥ 200 ∧ statusCode < 300) ↔ (200 ≤ statusCode ∧ statusCode ≤ 299) := by
    omega
  refine ⟨?_, ?_, probe_eq s targetURL method statusCode body, ?_⟩
  · unfold classify
    simp only []
    by_cases h : 200 ≤ statusCode ∧ statusCode ≤ 299
    · have h' : statusCode ≥ 200 ∧ statusCode < 300 := h2xx.mpr h
      rw [if_pos h', if_pos h]
      by_cases hm : method = str "GET" ∨ method = str "HEAD" ∨ method = str "OPTIONS"
      · have hm' : ¬ (method ≠ str "GET" ∧ method ≠ str "HEAD" ∧ method ≠ str "OPTIONS") := by
          rcases hm with e | e | e <;> simp [e]
        rw [if_neg hm', if_pos hm]
      · have hm' : method ≠ str "GET" ∧ method ≠ str "HEAD" ∧ method ≠ str "OPTIONS" := by
          push_neg at hm
          exact hm
        rw [if_pos hm', if_neg hm]
    · have h' : ¬ (statusCode ≥ 200 ∧ statusCode < 300) := fun x => h (h2xx.mp x)
      rw [if_neg h', if_neg h]
  · unfold classify
    by_cases h' : statusCode ≥ 200 ∧ statusCode < 300
    · have h : 200 ≤ statusCode ∧ statusCode ≤ 299 := h2xx.mp h'
      by_cases hm : method ≠ str "GET" ∧ method ≠ str "HEAD" ∧ method ≠ str "OPTIONS"
      · simp only [h', hm, h, and_self, ↓reduceIte, ne_eq, not_false_eq_true]
      · simp only [h', hm, h, and_self, ↓reduceIte, Bool.false_eq_true, and_false]
    · have h : ¬ (200 ≤ statusCode ∧ statusCode ≤ 299) := fun x => h' (h2xx.mpr x)
      by_cases h405 : statusCode = 405 <;> by_cases h501 : statusCode = 501
        <;> simp [h', h, h405, h501]
  · rw [Run_eq]
    apply List.flatMap_congr
    intro u _
    apply List.filterMap_congr
    intro m _
    cases hr : resp u m with
    | error err => rfl
    | ok v =>
      obtain ⟨code, b⟩ := v
      exact probe_eq s u m code b

theorem classify_spec_witness :
    probe { statusFilter := [] } (str "https://test") (str "PUT") (.ok (200, str "ok"))
        = some
          { URL := str "https://test", Method := str "PUT", StatusCode := 200,
            ContentLength := 2, Detail := str "unexpected success - method may be enabled",
            Module := str "methods", Vulnerable := true }
      ∧ Run { methods := [str "PUT", str "GET"], statusFilter := [] } [str "https://test"]
          (fun _ m => if m = str "PUT" then .ok (200, str "ok") else .ok (405, []))
        = [{ URL := str "https://test", Method := str "PUT", StatusCode := 200,
             ContentLength := 2, Detail := str "unexpected success - method may be enabled",
             Module := str "methods", Vulnerable := true },
           { URL := str "https://test", Method := str "GET", StatusCode := 405,
             ContentLength := 0, Detail := str "method not allowed",
             Module := str "methods", Vulnerable := false }] :=
  ⟨(classify_spec { statusFilter := [] } (str "https://test") (str "PUT") 200 (str "ok")
      [] (fun _ _ => .error [])).2.2.1.trans (by decide),
   (classify_spec { methods := [str "PUT", str "GET"], statusFilter := [] }
      (str "https://test") (str "PUT") 200 (str "ok") [str "https://test"]
      (fun _ m => if m = str "PUT" then .ok (200, str "ok") else .ok (405, []))).2.2.2.trans
      (by decide)⟩

end methods

/-! ## The methods engine: the status filter -/

namespace methods

/-- An entry outside the range of `int` is not accepted. -/
theorem Atoi_out_of_range : strconv.Atoi (str "99999999999999999999") = none := by
  decide

/-- C21 (amended): for every status filter string of which at least one comma-separated
entry, trimmed of white space, is accepted by `strconv.Atoi`, every result the methods
engine emits has a status code that is one of the entries so accepted; when no entry is
accepted, nothing is filtered and every response is emitted; with the filter `200,201` no
emitted result has a status other than 200 or 201. -/
theorem status_filter (methodList filterStatus : Bytes) (urls : List Bytes)
    (resp : Bytes → Bytes → Except Bytes (Nat × Bytes)) :
    ((∃ code ∈ strings.Split filterStatus (str ","),
          (strconv.Atoi (strings.TrimSpace code)).isSome = true) →
        ∀ r ∈ Run (NewScanner methodList filterStatus) urls resp,
          ∃ code ∈ strings.Split filterStatus (str ","),
            strconv.Atoi (strings.TrimSpace code) = some (r.StatusCode : Int))
      ∧ ((∀ code ∈ strings.Split filterStatus (str ","),
            strconv.Atoi (strings.TrimSpace code) = none) →
          ∀ (targetURL method : Bytes) (statusCode : Nat) (body : Bytes),
            (probe (NewScanner methodList filterStatus) targetURL method
              (.ok (statusCode, body))).isSome = true)
      ∧ ∀ r ∈ Run (NewScanner methodList (str "200,201")) urls resp,
          r.StatusCode = 200 ∨ r.StatusCode = 201 := by
  refine ⟨?_, ?_, ?_⟩
  · rintro ⟨code, hcode, hsome⟩ r hr
    have hne : filterStatus ≠ [] := by
      intro he
      subst he
      have hnone : ∀ code ∈ strings.Split [] (str ","),
          (strconv.Atoi (strings.TrimSpace code)).isSome = false := by decide
      rw [hnone code hcode] at hsome
      cases hsome
    have hf := NewScanner_statusFilter methodList filterStatus
    rw [if_neg hne] at hf
    have hne' : (NewScanner methodList filterStatus).statusFilter ≠ [] := by
      rw [hf]
      obtain ⟨c, hc⟩ := Option.isSome_iff_exists.mp hsome
      exact List.ne_nil_of_mem (List.mem_filterMap.mpr ⟨code, hcode, hc⟩)
    have hmem := Run_filtered _ urls resp hne' r hr
    rw [hf, List.mem_filterMap] at hmem
    exact hmem
  · intro hnone targetURL method statusCode body
    have hf : (NewScanner methodList filterStatus).statusFilter = [] := by
      rw [NewScanner_statusFilter]
      by_cases he : filterStatus = []
      · rw [if_pos he]
      · rw [if_neg he, List.filterMap_eq_nil_iff]
        exact hnone
    rw [probe_eq, if_neg (by rw [hf]; simp)]
    rfl
  · intro r hr
    have hf : (NewScanner methodList (str "200,201")).statusFilter = [200, 201] := by
      rw [NewScanner_statusFilter]
      decide
    have hmem := Run_filtered _ urls resp (by rw [hf]; decide) r hr
    rw [hf] at hmem
    simp only [List.mem_cons, List.mem_singleton, List.not_mem_nil, or_false] at hmem
    omega

theorem status_filter_witness :
    ∀ r ∈ Run (NewScanner (str "GET,PUT") (str "200, 404")) [str "https://test"]
        (fun _ method => if method = str "GET" then .ok (200, str "ok") else .ok (403, [])),
      ∃ code ∈ strings.Split (str "200, 404") (str ","),
        strconv.Atoi (strings.TrimSpace code) = some (r.StatusCode : Int) :=
  (status_filter (str "GET,PUT") (str "200, 404") [str "https://test"]
    (fun _ method => if method = str "GET" then .ok (200, str "ok") else .ok (403, []))).1
    ⟨str "200", by decide, by decide⟩

/-- C21 fails as stated: the filter string `2xx` is not empty, but none of its entries is
an integer, so the filter set stays empty and nothing is dropped: a response with status
404 is emitted, and 404 is not listed in the filter. -/
theorem unparsable_filter_passes_all :
    str "2xx" ≠ str ""
      ∧ Run (NewScanner (str "GET") (str "2xx")) [str "https://test"]
          (fun _ _ => .ok (404, str "not found"))
        = [{ URL := str "https://test", Method := str "GET", StatusCode := 404,
             ContentLength := 9, Detail := str "active", Module := str "methods",
             Vulnerable := false }]
      ∧ ∀ code ∈ strings.Split (str "2xx") (str ","),
          strconv.Atoi (strings.TrimSpace code) ≠ some 404 := by
  decide

end methods

/-! ## The fan-out -/

namespace dispatch

theorem sum_map_set {β : Type} (f : β → Nat) : ∀ (l : List β) (i : Nat) (a b : β),
    l.get? i = some a → ((l.set i b).map f).sum + f a = (l.map f).sum + f b := by
  intro l
  induction l with
  | nil => intro i a b h; simp at h
  | cons c l ih =>
    intro i a b h
    cases i with
    | zero =>
      simp only [List.get?_cons_zero, Option.some.injEq] at h
      subst h
      simp only [List.set_cons_zero, List.map_cons, List.sum_cons]
      omega
    | succ i =>
      simp only [List.get?_cons_succ] at h
      have := ih i a b h
      simp only [List.set_cons_succ, List.map_cons, List.sum_cons]
      omega

theorem map_fst_set {α : Type} : ∀ (l : List (α × Phase)) (i : Nat) (x : α) (ph ph' : Phase),
    l.get? i = some (x, ph) → (l.set i (x, ph')).map Prod.fst = l.map Prod.fst := by
  intro l
  induction l with
  | nil => intro i x ph ph' h; simp at h
  | cons c l ih =>
    intro i x ph ph' h
    cases i with
    | zero =>
      simp only [List.get?_cons_zero, Option.some.injEq] at h
      subst h
      rfl
    | succ i =>
      simp only [List.get?_cons_succ] at h
      simp only [List.set_cons_succ, List.map_cons, ih i x ph ph' h]

theorem exists_of_sum_pos {β : Type} (f : β → Nat) : ∀ (l : List β),
    0 < (l.map f).sum → ∃ i a, l.get? i = some a ∧ 0 < f a := by
  intro l
  induction l with
  | nil => intro h; simp at h
  | cons c l ih =>
    intro h
    by_cases hc : 0 < f c
    · exact ⟨0, c, rfl, hc⟩
    · simp only [List.map_cons, List.sum_cons] at h
      obtain ⟨i, a, hi, ha⟩ := ih (by omega)
      exact ⟨i + 1, a, hi, ha⟩

theorem all_zero_of_sum_zero {β : Type} (f : β → Nat) : ∀ (l : List β),
    (l.map f).sum = 0 → ∀ a ∈ l, f a = 0 := by
  intro l
  induction l with
  | nil => intro _ a ha; simp at ha
  | cons c l ih =>
    intro h a ha
    simp only [List.map_cons, List.sum_cons] at h
    rcases List.mem_cons.mp ha with e | e
    · subst e; omega
    · exact ih (by omega) a e

theorem countP_le_sum {β : Type} (p : β → Bool) (f : β → Nat)
    (h : ∀ a, p a = true → 1 ≤ f a) : ∀ (l : List β), l.countP p ≤ (l.map f).sum := by
  intro l
  induction l with
  | nil => simp
  | cons c l ih =>
    simp only [List.countP_cons, List.map_cons, List.sum_cons]
    by_cases hc : p c = true
    · have := h c hc
      simp only [hc, ↓reduceIte]
      omega
    · simp only [hc, Bool.false_eq_true, ↓reduceIte]
      omega

theorem inv_init {α : Type} (C : Nat) (items : List α) : Inv C items (init items) := by
  refine ⟨?_, ?_, ?_, ?_, ?_, ?_⟩
  · simp [init, pending]
  · simp [init, Main.slot]
  · simp [init]
  · simp [init, pending]
  · intro h; rcases h with h | h <;> simp [init] at h
  · intro h; simp [init] at h

/-- A step of the fan-out keeps the invariant. -/
theorem inv_step {α : Type} (C : Nat) (items : List α) (s s' : State α) (a : Action)
    (hinv : Inv C items s) (h : step C s a = some s') : Inv C items s' := by
  obtain ⟨todo, main, sem, wg, workers⟩ := s
  obtain ⟨h1, h2, h3, h4, h5, h6⟩ := hinv
  simp only [] at h1 h2 h3 h4 h5 h6
  cases a with
  | main =>
    cases main with
    | loop =>
      cases todo with
      | nil =>
        simp only [step, Option.some.injEq] at h
        subst h
        refine ⟨?_, ?_, ?_, ?_, ?_, ?_⟩
        · simpa [pending] using h1
        · simpa [Main.slot] using h2
        · exact h3
        · simpa [pending] using h4
        · intro _; rfl
        · intro hh; cases hh
      | cons x rest =>
        simp only [step, Option.some.injEq] at h
        subst h
        refine ⟨?_, ?_, ?_, ?_, ?_, ?_⟩
        · simpa [pending] using h1
        · simpa [Main.slot] using h2
        · exact h3
        · simp only [pending, List.length_nil, List.length_singleton] at h4 ⊢
          omega
        · intro hh; rcases hh with hh | hh <;> cases hh
        · intro hh; cases hh
    | added x =>
      simp only [step] at h
      by_cases hc : sem < C
      · rw [if_pos hc] at h
        simp only [Option.some.injEq] at h
        subst h
        refine ⟨?_, ?_, ?_, ?_, ?_, ?_⟩
        · simpa [pending] using h1
        · simp only [Main.slot] at h2 ⊢
          omega
        · exact hc
        · simpa [pending] using h4
        · intro hh; rcases hh with hh | hh <;> cases hh
        · intro hh; cases hh
      · rw [if_neg hc] at h
        cases h
    | acquired x =>
      simp only [step, Option.some.injEq] at h
      subst h
      refine ⟨?_, ?_, ?_, ?_, ?_, ?_⟩
      · simpa [pending] using h1
      · simp only [Main.slot, List.map_append, List.map_cons, List.map_nil, List.sum_append,
          List.sum_cons, List.sum_nil, Phase.holds] at h2 ⊢
        omega
      · exact h3
      · simp only [pending, List.length_singleton, List.length_nil, List.map_append,
          List.map_cons, List.map_nil, List.sum_append, List.sum_cons, List.sum_nil,
          Phase.alive] at h4 ⊢
        omega
      · intro hh; rcases hh with hh | hh <;> cases hh
      · intro hh; cases hh
    | wait =>
      simp only [step] at h
      by_cases hw : wg = 0
      · rw [if_pos hw] at h
        simp only [Option.some.injEq] at h
        subst h
        refine ⟨?_, ?_, ?_, ?_, ?_, ?_⟩
        · simpa [pending] using h1
        · simpa [Main.slot] using h2
        · exact h3
        · simpa [pending] using h4
        · intro _; exact h5 (Or.inl rfl)
        · intro _; exact hw
      · rw [if_neg hw] at h
        cases h
    | returned =>
      simp only [step] at h
      cases h
  | worker i =>
    simp only [step] at h
    cases hg : workers.get? i with
    | none =>
      rw [hg] at h
      cases h
    | some w =>
      obtain ⟨x, ph⟩ := w
      rw [hg] at h
      have hfst : ∀ ph', (workers.set i (x, ph')).map Prod.fst = workers.map Prod.fst :=
        fun ph' => map_fst_set workers i x ph ph' hg
      have hholds : ∀ ph', ((workers.set i (x, ph')).map (fun w => w.2.holds)).sum + ph.holds
          = (workers.map (fun w => w.2.holds)).sum + ph'.holds :=
        fun ph' => sum_map_set (fun w : α × Phase => w.2.holds) workers i (x, ph) (x, ph') hg
      have halive : ∀ ph', ((workers.set i (x, ph')).map (fun w => w.2.alive)).sum + ph.alive
          = (workers.map (fun w => w.2.alive)).sum + ph'.alive :=
        fun ph' => sum_map_set (fun w : α × Phase => w.2.alive) workers i (x, ph) (x, ph') hg
      have r1 : Phase.running.holds = 1 := rfl
      have r2 : Phase.releasing.holds = 1 := rfl
      have r3 : Phase.finishing.holds = 0 := rfl
      have r4 : Phase.done.holds = 0 := rfl
      have a1 : Phase.running.alive = 1 := rfl
      have a2 : Phase.releasing.alive = 1 := rfl
      have a3 : Phase.finishing.alive = 1 := rfl
      have a4 : Phase.done.alive = 0 := rfl
      cases ph with
      | running =>
        simp only [Option.some.injEq] at h
        subst h
        have e1 := hholds Phase.releasing
        have e2 := halive Phase.releasing
        simp only [r1, r2, r3, r4] at e1
        simp only [a1, a2, a3, a4] at e2
        refine ⟨?_, ?_, h3, ?_, h5, h6⟩
        · simp only []; rw [hfst]; exact h1
        · simp only []; omega
        · simp only []; omega
      | releasing =>
        simp only [] at h
        by_cases hs : sem > 0
        · rw [if_pos hs] at h
          simp only [Option.some.injEq] at h
          subst h
          have e1 := hholds Phase.finishing
          have e2 := halive Phase.finishing
          simp only [r1, r2, r3, r4] at e1
          simp only [a1, a2, a3, a4] at e2
          refine ⟨?_, ?_, ?_, ?_, h5, ?_⟩
          · simp only []; rw [hfst]; exact h1
          · simp only []; omega
          · simp only []; omega
          · simp only []; omega
          · intro hh
            have := h6 hh
            simp only [] at this ⊢
            omega
        · rw [if_neg hs] at h
          cases h
      | finishing =>
        simp only [] at h
        by_cases hw : wg > 0
        · rw [if_pos hw] at h
          simp only [Option.some.injEq] at h
          subst h
          have e1 := hholds Phase.done
          have e2 := halive Phase.done
          simp only [r1, r2, r3, r4] at e1
          simp only [a1, a2, a3, a4] at e2
          refine ⟨?_, ?_, h3, ?_, h5, ?_⟩
          · simp only []; rw [hfst]; exact h1
          · simp only []; omega
          · simp only []; omega
          · intro hh
            have := h6 hh
            simp only [] at this
            omega
        · rw [if_neg hw] at h
          cases h
      | done =>
        simp only [] at h
        cases h

/-- Every step uses up one of the steps left. -/
theorem stepsLeft_step {α : Type} (C : Nat) (s s' : State α) (a : Action)
    (h : step C s a = some s') : stepsLeft s' + 1 = stepsLeft s := by
  obtain ⟨todo, main, sem, wg, workers⟩ := s
  cases a with
  | main =>
    cases main with
    | loop =>
      cases todo with
      | nil =>
        simp only [step, Option.some.injEq] at h
        subst h
        simp only [stepsLeft, Main.left]
        omega
      | cons x rest =>
        simp only [step, Option.some.injEq] at h
        subst h
        simp only [stepsLeft, Main.left, List.length_cons]
        omega
    | added x =>
      simp only [step] at h
      by_cases hc : sem < C
      · rw [if_pos hc] at h
        simp only [Option.some.injEq] at h
        subst h
        simp only [stepsLeft, Main.left]
        omega
      · rw [if_neg hc] at h
        cases h
    | acquired x =>
      simp only [step, Option.some.injEq] at h
      subst h
      simp only [stepsLeft, Main.left, List.map_append, List.map_cons, List.map_nil,
        List.sum_append, List.sum_cons, List.sum_nil, Phase.left]
      omega
    | wait =>
      simp only [step] at h
      by_cases hw : wg = 0
      · rw [if_pos hw] at h
        simp only [Option.some.injEq] at h
        subst h
        simp only [stepsLeft, Main.left]
        omega
      · rw [if_neg hw] at h
        cases h
    | returned =>
      simp only [step] at h
      cases h
  | worker i =>
    simp only [step] at h
    cases hg : workers.get? i with
    | none =>
      rw [hg] at h
      cases h
    | some w =>
      obtain ⟨x, ph⟩ := w
      rw [hg] at h
      have hleft : ∀ ph', ((workers.set i (x, ph')).map (fun w => w.2.left)).sum + ph.left
          = (workers.map (fun w => w.2.left)).sum + ph'.left :=
        fun ph' => sum_map_set (fun w : α × Phase => w.2.left) workers i (x, ph) (x, ph') hg
      have l1 : Phase.running.left = 3 := rfl
      have l2 : Phase.releasing.left = 2 := rfl
      have l3 : Phase.finishing.left = 1 := rfl
      have l4 : Phase.done.left = 0 := rfl
      cases ph with
      | running =>
        simp only [Option.some.injEq] at h
        subst h
        have e := hleft Phase.releasing
        simp only [l1, l2] at e
        simp only [stepsLeft]
        omega
      | releasing =>
        simp only [] at h
        by_cases hs : sem > 0
        · rw [if_pos hs] at h
          simp only [Option.some.injEq] at h
          subst h
          have e := hleft Phase.finishing
          simp only [l2, l3] at e
          simp only [stepsLeft]
          omega
        · rw [if_neg hs] at h
          cases h
      | finishing =>
        simp only [] at h
        by_cases hw : wg > 0
        · rw [if_pos hw] at h
          simp only [Option.some.injEq] at h
          subst h
          have e := hleft Phase.done
          simp only [l3, l4] at e
          simp only [stepsLeft]
          omega
        · rw [if_neg hw] at h
          cases h
      | done =>
        simp only [] at h
        cases h

theorem inv_run {α : Type} (C : Nat) (items : List α) : ∀ (sched : List Action)
    (s s' : State α), Inv C items s → run (step C) s sched = some s' → Inv C items s' := by
  intro sched
  induction sched with
  | nil =>
    intro s s' hinv h
    simp only [run, Option.some.injEq] at h
    subst h
    exact hinv
  | cons a rest ih =>
    intro s s' hinv h
    rw [run] at h
    cases hs : step C s a with
    | none => rw [hs] at h; cases h
    | some s1 =>
      rw [hs] at h
      exact ih s1 s' (inv_step C items s s1 a hinv hs) h

theorem stepsLeft_run {α : Type} (C : Nat) : ∀ (sched : List Action) (s s' : State α),
    run (step C) s sched = some s' → stepsLeft s' + sched.length = stepsLeft s := by
  intro sched
  induction sched with
  | nil =>
    intro s s' h
    simp only [run, Option.some.injEq] at h
    subst h
    rfl
  | cons a rest ih =>
    intro s s' h
    rw [run] at h
    cases hs : step C s a with
    | none => rw [hs] at h; cases h
    | some s1 =>
      rw [hs] at h
      have h1 := ih s1 s' h
      have h2 := stepsLeft_step C s s1 a hs
      simp only [List.length_cons]
      omega

theorem run_append {α : Type} (next : State α → Action → Option (State α)) :
    ∀ (sched rest : List Action) (s s1 : State α), run next s sched = some s1 →
      run next s (sched ++ rest) = run next s1 rest := by
  intro sched
  induction sched with
  | nil =>
    intro rest s s1 h
    simp only [run, Option.some.injEq] at h
    subst h
    rfl
  | cons a sched ih =>
    intro rest s s1 h
    rw [run] at h
    rw [List.cons_append, run]
    cases hs : next s a with
    | none => rw [hs] at h; cases h
    | some s2 =>
      rw [hs] at h
      exact ih rest s2 s1 h

/-- With room for at least one worker, a state in which the loop has not returned has a
goroutine that can move: nothing is ever stuck. -/
theorem progress {α : Type} (C : Nat) (hC : 1 ≤ C) (items : List α) (s : State α)
    (hinv : Inv C items s) (hmain : s.main ≠ .returned) :
    ∃ a s', step C s a = some s' := by
  obtain ⟨todo, main, sem, wg, workers⟩ := s
  obtain ⟨_, h2, h3, h4, _, _⟩ := hinv
  simp only [] at h2 h3 h4 hmain
  -- a worker that holds a slot, or has not ended, can move
  have hworker : ∀ i x ph, workers.get? i = some (x, ph) → ph ≠ Phase.done →
      (ph = Phase.releasing → sem > 0) → (ph = Phase.finishing → wg > 0) →
      ∃ a s', step C ⟨todo, main, sem, wg, workers⟩ a = some s' := by
    intro i x ph hg hnd hsem hwg
    refine ⟨Action.worker i, ?_⟩
    simp only [step, hg]
    cases ph with
    | running => exact ⟨_, rfl⟩
    | releasing => simp only []; rw [if_pos (hsem rfl)]; exact ⟨_, rfl⟩
    | finishing => simp only []; rw [if_pos (hwg rfl)]; exact ⟨_, rfl⟩
    | done => exact absurd rfl hnd
  have hsemge : ∀ i x ph, workers.get? i = some (x, ph) → 0 < ph.holds →
      0 < (workers.map (fun w : α × Phase => w.2.holds)).sum := by
    intro i x ph hg hpos
    have := sum_map_set (fun w : α × Phase => w.2.holds) workers i (x, ph) (x, Phase.done) hg
    simp only [show Phase.done.holds = 0 from rfl] at this
    omega
  have hwgge : ∀ i x ph, workers.get? i = some (x, ph) → 0 < ph.alive →
      0 < (workers.map (fun w : α × Phase => w.2.alive)).sum := by
    intro i x ph hg hpos
    have := sum_map_set (fun w : α × Phase => w.2.alive) workers i (x, ph) (x, Phase.done) hg
    simp only [show Phase.done.alive = 0 from rfl] at this
    omega
  cases main with
  | loop =>
    refine ⟨Action.main, ?_⟩
    cases todo with
    | nil => exact ⟨_, rfl⟩
    | cons x rest => exact ⟨_, rfl⟩
  | added x =>
    by_cases hc : sem < C
    · refine ⟨Action.main, ?_⟩
      simp only [step]
      rw [if_pos hc]
      exact ⟨_, rfl⟩
    · have hpos : 0 < (workers.map (fun w : α × Phase => w.2.holds)).sum := by
        simp only [Main.slot] at h2
        omega
      obtain ⟨i, ⟨x', ph⟩, hg, hh⟩ := exists_of_sum_pos _ workers hpos
      simp only [] at hh
      apply hworker i x' ph hg
      · intro e; rw [e] at hh; exact absurd hh (by decide)
      · intro _; omega
      · intro e; rw [e] at hh; exact absurd hh (by decide)
  | acquired x => exact ⟨Action.main, _, rfl⟩
  | wait =>
    by_cases hw : wg = 0
    · refine ⟨Action.main, ?_⟩
      simp only [step]
      rw [if_pos hw]
      exact ⟨_, rfl⟩
    · have hpos : 0 < (workers.map (fun w : α × Phase => w.2.alive)).sum := by
        simp only [pending, List.length_nil] at h4
        omega
      obtain ⟨i, ⟨x', ph⟩, hg, hh⟩ := exists_of_sum_pos _ workers hpos
      simp only [] at hh
      apply hworker i x' ph hg
      · intro e; rw [e] at hh; exact absurd hh (by decide)
      · intro e
        have := hsemge i x' ph hg (by rw [e]; decide)
        omega
      · intro _; omega
  | returned => exact absurd rfl hmain

/-- From every state of the fan-out the loop can be brought to return. -/
theorem completes {α : Type} (C : Nat) (hC : 1 ≤ C) (items : List α) : ∀ (n : Nat)
    (s : State α), Inv C items s → stepsLeft s ≤ n →
      ∃ rest s', run (step C) s rest = some s' ∧ s'.main = .returned := by
  intro n
  induction n with
  | zero =>
    intro s hinv hn
    by_cases hm : s.main = .returned
    · exact ⟨[], s, rfl, hm⟩
    · obtain ⟨a, s1, hs⟩ := progress C hC items s hinv hm
      have := stepsLeft_step C s s1 a hs
      omega
  | succ n ih =>
    intro s hinv hn
    by_cases hm : s.main = .returned
    · exact ⟨[], s, rfl, hm⟩
    · obtain ⟨a, s1, hs⟩ := progress C hC items s hinv hm
      have hdec := stepsLeft_step C s s1 a hs
      obtain ⟨rest, s', hrun, hret⟩ := ih s1 (inv_step C items s s1 a hinv hs) (by omega)
      refine ⟨a :: rest, s', ?_, hret⟩
      rw [run, hs]
      exact hrun

/-- Workers that have all ended, started for the items in their order. -/
theorem workers_done {α : Type} : ∀ (workers : List (α × Phase)) (items : List α),
    workers.map Prod.fst = items → (∀ w ∈ workers, w.2 = Phase.done) →
      workers = items.map (fun x => (x, Phase.done)) := by
  intro workers
  induction workers with
  | nil =>
    intro items h _
    simp only [List.map_nil] at h
    subst h
    rfl
  | cons w workers ih =>
    intro items h hall
    cases items with
    | nil => simp at h
    | cons x items =>
      simp only [List.map_cons, List.cons.injEq] at h
      obtain ⟨x', ph⟩ := w
      have hph : ph = Phase.done := hall (x', ph) (List.mem_cons_self _ _)
      have hx : x' = x := h.1
      subst hph hx
      rw [List.map_cons, ← ih items h.2 (fun w hw => hall w (List.mem_cons_of_mem _ hw))]

/-- The fan-out with a semaphore, for every capacity `C ≥ 1`, every list of items and
every interleaving: at most `C` workers are in flight in every state reached; the workers
started are those of the items the loop has passed, one each, in order; once
`wg.Wait()` has returned, one worker has been started for each item and each has ended;
no interleaving has more than `6·n + 2` steps, and every one can be continued until the
loop returns. -/
theorem fanout_spec {α : Type} (C : Nat) (hC : 1 ≤ C) (items : List α)
    (sched : List Action) (s : State α) (h : run (step C) (init items) sched = some s) :
    inFlight s ≤ C
      ∧ s.workers.map Prod.fst ++ pending s.main ++ s.todo = items
      ∧ (s.main = .returned → s.workers = items.map (fun x => (x, Phase.done)))
      ∧ sched.length ≤ 6 * items.length + 2
      ∧ ∃ rest s', run (step C) s rest = some s' ∧ s'.main = .returned := by
  have hinv := inv_run C items sched (init items) s (inv_init C items) h
  have hsteps := stepsLeft_run C sched (init items) s h
  obtain ⟨h1, h2, h3, h4, h5, h6⟩ := hinv
  refine ⟨?_, h1, ?_, ?_, ?_⟩
  · have hle : inFlight s ≤ (s.workers.map (fun w => w.2.holds)).sum := by
      unfold inFlight
      apply countP_le_sum
      intro a ha
      have : a.2 = Phase.running := by simpa using ha
      rw [this]
      exact Nat.le_refl 1
    omega
  · intro hret
    have hwg := h6 hret
    have htodo := h5 (Or.inr hret)
    rw [hret, htodo] at h1
    simp only [pending, List.append_nil] at h1
    rw [hret] at h4
    simp only [pending, List.length_nil] at h4
    apply workers_done s.workers items h1
    intro w hw
    have hz := all_zero_of_sum_zero (fun w : α × Phase => w.2.alive) s.workers (by omega) w hw
    simp only [] at hz
    cases hph : w.2 with
    | done => rfl
    | running => rw [hph] at hz; cases hz
    | releasing => rw [hph] at hz; cases hz
    | finishing => rw [hph] at hz; cases hz
  · have : stepsLeft (init items) = 6 * items.length + 2 := by
      simp [stepsLeft, init, Main.left]
    omega
  · exact completes C hC items (stepsLeft s) s ⟨h1, h2, h3, h4, h5, h6⟩ (Nat.le_refl _)

/-- With capacity 0 the loop never starts a worker: the first send on the channel
blocks for ever. -/
theorem zero_capacity_blocks {α : Type} (x : α) (rest : List α) :
    run (step 0) (init (x :: rest)) [Action.main, Action.main] = none := by
  rfl

end dispatch

namespace cors

/-- C22 fails in `scanTarget`: its loop over the origin payloads has no semaphore. For
the target `https://test` it starts nine workers, and after the eighteen steps of the
loop (`wg.Add(1)` and `go`, nine times) all nine are in flight at once, whatever the
configured ceiling: more than `C` for every `C` below 9. -/
theorem scanTarget_exceeds_ceiling :
    ∃ s, dispatch.run dispatch.stepPlain
          (dispatch.init (generatePayloads { origin := str "https://evil.com", deepScan := false }
            (str "https://test") (.ok (str "test"))))
          (List.replicate 18 dispatch.Action.main) = some s
      ∧ dispatch.inFlight s = 9 ∧ ¬ dispatch.inFlight s ≤ 1 :=
  ⟨_, rfl, by decide, by decide⟩

end cors

/-! ## The result sink -/

namespace output

/-- C23: for every state of the printer and every record `r`, `Printer.Result` leaves the
stored records as they were and stores `r` after them: the number of stored results grows
by exactly one (so it never decreases), and `GetResults` returns the records in the order
they were appended. -/
theorem Result_appends (marshal : common.ScanResult → Bytes) (p : Printer)
    (r : common.ScanResult) :
    (p.Result marshal r).1.results = p.results ++ [r]
      ∧ (p.Result marshal r).1.GetResults = p.GetResults ++ [r]
      ∧ (p.Result marshal r).1.GetResults.length = p.GetResults.length + 1
      ∧ p.GetResults.length ≤ (p.Result marshal r).1.GetResults.length
      ∧ ∀ rs : List common.ScanResult,
          (rs.foldl (fun q x => (q.Result marshal x).1) p).GetResults = p.GetResults ++ rs := by
  have h1 : ∀ (q : Printer) (x : common.ScanResult),
      (q.Result marshal x).1.results = q.results ++ [x] := by
    intro q x
    unfold Printer.Result
    cases hf : q.outFile with
    | none => simp only [hf]
    | some written =>
      simp only [hf]
      by_cases hj : q.jsonMode = true
      · simp [hj]
      · simp [hj]
  have h2 : ∀ (rs : List common.ScanResult) (q : Printer),
      (rs.foldl (fun q x => (q.Result marshal x).1) q).results = q.results ++ rs := by
    intro rs
    induction rs with
    | nil => intro q; simp
    | cons x rs ih =>
      intro q
      rw [List.foldl_cons, ih, h1, List.append_assoc]
      rfl
  refine ⟨h1 p r, ?_, ?_, ?_, ?_⟩
  · simp [Printer.GetResults, h1]
  · simp [Printer.GetResults, h1]
  · simp [Printer.GetResults, h1]
  · intro rs
    simp [Printer.GetResults, h2]

end output

/-! ## Configuration -/

/-- A fold whose step leaves `g` of the accumulator alone leaves it alone. -/
theorem foldl_preserves {α β γ : Type} (g : β → γ) (step : β → α → β)
    (h : ∀ acc x, g (step acc x) = g acc) : ∀ (l : List α) (init : β),
    g (l.foldl step init) = g init := by
  intro l
  induction l with
  | nil => intro init; rfl
  | cons x l ih => intro init; rw [List.foldl_cons, ih, h]

namespace cmd

theorem setProxy_core (f : Flags) (env : Env) (cfg cfg' : common.Config)
    (h : setProxy f env cfg = .ok cfg') : core cfg' = core cfg := by
  unfold setProxy at h
  by_cases hx : f.x ≠ str ""
  · rw [if_pos hx] at h
    cases hp : env.proxy with
    | error err => rw [hp] at h; cases h
    | ok p => rw [hp] at h; cases h; rfl
  · rw [if_neg hx] at h
    cases h; rfl

theorem setHeaders_core (f : Flags) (cfg : common.Config) :
    core (setHeaders f cfg) = core cfg := by
  unfold setHeaders
  apply foldl_preserves
  intro acc x
  simp only []
  split <;> rfl

theorem addURL_core (cfg : common.Config) : core (addURL cfg) = core cfg := by
  unfold addURL
  split <;> rfl

theorem addListFile_core (f : Flags) (env : Env) (cfg cfg' : common.Config)
    (h : addListFile f env cfg = .ok cfg') : core cfg' = core cfg := by
  unfold addListFile at h
  by_cases hl : f.l ≠ str ""
  · rw [if_pos hl] at h
    cases hr : utils.ReadLines env.listFile with
    | error err => rw [hr] at h; cases h
    | ok lines =>
      rw [hr] at h
      cases h
      apply foldl_preserves
      intro acc x
      rfl
  · rw [if_neg hl] at h
    cases h; rfl

theorem addStdin_core (env : Env) (cfg : common.Config) :
    core (addStdin env cfg) = core cfg := by
  unfold addStdin
  split <;> rfl

theorem setRandomAgent_core (env : Env) (cfg : common.Config) :
    core (setRandomAgent env cfg) = core cfg := by
  unfold setRandomAgent
  split <;> rfl

/-- What `parseGlobalFlags` leaves in the three fields: the value of `-c`, the default
retry count, and the seconds of `-t` as a `Duration`. -/
theorem parseGlobalFlags_core (f : Flags) (env : Env) (cfg : common.Config)
    (h : parseGlobalFlags f env = .ok cfg) :
    core cfg = (f.c, 1, int64 (f.t * time.Second)) := by
  unfold parseGlobalFlags at h
  cases h1 : setProxy f env (flagConfig f) with
  | error err => rw [h1] at h; cases h
  | ok cfg1 =>
    rw [h1] at h
    simp only [] at h
    cases h2 : addListFile f env (addURL (setHeaders f cfg1)) with
    | error err => rw [h2] at h; cases h
    | ok cfg2 =>
      rw [h2] at h
      cases h
      rw [setRandomAgent_core, addStdin_core, addListFile_core f env _ _ h2, addURL_core,
        setHeaders_core, setProxy_core f env _ _ h1]
      rfl

/-- What the code does guarantee of a configuration: `DefaultConfig()` has `C ≥ 1`,
`R ≥ 1` and timeout > 0; the result of `parseGlobalFlags` has `R = 1`, the value of `-c`
as `C`, unchecked, and the seconds of `-t` converted to a `Duration`; so it has `C ≥ 1`,
`R ≥ 1` and timeout > 0 when the value of `-c` is at least 1 and the value of `-t` is
between 1 and 9223372036, the most seconds a `Duration` holds. -/
theorem config_invariant (f : Flags) (env : Env) (cfg : common.Config)
    (h : parseGlobalFlags f env = .ok cfg) :
    (common.DefaultConfig.Concurrency ≥ 1 ∧ common.DefaultConfig.Retries ≥ 1
        ∧ common.DefaultConfig.Timeout > 0)
      ∧ cfg.Retries = 1 ∧ cfg.Concurrency = f.c ∧ cfg.Timeout = int64 (f.t * time.Second)
      ∧ (1 ≤ f.c → 1 ≤ f.t → f.t ≤ 9223372036 →
          cfg.Concurrency ≥ 1 ∧ cfg.Retries ≥ 1 ∧ cfg.Timeout > 0) := by
  have hcore := parseGlobalFlags_core f env cfg h
  unfold core at hcore
  simp only [Prod.mk.injEq] at hcore
  obtain ⟨hc, hr, ht⟩ := hcore
  refine ⟨by decide, hr, hc, ht, ?_⟩
  intro h1 h2 h3
  refine ⟨by omega, by omega, ?_⟩
  rw [ht]
  unfold int64 time.Second
  have e63 : (2 : Int) ^ 63 = 9223372036854775808 := by norm_num
  have e64 : (2 : Int) ^ 64 = 18446744073709551616 := by norm_num
  rw [e63, e64]
  have hlo : (0 : Int) ≤ f.t * 1000000000 + 9223372036854775808 := by omega
  have hhi : f.t * 1000000000 + 9223372036854775808 < 18446744073709551616 := by omega
  rw [Int.emod_eq_of_lt hlo hhi]
  omega

theorem config_invariant_witness :
    ∃ cfg, parseGlobalFlags { defaultFlags with u := str "https://test", c := 20, t := 5 }
        { proxy := .error [], listFile := .error [], hasStdin := false, stdin := [],
          randomUserAgent := [] } = .ok cfg
      ∧ (cfg.Concurrency ≥ 1 ∧ cfg.Retries ≥ 1 ∧ cfg.Timeout > 0) :=
  ⟨_, rfl,
    (config_invariant { defaultFlags with u := str "https://test", c := 20, t := 5 }
      { proxy := .error [], listFile := .error [], hasStdin := false, stdin := [],
        randomUserAgent := [] } _ rfl).2.2.2.2 (by decide) (by decide) (by decide)⟩

/-- C24 fails for `-c 0`, an integer the flag parser accepts: the configuration handed
to the engines then has concurrency 0, not `C ≥ 1`, and a fan-out over its targets with
a semaphore of that capacity blocks at its first send, before any worker is started. -/
theorem zero_concurrency_accepted :
    ∃ cfg, parseGlobalFlags { defaultFlags with u := str "https://test", c := 0 }
        { proxy := .error [], listFile := .error [], hasStdin := false, stdin := [],
          randomUserAgent := [] } = .ok cfg
      ∧ cfg.Concurrency = 0
      ∧ ¬ (cfg.Concurrency ≥ 1 ∧ cfg.Retries ≥ 1 ∧ cfg.Timeout > 0)
      ∧ cfg.URLs = [str "https://test"]
      ∧ dispatch.run (dispatch.step cfg.Concurrency.toNat) (dispatch.init cfg.URLs)
          [dispatch.Action.main, dispatch.Action.main] = none :=
  ⟨_, rfl, by decide, by decide, by decide, by decide⟩

end cmd

/-! ## Strings of white space -/

namespace strings

/-- What `stripLeading` takes off is a sequence of the byte strings it strips. -/
theorem stripLeading_decomp (encs : List Bytes) : ∀ (fuel : Nat) (s : Bytes),
    ∃ l : List Bytes, (∀ e ∈ l, e ∈ encs) ∧ s = l.flatten ++ stripLeading encs fuel s := by
  intro fuel
  induction fuel with
  | zero => intro s; exact ⟨[], by simp, by simp [stripLeading]⟩
  | succ n ih =>
    intro s
    rw [stripLeading]
    cases hfind : encs.find? (fun e => e.isPrefixOf s) with
    | none => exact ⟨[], by simp, by simp⟩
    | some e =>
      simp only []
      have he : e ∈ encs := List.mem_of_find?_eq_some hfind
      have hp : e <+: s := by
        have := List.find?_some hfind
        exact List.isPrefixOf_iff_prefix.mp this
      obtain ⟨l, hl, hs⟩ := ih (s.drop e.length)
      refine ⟨e :: l, ?_, ?_⟩
      · intro x hx
        rcases List.mem_cons.mp hx with h | h
        · rw [h]; exact he
        · exact hl x h
      · obtain ⟨t, ht⟩ := hp
        have hdrop : s.drop e.length = t := by rw [← ht]; simp
        rw [List.flatten_cons, List.append_assoc, ← hs, hdrop, ht]

/-- A sequence of byte strings of a prefix-free set is stripped whole. -/
theorem stripLeading_flatten (encs : List Bytes) (hne : ∀ e ∈ encs, e ≠ [])
    (hpf : ∀ e1 ∈ encs, ∀ e2 ∈ encs, e1 <+: e2 → e1 = e2) : ∀ (l : List Bytes) (fuel : Nat),
    (∀ e ∈ l, e ∈ encs) → l.length ≤ fuel → stripLeading encs fuel l.flatten = [] := by
  intro l
  induction l with
  | nil =>
    intro fuel _ _
    cases fuel with
    | zero => rfl
    | succ n =>
      rw [stripLeading]
      cases hfind : encs.find? (fun e => e.isPrefixOf ([] : List Bytes).flatten) with
      | none => rfl
      | some e =>
        exfalso
        have he : e ∈ encs := List.mem_of_find?_eq_some hfind
        have hp : e <+: [] := by
          have := List.find?_some hfind
          exact List.isPrefixOf_iff_prefix.mp this
        exact hne e he (List.prefix_nil.mp hp)
  | cons e l ih =>
    intro fuel hl hfuel
    have he : e ∈ encs := hl e (List.mem_cons_self _ _)
    cases fuel with
    | zero => simp at hfuel
    | succ n =>
      rw [stripLeading]
      have hpe : e <+: (e :: l).flatten := by
        rw [List.flatten_cons]; exact List.prefix_append _ _
      cases hfind : encs.find? (fun x => x.isPrefixOf (e :: l).flatten) with
      | none =>
        exfalso
        rw [List.find?_eq_none] at hfind
        exact hfind e he (List.isPrefixOf_iff_prefix.mpr hpe)
      | some e' =>
        simp only []
        have he' : e' ∈ encs := List.mem_of_find?_eq_some hfind
        have hp' : e' <+: (e :: l).flatten := by
          have := List.find?_some hfind
          exact List.isPrefixOf_iff_prefix.mp this
        have heq : e' = e := by
          rcases List.prefix_or_prefix_of_prefix hp' hpe with h | h
          · exact hpf e' he' e he h
          · exact (hpf e he e' he' h).symm
        rw [heq, List.flatten_cons, List.drop_left]
        exact ih n (fun x hx => hl x (List.mem_cons_of_mem _ hx)) (by simpa using hfuel)

theorem length_le_flatten (encs : List Bytes) (hne : ∀ e ∈ encs, e ≠ []) :
    ∀ l : List Bytes, (∀ e ∈ l, e ∈ encs) → l.length ≤ l.flatten.length := by
  intro l
  induction l with
  | nil => intro _; simp
  | cons e l ih =>
    intro hl
    have hpos : 0 < e.length := List.length_pos.mpr (hne e (hl e (List.mem_cons_self _ _)))
    have := ih (fun x hx => hl x (List.mem_cons_of_mem _ hx))
    simp only [List.flatten_cons, List.length_append, List.length_cons]
    omega

/-- `TrimSpace` leaves nothing exactly of the strings that are all white space. -/
theorem TrimSpace_eq_nil_iff (s : Bytes) : TrimSpace s = [] ↔ allSpace s := by
  have hne : ∀ e ∈ spaceEncodings, e ≠ [] := by decide
  have hpf : ∀ e1 ∈ spaceEncodings, ∀ e2 ∈ spaceEncodings, e1 <+: e2 → e1 = e2 := by
    intro e1 h1 e2 h2 hp
    have hdec : ∀ e1 ∈ spaceEncodings, ∀ e2 ∈ spaceEncodings,
        e1.isPrefixOf e2 = true → e1 = e2 := by decide
    exact hdec e1 h1 e2 h2 (List.isPrefixOf_iff_prefix.mpr hp)
  constructor
  · intro h
    obtain ⟨l1, hl1, hs1⟩ := stripLeading_decomp spaceEncodings s.length s
    obtain ⟨l2, hl2, hs2⟩ := stripLeading_decomp (spaceEncodings.map List.reverse)
      (TrimLeftSpace s).length (TrimLeftSpace s).reverse
    have hz : stripLeading (spaceEncodings.map List.reverse) (TrimLeftSpace s).length
        (TrimLeftSpace s).reverse = [] := by
      have := congrArg List.reverse h
      simpa [TrimSpace, TrimRightSpace] using this
    rw [hz, List.append_nil] at hs2
    have ht : TrimLeftSpace s = ((l2.map List.reverse).reverse).flatten := by
      have := congrArg List.reverse hs2
      rw [List.reverse_reverse, List.reverse_flatten] at this
      exact this
    refine ⟨l1 ++ (l2.map List.reverse).reverse, ?_, ?_⟩
    · intro e he
      rcases List.mem_append.mp he with h1 | h2
      · exact hl1 e h1
      · rw [List.mem_reverse, List.mem_map] at h2
        obtain ⟨x, hx, rfl⟩ := h2
        obtain ⟨y, hy, rfl⟩ := List.mem_map.mp (hl2 x hx)
        rw [List.reverse_reverse]
        exact hy
    · rw [List.flatten_append, ← ht]
      exact hs1
  · rintro ⟨l, hl, rfl⟩
    have hleft : TrimLeftSpace l.flatten = [] :=
      stripLeading_flatten spaceEncodings hne hpf l _ hl
        (length_le_flatten spaceEncodings hne l hl)
    unfold TrimSpace
    rw [hleft]
    rfl

end strings

/-! ## Target normalisation -/

namespace utils

/-- `NormalizeURL` on its own: for every input string that is not all white space it
returns the input trimmed of white space unchanged when that starts with `http://` or
`https://`, and `https://` followed by the trimmed input otherwise, so the result carries
an explicit scheme; for an input that is all white space it returns the empty string. -/
theorem NormalizeURL_spec (rawURL : Bytes) :
    (¬ strings.allSpace rawURL →
      NormalizeURL rawURL =
          (if strings.HasPrefix (strings.TrimSpace rawURL) (str "http://") = true
              ∨ strings.HasPrefix (strings.TrimSpace rawURL) (str "https://") = true
           then strings.TrimSpace rawURL
           else str "https://" ++ strings.TrimSpace rawURL)
        ∧ (strings.HasPrefix (NormalizeURL rawURL) (str "http://") = true
            ∨ strings.HasPrefix (NormalizeURL rawURL) (str "https://") = true))
      ∧ (strings.allSpace rawURL → NormalizeURL rawURL = []) := by
  have hnil : str "" = [] := rfl
  rw [← strings.TrimSpace_eq_nil_iff]
  constructor
  · intro ht
    have hne : ¬ strings.TrimSpace rawURL = str "" := by rw [hnil]; exact ht
    by_cases h1 : strings.HasPrefix (strings.TrimSpace rawURL) (str "http://") = true
    · have e : NormalizeURL rawURL = strings.TrimSpace rawURL := by
        simp [NormalizeURL, hne, h1]
      rw [e, if_pos (Or.inl h1)]
      exact ⟨rfl, Or.inl h1⟩
    · by_cases h2 : strings.HasPrefix (strings.TrimSpace rawURL) (str "https://") = true
      · have e : NormalizeURL rawURL = strings.TrimSpace rawURL := by
          simp [NormalizeURL, hne, h2]
        rw [e, if_pos (Or.inr h2)]
        exact ⟨rfl, Or.inr h2⟩
      · have e : NormalizeURL rawURL = str "https://" ++ strings.TrimSpace rawURL := by
          simp [NormalizeURL, hne, h1, h2]
        rw [e, if_neg (by simp [h1, h2])]
        refine ⟨rfl, Or.inr ?_⟩
        unfold strings.HasPrefix
        exact List.isPrefixOf_iff_prefix.mpr (List.prefix_append _ _)
  · intro ht
    simp [NormalizeURL, ht, hnil]

theorem NormalizeURL_spec_witness :
    ¬ strings.allSpace (str " example.com/admin\n")
      ∧ NormalizeURL (str " example.com/admin\n") = str "https://example.com/admin" := by
  have hns : ¬ strings.allSpace (str " example.com/admin\n") := fun h =>
    (by decide : strings.TrimSpace (str " example.com/admin\n") ≠ [])
      ((strings.TrimSpace_eq_nil_iff _).mpr h)
  have h := (NormalizeURL_spec (str " example.com/admin\n")).1 hns
  exact ⟨hns, h.1.trans (by decide)⟩

end utils

namespace cmd

/-- C25 fails for the target of `-u`: `parseGlobalFlags` tests `cfg.URL != ""` on the
untrimmed value, so for `-u " "`, which is all white space, it appends what
`NormalizeURL` returns, the empty string, to the target list: a target without a
scheme. -/
theorem blank_target_kept :
    ∃ cfg, parseGlobalFlags { defaultFlags with u := str " " }
        { proxy := .error [], listFile := .error [], hasStdin := false, stdin := [],
          randomUserAgent := [] } = .ok cfg
      ∧ utils.NormalizeURL (str " ") = str ""
      ∧ cfg.URLs = [str ""]
      ∧ ¬ ∀ target ∈ cfg.URLs, strings.HasPrefix target (str "http://") = true
            ∨ strings.HasPrefix target (str "https://") = true :=
  ⟨_, rfl, by decide, by decide, by decide⟩

end cmd

/-! ## The targets of the list file and of standard input -/

namespace strings

theorem stripLeading_noop (encs : List Bytes) : ∀ (fuel : Nat) (s : Bytes),
    (∀ e ∈ encs, ¬ e <+: s) → stripLeading encs fuel s = s := by
  intro fuel s h
  cases fuel with
  | zero => rfl
  | succ n =>
    rw [stripLeading]
    cases hfind : encs.find? (fun e => e.isPrefixOf s) with
    | none => rfl
    | some e =>
      exfalso
      have he : e ∈ encs := List.mem_of_find?_eq_some hfind
      have hp : e <+: s := by
        have := List.find?_some hfind
        exact List.isPrefixOf_iff_prefix.mp this
      exact h e he hp

/-- Trimming a trimmed string changes nothing. -/
theorem TrimSpace_idem (s : Bytes) : TrimSpace (TrimSpace s) = TrimSpace s := by
  have ht := TrimSpace_trimmed s
  have hleft : TrimLeftSpace (TrimSpace s) = TrimSpace s :=
    stripLeading_noop spaceEncodings _ _ (fun e he => (ht e he).1)
  have hright : TrimRightSpace (TrimSpace s) = TrimSpace s := by
    unfold TrimRightSpace
    rw [stripLeading_noop, List.reverse_reverse]
    intro e' he'
    obtain ⟨e, he, rfl⟩ := List.mem_map.mp he'
    intro hp
    exact (ht e he).2 (List.reverse_prefix.mp hp)
  show TrimRightSpace (TrimLeftSpace (TrimSpace s)) = TrimSpace s
  rw [hleft, hright]

end strings

namespace utils

/-- The scheme test of the target list. -/
theorem NormalizeURL_scheme (rawURL : Bytes) (h : strings.TrimSpace rawURL ≠ []) :
    strings.HasPrefix (NormalizeURL rawURL) (str "http://") = true
      ∨ strings.HasPrefix (NormalizeURL rawURL) (str "https://") = true :=
  ((NormalizeURL_spec rawURL).1
    (fun ha => h ((strings.TrimSpace_eq_nil_iff rawURL).mpr ha))).2

end utils

namespace cmd

/-- The targets `parseGlobalFlags` takes from the list file and from standard input all
carry a scheme, these paths testing the trimmed line for emptiness; so does the target of
`-u` unless it is white space only. -/
theorem targets_carry_scheme (f : Flags) (env : Env) (cfg : common.Config)
    (h : parseGlobalFlags f env = .ok cfg) (hu : f.u = [] ∨ strings.TrimSpace f.u ≠ []) :
    ∀ target ∈ cfg.URLs, strings.HasPrefix target (str "http://") = true
      ∨ strings.HasPrefix target (str "https://") = true := by
  have hnil : str "" = [] := rfl
  -- the property, and the two fields the steps read
  have hproxy : ∀ c c', setProxy f env c = .ok c' → c'.URLs = c.URLs ∧ c'.URL = c.URL := by
    intro c c' hc
    unfold setProxy at hc
    by_cases hx : f.x ≠ str ""
    · rw [if_pos hx] at hc
      cases hp : env.proxy with
      | error err => rw [hp] at hc; cases hc
      | ok p => rw [hp] at hc; cases hc; exact ⟨rfl, rfl⟩
    · rw [if_neg hx] at hc
      cases hc; exact ⟨rfl, rfl⟩
  have hheaders : ∀ c, (setHeaders f c).URLs = c.URLs ∧ (setHeaders f c).URL = c.URL := by
    intro c
    constructor
    · unfold setHeaders
      apply foldl_preserves (fun c : common.Config => c.URLs)
      intro acc x
      simp only []
      split <;> rfl
    · unfold setHeaders
      apply foldl_preserves (fun c : common.Config => c.URL)
      intro acc x
      simp only []
      split <;> rfl
  unfold parseGlobalFlags at h
  cases h1 : setProxy f env (flagConfig f) with
  | error err => rw [h1] at h; cases h
  | ok cfg1 =>
    rw [h1] at h
    simp only [] at h
    cases h2 : addListFile f env (addURL (setHeaders f cfg1)) with
    | error err => rw [h2] at h; cases h
    | ok cfg2 =>
      rw [h2] at h
      cases h
      obtain ⟨e1, e1'⟩ := hproxy _ _ h1
      obtain ⟨e2, e2'⟩ := hheaders cfg1
      have hURLs0 : (setHeaders f cfg1).URLs = [] := by rw [e2, e1]; rfl
      have hURL0 : (setHeaders f cfg1).URL = f.u := by rw [e2', e1']; rfl
      -- after `-u`
      have hA : ∀ target ∈ (addURL (setHeaders f cfg1)).URLs,
          strings.HasPrefix target (str "http://") = true
            ∨ strings.HasPrefix target (str "https://") = true := by
        intro target ht
        unfold addURL at ht
        by_cases hne : (setHeaders f cfg1).URL ≠ str ""
        · rw [if_pos hne] at ht
          simp only [hURLs0, List.nil_append, List.mem_singleton] at ht
          rw [ht, hURL0]
          rcases hu with hu | hu
          · rw [hURL0, hnil] at hne; exact absurd hu hne
          · exact utils.NormalizeURL_scheme _ hu
        · rw [if_neg hne, hURLs0] at ht
          cases ht
      -- after the list file
      have hB : ∀ target ∈ cfg2.URLs,
          strings.HasPrefix target (str "http://") = true
            ∨ strings.HasPrefix target (str "https://") = true := by
        unfold addListFile at h2
        by_cases hl : f.l ≠ str ""
        · rw [if_pos hl] at h2
          cases hr : utils.ReadLines env.listFile with
          | error err => rw [hr] at h2; cases h2
          | ok lines =>
            rw [hr] at h2
            cases h2
            have hlines : ∀ line ∈ lines, strings.TrimSpace line ≠ [] := by
              unfold utils.ReadLines at hr
              cases hfile : env.listFile with
              | error err => rw [hfile] at hr; cases hr
              | ok texts =>
                rw [hfile] at hr
                simp only [Except.ok.injEq] at hr
                rw [foldl_option_append (fun text =>
                  if strings.TrimSpace text ≠ str ""
                      ∧ (!strings.HasPrefix (strings.TrimSpace text) (str "#")) = true
                  then some (strings.TrimSpace text) else none)] at hr
                · intro line hline
                  rw [← hr, List.nil_append, List.mem_filterMap] at hline
                  obtain ⟨text, _, htext⟩ := hline
                  split at htext
                  · rename_i hcond
                    cases htext
                    rw [strings.TrimSpace_idem]
                    exact hcond.1
                  · cases htext
                · intro acc x
                  split <;> simp_all
            have hfold : ∀ (ls : List Bytes) (c : common.Config),
                (ls.foldl (fun cfg line =>
                  { cfg with URLs := cfg.URLs ++ [utils.NormalizeURL line] }) c).URLs
                  = c.URLs ++ ls.map utils.NormalizeURL := by
              intro ls
              induction ls with
              | nil => intro c; simp
              | cons a ls ih => intro c; rw [List.foldl_cons, ih]; simp
            intro target ht
            rw [hfold, List.mem_append] at ht
            rcases ht with ht | ht
            · exact hA target ht
            · obtain ⟨line, hline, rfl⟩ := List.mem_map.mp ht
              exact utils.NormalizeURL_scheme _ (hlines line hline)
        · rw [if_neg hl] at h2
          cases h2
          exact hA
      -- after standard input and the random agent
      intro target ht
      have hrand : (setRandomAgent env (addStdin env cfg2)).URLs = (addStdin env cfg2).URLs := by
        unfold setRandomAgent
        split <;> rfl
      rw [hrand] at ht
      unfold addStdin at ht
      by_cases hs : env.hasStdin = true ∧ cfg2.URLs.length = 0
      · rw [if_pos hs] at ht
        simp only [] at ht
        unfold utils.ReadURLsFromStdin at ht
        rw [foldl_option_append (fun text =>
          if strings.TrimSpace text ≠ str "" then
            some (utils.NormalizeURL (strings.TrimSpace text)) else none)] at ht
        · rw [List.nil_append, List.mem_filterMap] at ht
          obtain ⟨text, _, htext⟩ := ht
          split at htext
          · rename_i hcond
            cases htext
            apply utils.NormalizeURL_scheme
            rw [strings.TrimSpace_idem]
            exact hcond
          · cases htext
        · intro acc x
          split <;> simp_all
      · rw [if_neg hs] at ht
        exact hB target ht

end cmd

/-! ## The bypass engine: double encoding -/

theorem hexUpper_two_digits (c : Nat) (h1 : 16 ≤ c) (h2 : c < 256) :
    hexUpper c = [url.upperhex (c / 16), url.upperhex (c % 16)] := by
  unfold hexUpper
  rw [if_neg (by omega)]
  rw [Nat.digits_def' (by norm_num) (by omega), Nat.digits_def' (by norm_num) (by omega)]
  have h0 : c / 16 / 16 = 0 := by omega
  have hq : c / 16 % 16 = c / 16 := by omega
  rw [h0, hq]
  simp [url.upperhex]

theorem hexUpper_one_digit (c : Nat) (h1 : 0 < c) (h2 : c < 16) :
    hexUpper c = [url.upperhex c] := by
  unfold hexUpper
  rw [if_neg (by omega)]
  rw [Nat.digits_def' (by norm_num) (by omega)]
  have h0 : c / 16 = 0 := by omega
  have hq : c % 16 = c := by omega
  rw [h0, hq]
  simp [url.upperhex]

namespace bypass

/-- C26 fails on a path with a character outside ASCII: for the target `https://test/é`,
whose path is the bytes `2F C3 A9`, the one probe URL is `https://test/%25E9` followed by
the byte `A9`. The character `é` is replaced by `%25E9`, but only its first byte is taken
out of the path, the second is left behind. -/
theorem doubleEncoding_splits_rune :
    doubleEncodingURLs
        { Scheme := str "https", Host := str "test", Path := str "/é", RawQuery := [] }
      = [str "https://test/%25E9" ++ [0xA9]]
      ∧ str "https://test/%25E9" ++ [0xA9] ≠ str "https://test/%25E9" := by
  have hr : utf8.rangeString (str "/é") = [(0, 0x2F), (1, 0xE9)] := by decide
  have hh : hexUpper 0xE9 = str "E9" := by
    rw [hexUpper_two_digits _ (by norm_num) (by norm_num)]
    decide
  refine ⟨?_, by decide⟩
  unfold doubleEncodingURLs
  simp only []
  rw [if_neg (by decide), hr]
  simp only [List.filterMap_cons, List.filterMap_nil]
  rw [hh]
  decide

end bypass

namespace bypass

/-- On an ASCII string the `range` loop yields every byte with its index. -/
theorem rangeLoop_ascii : ∀ (s : Bytes) (fuel i : Nat),
    s.length ≤ fuel → (∀ b ∈ s, b < 0x80) →
      utf8.rangeLoop fuel i s = (List.range s.length).map (fun k => (i + k, s.getD k 0)) := by
  intro s
  induction s with
  | nil =>
    intro fuel i _ _
    cases fuel <;> simp [utf8.rangeLoop]
  | cons b rest ih =>
    intro fuel i hfuel hascii
    cases fuel with
    | zero => simp at hfuel
    | succ fuel =>
      have hb : b < 0x80 := hascii b (List.mem_cons_self b rest)
      have hrest : ∀ x ∈ rest, x < 0x80 := fun x hx => hascii x (List.mem_cons_of_mem b hx)
      simp only [utf8.rangeLoop, DecodeRune_ascii b rest hb, List.drop_succ_cons,
        List.drop_zero]
      rw [ih fuel (i + 1) (by simpa using hfuel) hrest]
      simp only [List.length_cons, List.range_succ_eq_map, List.map_cons, List.map_map,
        List.getD_cons_zero, Nat.add_zero, List.cons.injEq, true_and]
      apply List.map_congr_left
      intro k _
      simp only [Function.comp, List.getD_cons_succ, Prod.mk.injEq, and_true]
      omega

/-- The double encoding of a byte from `0x10` to `0x7F`: `%25` and its two upper-case
hexadecimal digits. -/
theorem doubleEncoded_ascii (c : Nat) (h1 : 0x10 ≤ c) (h2 : c < 0x80) :
    url.QueryEscape (str "%" ++ hexUpper c)
      = str "%25" ++ [url.upperhex (c / 16), url.upperhex (c % 16)] := by
  rw [hexUpper_two_digits c h1 (by omega)]
  have hd : ∀ d, d < 16 → url.unreserved (url.upperhex d) = true := by decide
  have hhi := hd (c / 16) (by omega)
  have hlo := hd (c % 16) (Nat.mod_lt _ (by norm_num))
  have hp : str "%" = [0x25] := rfl
  rw [hp]
  have h25 : (if url.unreserved 0x25 = true then [0x25]
      else if 0x25 = 0x20 then [0x2B]
      else [0x25, url.upperhex (0x25 / 16), url.upperhex (0x25 % 16)]) = str "%25" := by
    decide
  simp only [url.QueryEscape, List.singleton_append, List.flatMap_cons, List.flatMap_nil,
    hhi, hlo, ↓reduceIte, List.append_nil]
  rw [h25]

/-- On a path of ASCII characters from `0x10` up, the double-encoding probes are as the
specification says: for every index `i` whose character `c` is not `/`, the target with
that one character replaced by `%25` and the two upper-case hexadecimal digits of `c`, the
rest of the path unchanged. -/
theorem doubleEncoding_ascii (u : url.URL) (hne : ¬ (u.Path.length = 0 ∨ u.Path = str "/"))
    (hascii : ∀ b ∈ u.Path, 0x10 ≤ b ∧ b < 0x80) :
    doubleEncodingURLs u = (List.range u.Path.length).filterMap (fun i =>
      if u.Path.getD i 0 = 0x2F then none
      else some (u.Scheme ++ str "://" ++ u.Host ++
        (u.Path.take i ++ (str "%25" ++ [url.upperhex (u.Path.getD i 0 / 16),
          url.upperhex (u.Path.getD i 0 % 16)]) ++ u.Path.drop (i + 1)))) := by
  unfold doubleEncodingURLs
  simp only []
  rw [if_neg hne]
  unfold utf8.rangeString
  rw [rangeLoop_ascii u.Path _ 0 (Nat.le_refl _) (fun b hb => (hascii b hb).2),
    List.filterMap_map]
  apply List.filterMap_congr
  intro i hi
  have hlt : i < u.Path.length := List.mem_range.mp hi
  have hmem : u.Path.getD i 0 ∈ u.Path := by
    rw [List.getD_eq_getElem _ _ hlt]
    exact List.getElem_mem hlt
  obtain ⟨h1, h2⟩ := hascii _ hmem
  simp only [Function.comp, Nat.zero_add]
  by_cases hc : u.Path.getD i 0 = 0x2F
  · rw [if_pos hc, if_pos hc]
  · rw [if_neg hc, if_neg hc, doubleEncoded_ascii _ h1 h2]

end bypass

/-! ## The bypass engine: mid-path probes -/

namespace strings

/-- `splitLoop` always returns at least one part. -/
theorem splitLoop_ne_nil (fuel : Nat) (s sep : Bytes) : splitLoop fuel s sep ≠ [] := by
  cases fuel with
  | zero => simp [splitLoop]
  | succ fuel =>
    rw [splitLoop]
    cases Index s sep <;> simp

theorem Join_cons_cons (c : Nat) (a : Bytes) (l : List Bytes) (sep : Bytes) :
    Join ((c :: a) :: l) sep = c :: Join (a :: l) sep := by
  cases l with
  | nil => rfl
  | cons b l => simp [Join]

/-- Joining the parts of a string with the separator it was cut at gives it back. -/
theorem Join_splitLoop (d : Nat) : ∀ (s : Bytes) (fuel : Nat), s.length ≤ fuel →
    Join (splitLoop fuel s [d]) [d] = s := by
  intro s
  induction s with
  | nil =>
    intro fuel _
    cases fuel with
    | zero => rfl
    | succ n => simp [splitLoop, Index, Join]
  | cons c s ih =>
    intro fuel hf
    cases fuel with
    | zero => simp at hf
    | succ fuel =>
      have hf' : s.length ≤ fuel := by simp at hf; omega
      by_cases hc : c = d
      · subst hc
        rw [splitLoop_cons_eq]
        have hne := splitLoop_ne_nil fuel s [c]
        have hih := ih fuel hf'
        cases hsp : splitLoop fuel s [c] with
        | nil => exact absurd hsp hne
        | cons b l =>
          rw [hsp] at hih
          rw [Join, hih]
          rfl
      · obtain ⟨f1, p1, e1, e2⟩ := splitLoop_cons_ne c d hc s (fuel + 1)
        have hih := ih (fuel + 1) (by omega)
        rw [e1] at hih
        rw [e2, Join_cons_cons, hih]

/-- `Trim` with a one-byte cutset takes a leading separator and an optional trailing one
off a string that neither begins nor ends with it. -/
theorem Trim_core (d : Nat) (s t : Bytes) (hs : s ≠ []) (hh : s.head? ≠ some d)
    (hl : s.getLast? ≠ some d) (ht : t = [] ∨ t = [d]) : Trim (d :: (s ++ t)) [d] = s := by
  unfold Trim
  have hc : ∀ b : Nat, ([d] : Bytes).contains b = decide (b = d) := by
    intro b
    by_cases hb : b = d
    · simp [List.contains, List.elem, hb]
    · have hbeq : (b == d) = false := beq_eq_false_iff_ne.mpr hb
      simp [List.contains, List.elem, hb, hbeq]
  simp only [hc]
  have hleft : (d :: (s ++ t)).dropWhile (fun b => decide (b = d)) = s ++ t := by
    cases s with
    | nil => exact absurd rfl hs
    | cons a s' =>
      have ha : a ≠ d := by
        intro e
        apply hh
        simp [e]
      simp [List.dropWhile, ha]
  rw [hleft]
  have hright : (s ++ t).reverse.dropWhile (fun b => decide (b = d)) = s.reverse := by
    obtain ⟨init, last, rfl⟩ : ∃ init last, s = init ++ [last] :=
      ⟨s.dropLast, s.getLast hs, (List.dropLast_append_getLast hs).symm⟩
    have hlast : last ≠ d := by
      intro e
      apply hl
      simp [e]
    rcases ht with h | h
    · subst h
      simp [List.dropWhile, hlast]
    · subst h
      simp [List.dropWhile, hlast]
  rw [hright, List.reverse_reverse]

end strings

namespace bypass

/-- The URLs of `midPathBypass` once the pieces it computes are known. -/
theorem midPathURLs_of (u : url.URL) (core lastSegment : Bytes) (baseSegments : List Bytes)
    (hne : ¬ (u.Path = str "" ∨ u.Path = str "/"))
    (htrim : strings.Trim u.Path (str "/") = core)
    (hsplit : strings.Split core (str "/") = baseSegments ++ [lastSegment]) :
    midPathURLs u = MidPathPayloads.map (fun payload =>
      if strings.HasSuffix u.Path (str "/") = true then
        u.Scheme ++ str "://" ++ u.Host
          ++ (if baseSegments.length > 0 then
                str "/" ++ strings.Join baseSegments (str "/") ++ str "/"
              else str "/")
          ++ payload ++ lastSegment ++ str "/"
      else
        u.Scheme ++ str "://" ++ u.Host
          ++ (if baseSegments.length > 0 then
                str "/" ++ strings.Join baseSegments (str "/") ++ str "/"
              else str "/")
          ++ payload ++ lastSegment) := by
  unfold midPathURLs
  simp only []
  rw [if_neg hne, htrim, hsplit]
  have hlen : (baseSegments ++ [lastSegment]).length - 1 = baseSegments.length := by simp
  have hnz : ¬ (baseSegments ++ [lastSegment]).length = 0 := by simp
  rw [if_neg hnz, hlen]
  have hget : (baseSegments ++ [lastSegment]).getD baseSegments.length [] = lastSegment := by
    simp [List.getD]
  have htake : (baseSegments ++ [lastSegment]).take baseSegments.length = baseSegments := by
    simp
  rw [hget, htake]

/-- C27 (amended): for every target path written as basePath + `/` + lastSegment with an
optional trailing `/`, where lastSegment is not empty and holds no `/` and basePath is
empty or begins with `/` followed by a character other than `/`, and every mid-path
payload `p`, the mid-path probe requests exactly scheme://host + basePath + `/` + `p` +
lastSegment, followed by `/` if and only if the original path ended with `/`; for an
empty or `/` path no mid-path probe is made. -/
theorem midPath_url (u : url.URL) :
    (∀ basePath lastSegment trailing : Bytes,
        u.Path = basePath ++ str "/" ++ lastSegment ++ trailing →
        lastSegment ≠ [] → 0x2F ∉ lastSegment →
        (trailing = [] ∨ trailing = str "/") →
        (basePath = [] ∨ ∃ b rest, basePath = 0x2F :: b :: rest ∧ b ≠ 0x2F) →
        midPathURLs u = MidPathPayloads.map (fun p =>
            u.Scheme ++ str "://" ++ u.Host ++ basePath ++ str "/" ++ p ++ lastSegment
              ++ trailing)
          ∧ (strings.HasSuffix u.Path (str "/") = true ↔ trailing = str "/"))
      ∧ (u.Path = [] ∨ u.Path = str "/" → midPathURLs u = []) := by
  have hs : str "/" = [0x2F] := rfl
  have hnil : str "" = [] := rfl
  constructor
  · intro basePath lastSegment trailing hpath hne hfree htrail hbase
    have hlastne : lastSegment.getLast? ≠ some 0x2F := by
      intro h
      exact hfree (List.mem_of_getLast?_eq_some h)
    have hheadne : lastSegment.head? ≠ some 0x2F := by
      intro h
      exact hfree (List.mem_of_mem_head? h)
    have hsuffix : strings.HasSuffix u.Path (str "/") = true ↔ trailing = str "/" := by
      unfold strings.HasSuffix
      rw [List.isSuffixOf_iff_suffix, hpath, hs]
      rcases htrail with h | h
      · subst h
        rw [List.append_nil]
        constructor
        · intro hsuf
          exfalso
          obtain ⟨init, last, rfl⟩ : ∃ init last, lastSegment = init ++ [last] :=
            ⟨lastSegment.dropLast, lastSegment.getLast hne,
              (List.dropLast_append_getLast hne).symm⟩
          have hl : last ≠ 0x2F := by
            intro e
            exact hfree (by simp [e])
          obtain ⟨pre, hpre⟩ := hsuf
          have := congrArg List.reverse hpre
          simp only [List.reverse_append, List.reverse_cons, List.reverse_nil,
            List.nil_append, List.singleton_append, List.cons_append] at this
          exact hl (List.cons.inj this).1.symm
        · intro h; cases h
      · rw [h, hs]
        constructor
        · intro _; rfl
        · intro _
          exact ⟨basePath ++ [0x2F] ++ lastSegment, rfl⟩
    refine ⟨?_, hsuffix⟩
    have hpne : ¬ (u.Path = str "" ∨ u.Path = str "/") := by
      rw [hnil, hs, hpath, hs]
      have hl : 0 < lastSegment.length := List.length_pos.mpr hne
      rintro (h | h)
      · have := congrArg List.length h
        simp at this
      · have := congrArg List.length h
        simp at this
        omega
    rcases hbase with hb | ⟨b, rest, hb, hbne⟩
    · subst hb
      have htrim : strings.Trim u.Path (str "/") = lastSegment := by
        rw [hpath, hs]
        exact strings.Trim_core 0x2F lastSegment trailing hne hheadne hlastne
          (by rw [← hs]; exact htrail)
      have hsplit : strings.Split lastSegment (str "/") = [] ++ [lastSegment] := by
        unfold strings.Split
        rw [hs, strings.splitLoop_free 0x2F lastSegment hfree]
        rfl
      rw [midPathURLs_of u lastSegment lastSegment [] hpne htrim hsplit]
      apply List.map_congr_left
      intro p _
      rcases htrail with h | h
      · have hno : ¬ strings.HasSuffix u.Path (str "/") = true := by
          rw [hsuffix, h]; decide
        rw [if_neg hno, h]
        simp
      · have hyes : strings.HasSuffix u.Path (str "/") = true := hsuffix.mpr h
        rw [if_pos hyes, h]
        simp
    · subst hb
      have htrim : strings.Trim u.Path (str "/") = (b :: rest) ++ 0x2F :: lastSegment := by
        rw [hpath, hs]
        have := strings.Trim_core 0x2F ((b :: rest) ++ 0x2F :: lastSegment) trailing
          (by simp) (by simp [hbne])
          (by
            rw [List.getLast?_append_of_ne_nil _ (by simp)]
            cases lastSegment with
            | nil => exact absurd rfl hne
            | cons a l => rw [List.getLast?_cons_cons]; exact hlastne)
          (by rw [← hs]; exact htrail)
        simpa using this
      have hsplit : strings.Split ((b :: rest) ++ 0x2F :: lastSegment) (str "/")
          = strings.splitLoop (b :: rest).length (b :: rest) [0x2F] ++ [lastSegment] := by
        unfold strings.Split
        rw [hs]
        exact strings.splitLoop_snoc 0x2F lastSegment hfree (b :: rest) _ _
          (by simp; omega) (Nat.le_refl _)
      rw [midPathURLs_of u _ lastSegment _ hpne htrim hsplit]
      have hpos : (strings.splitLoop (b :: rest).length (b :: rest) [0x2F]).length > 0 :=
        List.length_pos.mpr (strings.splitLoop_ne_nil _ _ _)
      have hjoin := strings.Join_splitLoop 0x2F (b :: rest) (b :: rest).length (Nat.le_refl _)
      rw [if_pos hpos, hs, hjoin]
      apply List.map_congr_left
      intro p _
      rcases htrail with h | h
      · have hno : ¬ strings.HasSuffix u.Path [0x2F] = true := by
          rw [← hs, hsuffix, h]; decide
        rw [if_neg hno, h]
        simp
      · have hyes : strings.HasSuffix u.Path [0x2F] = true := by
          rw [← hs]; exact hsuffix.mpr h
        rw [if_pos hyes, h, hs]
        simp
  · intro h
    unfold midPathURLs
    simp only []
    rw [if_pos (by rw [hnil]; exact h)]

theorem midPath_url_witness :
    midPathURLs { Scheme := str "https", Host := str "test", Path := str "/api/admin/",
                  RawQuery := [] }
      = MidPathPayloads.map (fun p =>
          str "https" ++ str "://" ++ str "test" ++ str "/api" ++ str "/" ++ p ++ str "admin"
            ++ str "/") :=
  ((midPath_url { Scheme := str "https", Host := str "test", Path := str "/api/admin/",
                  RawQuery := [] }).1
    (str "/api") (str "admin") (str "/") (by decide) (by decide) (by decide) (Or.inr rfl)
    (Or.inr ⟨0x61, str "pi", by decide, by decide⟩)).1

/-- C27 fails as stated: the path `/admin` is basePath + `/` + lastSegment with an empty
basePath and lastSegment `admin`, so with the payload `/./` the claim gives the request
`https://test` + `/./` + `admin`, but the code requests `https://test//./admin`: its
base path keeps the `/` before the last segment, and the payload brings its own. -/
theorem midPath_keeps_slash :
    str "/admin" = str "" ++ str "/" ++ str "admin"
      ∧ MidPathPayloads.getD 0 [] = str "/./"
      ∧ (midPathURLs { Scheme := str "https", Host := str "test", Path := str "/admin",
                       RawQuery := [] }).getD 0 []
          = str "https://test//./admin"
      ∧ (midPathURLs { Scheme := str "https", Host := str "test", Path := str "/admin",
                       RawQuery := [] }).getD 0 []
          ≠ str "https://test" ++ str "" ++ str "/./" ++ str "admin" := by
  decide

end bypass

/-! ## The bypass engine: end-path probes -/

namespace bypass

/-- C28 (amended): for every target URL and every entry of the end-path suffix list, the
end-path probe URL is the target URL followed by the suffix when exactly one of the two
has the `/` at the join; when the target does not end with `/` and the suffix does not
begin with `/`, a `/` is inserted between them, and when the target ends with `/` and the
suffix begins with `/`, the leading `/` of the suffix is dropped. -/
theorem endPath_url (s : Scanner) :
    endPathURLs s = EndPathPayloads.map (fun payload =>
      if strings.HasSuffix s.targetURL (str "/") = true then
        (if strings.HasPrefix payload (str "/") = true then s.targetURL ++ payload.drop 1
         else s.targetURL ++ payload)
      else
        (if strings.HasPrefix payload (str "/") = true then s.targetURL ++ payload
         else s.targetURL ++ str "/" ++ payload)) := by
  unfold endPathURLs
  apply List.map_congr_left
  intro payload _
  unfold utils.JoinURL
  by_cases hb : strings.HasSuffix s.targetURL (str "/") = true
    <;> by_cases hp : strings.HasPrefix payload (str "/") = true
    <;> simp [hb, hp]

/-- C28 fails as stated: the target `https://test/admin` does not end with `/` and the
suffix `?` of the list does not begin with one, so the probe URL is
`https://test/admin/?`, with a `/` inserted at the join, not `https://test/admin?`. -/
theorem endPath_inserts_slash :
    EndPathPayloads.getD 11 [] = str "?"
      ∧ (endPathURLs (NewScanner (str "GET") (str "https://test/admin") (str ""))).getD 11 []
          = str "https://test/admin/?"
      ∧ (endPathURLs (NewScanner (str "GET") (str "https://test/admin") (str ""))).getD 11 []
          ≠ str "https://test/admin" ++ str "?" := by
  decide

end bypass

/-! ## The retry loop of the HTTP client -/

namespace httpclient

/-- The duration `Client.Do` computes for the wait of round `i` is `500·(i+1)` ms as long
as that fits a `Duration`. -/
theorem sleep_duration (i : Nat) (h : (i : Int) + 1 ≤ 18446744073) :
    int64 (int64 (int64 ((i : Int) + 1) * 500) * time.Millisecond)
      = 500 * ((i : Int) + 1) * time.Millisecond := by
  have e63 : (2 : Int) ^ 63 = 9223372036854775808 := by norm_num
  have e64 : (2 : Int) ^ 64 = 18446744073709551616 := by norm_num
  have hi : (0 : Int) ≤ (i : Int) := Int.ofNat_nonneg i
  have w : ∀ x : Int, -9223372036854775808 ≤ x → x < 9223372036854775808 → int64 x = x := by
    intro x h1 h2
    unfold int64
    rw [e63, e64, Int.emod_eq_of_lt (by omega) (by omega)]
    omega
  unfold time.Millisecond
  rw [w ((i : Int) + 1) (by omega) (by omega), w (((i : Int) + 1) * 500) (by omega) (by omega),
    w _ (by omega) (by omega)]
  ring

/-- One failed round that is not the last: the attempt, the wait, and on to the next. -/
theorem doLoop_fail_step {α ε : Type} (c : Client) (send : Nat → Except ε α)
    (fuel i : Nat) (lastErr : Option ε) (events : List Event) (e : ε)
    (hsend : send i = .error e) (hlast : (i : Int) < c.retries - 1)
    (hbound : (i : Int) + 1 ≤ 18446744073) :
    doLoop c send (fuel + 1) i lastErr events
      = doLoop c send fuel (i + 1) (some e)
          (events ++ [Event.attempt i,
            Event.sleep (500 * ((i : Int) + 1) * time.Millisecond)]) := by
  rw [doLoop, hsend]
  simp only []
  rw [if_pos hlast, sleep_duration i hbound, List.append_assoc]
  rfl

/-- Failed rounds before the last one leave the backoff trace behind. -/
theorem doLoop_failed_rounds {α ε : Type} (c : Client) (send : Nat → Except ε α) (m : Nat) :
    ∀ (n i : Nat) (lastErr : Option ε) (events : List Event),
      (∀ j, i ≤ j → j < i + n → ∃ e, send j = .error e) →
      ((i : Int) + n ≤ c.retries - 1) → ((i : Int) + n ≤ 18446744073) →
      ∃ lastErr', doLoop c send (n + m) i lastErr events
        = doLoop c send m (i + n) lastErr' (events ++ backoffFrom i n) := by
  intro n
  induction n with
  | zero =>
    intro i lastErr events _ _ _
    exact ⟨lastErr, by simp [backoffFrom]⟩
  | succ n ih =>
    intro i lastErr events hfail hlast hbound
    obtain ⟨e, he⟩ := hfail i (Nat.le_refl i) (by omega)
    have hstep := doLoop_fail_step c send (n + m) i lastErr events e he
      (by push_cast at hlast; omega) (by push_cast at hbound; omega)
    obtain ⟨lastErr', h'⟩ := ih (i + 1) (some e)
      (events ++ [Event.attempt i, Event.sleep (500 * ((i : Int) + 1) * time.Millisecond)])
      (fun j h1 h2 => hfail j (by omega) (by omega))
      (by push_cast at hlast ⊢; omega) (by push_cast at hbound ⊢; omega)
    refine ⟨lastErr', ?_⟩
    have e1 : n + 1 + m = (n + m) + 1 := by omega
    have e2 : i + (n + 1) = i + 1 + n := by omega
    rw [e1, hstep, h', e2, List.append_assoc]
    rfl

/-- The attempts in a backoff trace. -/
theorem countP_backoffFrom : ∀ (n i : Nat),
    (backoffFrom i n).countP Event.isAttempt = n := by
  intro n
  induction n with
  | zero => intro i; rfl
  | succ n ih =>
    intro i
    rw [backoffFrom, List.countP_append, ih]
    simp [Event.isAttempt]
    omega

/-- Among the first `R` rounds either all fail, or there is a first one that succeeds. -/
theorem first_ok_or_all_fail {α ε : Type} (send : Nat → Except ε α) : ∀ R : Nat,
    (∀ j < R, ∃ e, send j = .error e)
      ∨ ∃ k < R, ∃ resp, send k = .ok resp ∧ ∀ j < k, ∃ e, send j = .error e := by
  intro R
  induction R with
  | zero => left; intro j hj; omega
  | succ R ih =>
    rcases ih with hall | ⟨k, hk, resp, hok, hpre⟩
    · cases hs : send R with
      | error e =>
        left
        intro j hj
        by_cases hjR : j = R
        · exact ⟨e, by rw [hjR, hs]⟩
        · exact hall j (by omega)
      | ok resp => right; exact ⟨R, by omega, resp, hs, hall⟩
    · right; exact ⟨k, by omega, resp, hok, hpre⟩

/-- A run whose first success is in round `k`. -/
theorem Do_ok {α ε : Type} (c : Client) (send : Nat → Except ε α) (R : Nat)
    (hc : c.retries = (R : Int)) (hb : R ≤ 18446744074) (k : Nat) (resp : α) (hk : k < R)
    (hfail : ∀ j < k, ∃ e, send j = .error e) (hok : send k = .ok resp) :
    c.Do send = (.ok resp, backoff k ++ [Event.attempt k]) := by
  unfold Client.Do backoff
  rw [hc, Int.toNat_ofNat]
  obtain ⟨m, hm⟩ : ∃ m, R = k + (m + 1) := ⟨R - k - 1, by omega⟩
  obtain ⟨lastErr', h'⟩ := doLoop_failed_rounds c send (m + 1) k 0 none []
    (fun j _ h2 => hfail j (by omega))
    (by rw [hc]; push_cast; omega) (by push_cast; omega)
  rw [hm, h', doLoop, Nat.zero_add, hok]
  simp

/-- A run in which every round fails. -/
theorem Do_fail {α ε : Type} (c : Client) (send : Nat → Except ε α) (R : Nat)
    (hc : c.retries = (R : Int)) (hb : R ≤ 18446744074) (hpos : 1 ≤ R) (err : ε)
    (hfail : ∀ j < R, ∃ e, send j = .error e) (hlast : send (R - 1) = .error err) :
    c.Do send
      = (.error (c.retries, some err), backoff (R - 1) ++ [Event.attempt (R - 1)]) := by
  unfold Client.Do backoff
  rw [hc, Int.toNat_ofNat]
  obtain ⟨n, hn⟩ : ∃ n, R = n + 1 := ⟨R - 1, by omega⟩
  subst hn
  obtain ⟨lastErr', h'⟩ := doLoop_failed_rounds c send 1 n 0 none []
    (fun j _ h2 => hfail j (by omega))
    (by rw [hc]; push_cast; omega) (by push_cast; omega)
  rw [Nat.add_sub_cancel] at hlast ⊢
  rw [h', doLoop, Nat.zero_add, hlast]
  simp only []
  rw [if_neg (by rw [hc]; push_cast; omega), doLoop, hc]
  simp

/-- C29: for every configured retry count `R` (a value ≤ 0 is treated as 1) and every
sequence of attempt outcomes, `Client.Do` makes at most `R` attempts, returns the first
successful response without attempting again, waits `500·i` ms after the `i`-th failed
attempt except after the last one, and returns an error if and only if all `R` attempts
failed. The retry count is taken within the range in which every wait fits a `Duration`,
`R ≤ 18446744074`; every caller passes `Config.Retries`, which is 1. -/
theorem Do_retries {α ε : Type} (opts : Options) (send : Nat → Except ε α)
    (hR : opts.Retries ≤ 18446744074) :
    (New opts).retries = (if opts.Retries ≤ 0 then 1 else opts.Retries)
      ∧ (∀ (k : Nat) (resp : α), (k : Int) < (New opts).retries →
          (∀ j < k, ∃ e, send j = .error e) → send k = .ok resp →
          (New opts).Do send = (.ok resp, backoff k ++ [Event.attempt k]))
      ∧ (∀ err, (∀ j : Nat, (j : Int) < (New opts).retries → ∃ e, send j = .error e) →
          send ((New opts).retries.toNat - 1) = .error err →
          (New opts).Do send
            = (.error ((New opts).retries, some err),
               backoff ((New opts).retries.toNat - 1)
                 ++ [Event.attempt ((New opts).retries.toNat - 1)]))
      ∧ ((∃ x, ((New opts).Do send).1 = .error x)
          ↔ ∀ j : Nat, (j : Int) < (New opts).retries → ∃ e, send j = .error e)
      ∧ ((New opts).Do send).2.countP Event.isAttempt ≤ (New opts).retries.toNat := by
  have hnew : (New opts).retries = (if opts.Retries ≤ 0 then 1 else opts.Retries) := rfl
  obtain ⟨R, hc, hpos, hb⟩ : ∃ R : Nat, (New opts).retries = (R : Int) ∧ 1 ≤ R
      ∧ R ≤ 18446744074 := by
    rw [hnew]
    by_cases h0 : opts.Retries ≤ 0
    · exact ⟨1, by rw [if_pos h0]; rfl, by omega, by omega⟩
    · refine ⟨opts.Retries.toNat, ?_, ?_, ?_⟩
      · rw [if_neg h0]; omega
      · omega
      · omega
  have htn : (New opts).retries.toNat = R := by rw [hc, Int.toNat_ofNat]
  have hlt : ∀ j : Nat, (j : Int) < (New opts).retries ↔ j < R := by
    intro j; rw [hc]; omega
  refine ⟨hnew, ?_, ?_, ?_, ?_⟩
  · intro k resp hk hfail hok
    exact Do_ok _ send R hc hb k resp ((hlt k).mp hk) hfail hok
  · intro err hfail hlast
    rw [htn] at hlast ⊢
    exact Do_fail _ send R hc hb hpos err (fun j hj => hfail j ((hlt j).mpr hj)) hlast
  · rcases first_ok_or_all_fail send R with hall | ⟨k, hk, resp, hok, hpre⟩
    · obtain ⟨err, herr⟩ := hall (R - 1) (by omega)
      rw [Do_fail _ send R hc hb hpos err hall herr]
      constructor
      · intro _ j hj
        exact hall j ((hlt j).mp hj)
      · intro _
        exact ⟨_, rfl⟩
    · rw [Do_ok _ send R hc hb k resp hk hpre hok]
      constructor
      · rintro ⟨x, hx⟩
        cases hx
      · intro hall
        obtain ⟨e, he⟩ := hall k ((hlt k).mpr hk)
        rw [hok] at he
        cases he
  · rw [htn]
    rcases first_ok_or_all_fail send R with hall | ⟨k, hk, resp, hok, hpre⟩
    · obtain ⟨err, herr⟩ := hall (R - 1) (by omega)
      rw [Do_fail _ send R hc hb hpos err hall herr]
      simp only [backoff, List.countP_append, countP_backoffFrom]
      simp [Event.isAttempt]
      omega
    · rw [Do_ok _ send R hc hb k resp hk hpre hok]
      simp only [backoff, List.countP_append, countP_backoffFrom]
      simp [Event.isAttempt]
      omega

theorem Do_retries_witness :
    (New { Timeout := 0, Proxy := none, UserAgent := [], Headers := [], Retries := 3,
           Redirect := false, Insecure := true }).Do
        (fun i => if i = 2 then (.ok 200 : Except Unit Nat) else .error ())
      = (.ok 200, [Event.attempt 0, Event.sleep 500000000, Event.attempt 1,
          Event.sleep 1000000000, Event.attempt 2]) :=
  (Do_retries { Timeout := 0, Proxy := none, UserAgent := [], Headers := [], Retries := 3,
                Redirect := false, Insecure := true }
    (fun i => if i = 2 then (.ok 200 : Except Unit Nat) else .error ()) (by decide)).2.1
    2 200 (by decide)
    (fun j hj => ⟨(), by
      have : j ≠ 2 := by omega
      simp [this]⟩)
    rfl

/-- What is done is only added to while the loop runs. -/
theorem doLoop_events_subset {α ε : Type} (c : Client) (send : Nat → Except ε α) :
    ∀ (fuel i : Nat) (lastErr : Option ε) (events : List Event),
      ∀ ev ∈ events, ev ∈ (doLoop c send fuel i lastErr events).2 := by
  intro fuel
  induction fuel with
  | zero => intro i lastErr events ev hev; exact hev
  | succ fuel ih =>
    intro i lastErr events ev hev
    rw [doLoop]
    cases hs : send i with
    | ok resp => exact List.mem_append_left _ hev
    | error e =>
      simp only []
      apply ih
      split
      · exact List.mem_append_left _ (List.mem_append_left _ hev)
      · exact List.mem_append_left _ hev

/-- While every round fails, each round before the last is followed by the sleep the
loop computes for it. -/
theorem doLoop_sleep_mem {α ε : Type} (c : Client) (send : Nat → Except ε α)
    (hsend : ∀ k, ∃ e, send k = .error e) :
    ∀ (fuel i : Nat) (lastErr : Option ε) (events : List Event) (j : Nat),
      i ≤ j → j < i + fuel → (j : Int) < c.retries - 1 →
      Event.sleep (int64 (int64 (int64 ((j : Int) + 1) * 500) * time.Millisecond))
        ∈ (doLoop c send fuel i lastErr events).2 := by
  intro fuel
  induction fuel with
  | zero => intro i lastErr events j h1 h2; omega
  | succ fuel ih =>
    intro i lastErr events j h1 h2 h3
    obtain ⟨e, he⟩ := hsend i
    rw [doLoop, he]
    simp only []
    by_cases hji : j = i
    · subst hji
      rw [if_pos h3]
      apply doLoop_events_subset
      simp
    · exact ih (i + 1) _ _ j (by omega) (by omega) h3

/-- Why `Do_retries` bounds the retry count: with 18446744075 rounds that all fail, the
wait after the 18446744074-th failed attempt would last `500·18446744074` ms, more than
a `Duration` holds; the product wraps around and the loop calls `time.Sleep` with a
negative duration. No caller of the repository passes such a count. -/
theorem backoff_overflows :
    ∃ d, d < 0 ∧ Event.sleep d ∈
      ((New { Timeout := 0, Proxy := none, UserAgent := [], Headers := [],
              Retries := 18446744075, Redirect := false, Insecure := true }).Do
        (fun _ => (.error () : Except Unit Nat))).2 := by
  refine ⟨int64 (int64 (int64 (((18446744073 : Nat) : Int) + 1) * 500) * time.Millisecond),
    by decide, ?_⟩
  unfold Client.Do
  exact doLoop_sleep_mem _ _ (fun _ => ⟨(), rfl⟩) _ 0 none [] 18446744073 (by omega)
    (by decide) (by decide)

end httpclient

/-! ## `readFrame` on an arbitrary byte stream -/

namespace smuggle

/-- The three length bytes of a header as `readFrame` combines them are the big-endian
number they spell. -/
theorem length24_eq (b0 b1 b2 : Nat) (h1 : b1 < 256) (h2 : b2 < 256) :
    b0 <<< 16 ||| b1 <<< 8 ||| b2 = fromBigEndian [b0, b1, b2] := by
  have e1 : b1 <<< 8 < 2 ^ 16 := by rw [Nat.shiftLeft_eq]; omega
  rw [shiftLeft_lor_eq b0 _ 16 e1, Nat.shiftLeft_eq]
  have e2 : b0 * 2 ^ 16 + b1 * 2 ^ 8 = (b0 * 2 ^ 8 + b1) <<< 8 := by
    rw [Nat.shiftLeft_eq]; omega
  rw [e2, shiftLeft_lor_eq _ b2 8 (by omega)]
  simp only [fromBigEndian, List.foldl_cons, List.foldl_nil]
  omega

/-- `readFrame` on a stream of at least nine bytes. -/
theorem readFrame_cons9 (b0 b1 b2 b3 b4 b5 b6 b7 b8 : Nat) (rest : Bytes) :
    readFrame bytesReadFull (b0 :: b1 :: b2 :: b3 :: b4 :: b5 :: b6 :: b7 :: b8 :: rest)
      = (if b0 <<< 16 ||| b1 <<< 8 ||| b2 > 0 then
          match bytesReadFull rest (b0 <<< 16 ||| b1 <<< 8 ||| b2) with
          | .error err => .error err
          | .ok (p, r2) =>
            .ok ({ Length := b0 <<< 16 ||| b1 <<< 8 ||| b2, FType := b3, Flags := b4,
                   StreamID := uint32 [b5, b6, b7, b8] &&& 0x7fffffff, Payload := p }, r2)
         else
          .ok ({ Length := b0 <<< 16 ||| b1 <<< 8 ||| b2, FType := b3, Flags := b4,
                 StreamID := uint32 [b5, b6, b7, b8] &&& 0x7fffffff, Payload := [] }, rest)) := by
  have h9 : bytesReadFull (b0 :: b1 :: b2 :: b3 :: b4 :: b5 :: b6 :: b7 :: b8 :: rest) 9
      = .ok ([b0, b1, b2, b3, b4, b5, b6, b7, b8], rest) := by
    unfold bytesReadFull
    rw [if_pos (by simp only [List.length_cons]; omega)]
    rfl
  unfold readFrame
  rw [h9]
  simp only [List.getD_cons_succ, List.getD_cons_zero, List.drop_succ_cons, List.drop_zero,
    List.take_succ_cons, List.take_zero]
  by_cases hpos : b0 <<< 16 ||| b1 <<< 8 ||| b2 > 0
  · rw [if_pos hpos, if_pos hpos]
    cases bytesReadFull rest (b0 <<< 16 ||| b1 <<< 8 ||| b2) with
    | error err => rfl
    | ok v => rfl
  · rw [if_neg hpos, if_neg hpos]

/-- C30: for every input byte stream, `readFrame` returns a frame exactly when the stream
holds at least 9 header bytes and at least as many further bytes as the 24-bit length
field (the first three bytes, big-endian) declares; it then consumes exactly 9 + length
bytes, the payload is the `length` bytes after the header, and the stream id is below
`2^31`. Otherwise it returns an error and no frame. -/
theorem readFrame_complete (r : Bytes) (hr : ∀ b ∈ r, b < 256) :
    (9 ≤ r.length ∧ 9 + fromBigEndian (r.take 3) ≤ r.length →
      ∃ f, readFrame bytesReadFull r = .ok (f, r.drop (9 + fromBigEndian (r.take 3)))
        ∧ f.Length = fromBigEndian (r.take 3)
        ∧ f.Payload = (r.drop 9).take (fromBigEndian (r.take 3))
        ∧ f.Payload.length = f.Length
        ∧ f.StreamID < 2 ^ 31)
      ∧ (¬ (9 ≤ r.length ∧ 9 + fromBigEndian (r.take 3) ≤ r.length) →
        ∃ err, readFrame bytesReadFull r = .error err) := by
  by_cases h9 : 9 ≤ r.length
  · obtain ⟨b0, b1, b2, b3, b4, b5, b6, b7, b8, rest, rfl⟩ :
        ∃ b0 b1 b2 b3 b4 b5 b6 b7 b8 rest,
          r = b0 :: b1 :: b2 :: b3 :: b4 :: b5 :: b6 :: b7 :: b8 :: rest := by
      rcases r with _ | ⟨b0, _ | ⟨b1, _ | ⟨b2, _ | ⟨b3, _ | ⟨b4, _ | ⟨b5, _ | ⟨b6, _ |
        ⟨b7, _ | ⟨b8, rest⟩⟩⟩⟩⟩⟩⟩⟩⟩
      all_goals first
        | exact ⟨_, _, _, _, _, _, _, _, _, _, rfl⟩
        | (simp only [List.length_cons, List.length_nil] at h9; omega)
    have hb1 : b1 < 256 := hr b1 (by simp)
    have hb2 : b2 < 256 := hr b2 (by simp)
    have hlen := length24_eq b0 b1 b2 hb1 hb2
    have htake : (b0 :: b1 :: b2 :: b3 :: b4 :: b5 :: b6 :: b7 :: b8 :: rest).take 3
        = [b0, b1, b2] := rfl
    rw [htake, readFrame_cons9, hlen]
    generalize fromBigEndian [b0, b1, b2] = n
    have hdrop : ∀ k, (b0 :: b1 :: b2 :: b3 :: b4 :: b5 :: b6 :: b7 :: b8 :: rest).drop (9 + k)
        = rest.drop k := by
      intro k
      rw [Nat.add_comm]
      rfl
    have hmask : uint32 [b5, b6, b7, b8] &&& 0x7fffffff < 2 ^ 31 := by
      rw [land_mask31]
      exact Nat.mod_lt _ (by norm_num)
    simp only [List.length_cons] at *
    constructor
    · rintro ⟨_, hn⟩
      have hn' : n ≤ rest.length := by omega
      by_cases hpos : n > 0
      · rw [if_pos hpos]
        have hread : bytesReadFull rest n = .ok (rest.take n, rest.drop n) := by
          unfold bytesReadFull
          rw [if_pos hn']
        rw [hread, hdrop]
        refine ⟨_, rfl, rfl, ?_, ?_, hmask⟩
        · rw [hdrop 0]; rfl
        · simp only [List.length_take]; omega
      · have h0 : n = 0 := by omega
        subst h0
        rw [if_neg hpos, hdrop]
        exact ⟨_, rfl, rfl, by simp, rfl, hmask⟩
    · intro hnot
      have hn' : ¬ n ≤ rest.length := by omega
      have hpos : n > 0 := by omega
      rw [if_pos hpos]
      unfold bytesReadFull
      rw [if_neg hn']
      by_cases he : rest.length = 0
      · rw [if_pos he]; exact ⟨_, rfl⟩
      · rw [if_neg he]; exact ⟨_, rfl⟩
  · constructor
    · intro h; exact absurd h.1 h9
    · intro _
      unfold readFrame bytesReadFull
      rw [if_neg h9]
      by_cases he : r.length = 0
      · rw [if_pos he]; exact ⟨_, rfl⟩
      · rw [if_neg he]; exact ⟨_, rfl⟩

theorem readFrame_complete_witness :
    ∃ f, readFrame bytesReadFull [0, 0, 2, 1, 4, 0, 0, 0, 1, 0x83, 0x87, 0xFF] = .ok (f, [0xFF])
      ∧ f.Payload = [0x83, 0x87] ∧ f.StreamID < 2 ^ 31 := by
  obtain ⟨f, h1, _, h3, _, h5⟩ :=
    (readFrame_complete [0, 0, 2, 1, 4, 0, 0, 0, 1, 0x83, 0x87, 0xFF] (by decide)).1
      (by decide)
  exact ⟨f, h1, h3, h5⟩

end smuggle
end Httpsuite
